import Mathlib

/-!
# sjtu::map — a height-balanced (AVL) ordered map

Verification development for `include/map.hpp`.

Modelling conventions.

* A `node*` that owns a subtree is a value of `Tree`: `Tree.nil` is `nullptr`,
  `Tree.node addr left right height value` is a live node stored at address
  `addr`.  The non-owning `parent` field is not stored: a position inside a
  tree is a subtree together with the list of `Frame`s that lead from it up
  to the root, so `hot->parent` is the next frame, and `is_lchild()` /
  `is_rchild()` / `pointer_in_parent` are read off the innermost frame.
* A bare `node*` held by an iterator is the address of the node
  (`Option Nat`, `none` for `nullptr`); dereferencing it is `locate`.
* `new node` returns an address chosen by the allocator; it is a parameter
  (`fresh`) of the operations that allocate.
* `int height` is an `Int`; `size_t map_size` is a `Nat` (the number of live
  nodes is bounded by the address space, so the counter never wraps when it
  is incremented).
* A thrown exception is `Except.error`; dereferencing `nullptr` (undefined
  behaviour in the source) is reported as `Failure.null_dereference`.
-/

namespace sjtu

/-- Ways in which a call can fail: the two exception classes that `map.hpp`
throws, and the dereference of a null (or dangling) pointer. -/
inductive Failure where
  | index_out_of_bound
  | invalid_iterator
  | null_dereference
  deriving DecidableEq, Repr

deriving instance DecidableEq for Except

/-- An owned subtree (`node*`): `nil` is `nullptr`. The fields of `node` are
those of `struct node` (without `parent`), preceded by the node's address. -/
inductive Tree (K V : Type) where
  | nil : Tree K V
  | node (addr : Nat) (left right : Tree K V) (height : Int) (value : K × V) : Tree K V
  deriving DecidableEq, Repr

/-- One step of the parent chain: the parent node with a hole in place of the
child we came from. `inl` : the hole is the parent's `left`; `inr` : the hole is
the parent's `right`. -/
inductive Frame (K V : Type) where
  | inl (addr : Nat) (right : Tree K V) (height : Int) (value : K × V) : Frame K V
  | inr (addr : Nat) (left : Tree K V) (height : Int) (value : K × V) : Frame K V
  deriving DecidableEq, Repr

/-- The class `map`: its own address (`this`), `map_size` and `root`. -/
structure map (K V : Type) where
  self : Nat
  map_size : Nat
  root : Tree K V
  deriving DecidableEq, Repr

/-- The class `map::iterator` (and `const_iterator`): `this_map`, `this_node`. -/
structure iterator where
  this_map : Nat
  this_node : Option Nat
  deriving DecidableEq, Repr

variable {K V : Type}

/-- Stored height read through a possibly null pointer: `n ? n->height : 0`. -/
def Tree.height : Tree K V → Int
  | .nil => 0
  | .node _ _ _ h _ => h

/-- Address of a node pointer, `none` for `nullptr`. -/
def Tree.ptr : Tree K V → Option Nat
  | .nil => none
  | .node a _ _ _ _ => some a

/-- The test `!n` on a node pointer. -/
def Tree.is_null : Tree K V → Bool
  | .nil => true
  | .node _ _ _ _ _ => false

/-- Put a subtree back into the hole of a frame. -/
def Frame.plug : Frame K V → Tree K V → Tree K V
  | .inl a r h v, t => .node a t r h v
  | .inr a l h v, t => .node a l t h v

/-- Address of the parent node a frame stands for. -/
def Frame.addr : Frame K V → Nat
  | .inl a _ _ _ => a
  | .inr a _ _ _ => a

/-- Close a position: plug the subtree into every frame up to the root. -/
def rebuild : Tree K V → List (Frame K V) → Tree K V
  | t, [] => t
  | t, f :: ctx => rebuild (f.plug t) ctx

/-- The node `addr` with children `l`, `r` after `node::update_height`. -/
def update_height (addr : Nat) (l r : Tree K V) (value : K × V) : Tree K V :=
  .node addr l r ((if l.height > r.height then l.height else r.height) + 1) value

/-- Source `node::recalc_height` on a node with children `l`, `r`: the recomputed
height and the `balance` flag. -/
def recalc_height (l r : Tree K V) : Int × Bool :=
  ((if l.height > r.height then l.height else r.height) + 1,
   decide (l.height ≤ r.height + 1) && decide (r.height ≤ l.height + 1))

/-- Source `node::taller_child`: the left child only when it is strictly taller. -/
def taller_child : Tree K V → Tree K V
  | .nil => .nil
  | .node _ l r _ _ => if l.height > r.height then l else r

/-- Source `map::connect34`: nodes `a`, `b`, `c` (address and value) and the four
subtrees, re-attached with `b` on top; heights of `a`, `c`, then `b`. -/
def connect34 (a b c : Nat × (K × V)) (t1 t2 t3 t4 : Tree K V) : Tree K V :=
  update_height b.1 (update_height a.1 t1 t2 a.2) (update_height c.1 t3 t4 c.2) b.2

/-- Source `map::rotate(p)`. `c = p->taller_child()`, `gc = c->taller_child()`;
`c->is_lchild()` holds exactly when `taller_child` picked `p->left`, and
likewise for `gc`. A null `c` or `gc` is a null dereference. -/
def rotate : Tree K V → Except Failure (Tree K V)
  | .nil => .error .null_dereference
  | .node pa pl pr _ pv =>
    if pl.height > pr.height then
      match pl with
      | .nil => .error .null_dereference
      | .node ca cl cr _ cv =>
        if cl.height > cr.height then
          match cl with
          | .nil => .error .null_dereference
          | .node ga gl gr _ gv => .ok (connect34 (ga, gv) (ca, cv) (pa, pv) gl gr cr pr)
        else
          match cr with
          | .nil => .error .null_dereference
          | .node ga gl gr _ gv => .ok (connect34 (ca, cv) (ga, gv) (pa, pv) cl gl gr pr)
    else
      match pr with
      | .nil => .error .null_dereference
      | .node ca cl cr _ cv =>
        if cl.height > cr.height then
          match cl with
          | .nil => .error .null_dereference
          | .node ga gl gr _ gv => .ok (connect34 (pa, pv) (ga, gv) (ca, cv) pl gl gr cr)
        else
          match cr with
          | .nil => .error .null_dereference
          | .node ga gl gr _ gv => .ok (connect34 (pa, pv) (ca, cv) (ga, gv) pl cl gl gr)

/-- Source `map::search_node(key) const`: the node found, or `nullptr`. -/
def search_node (comp : K → K → Bool) : Tree K V → K → Tree K V
  | .nil, _ => .nil
  | .node a l r h v, key =>
    if comp key v.1 then search_node comp l key
    else if comp v.1 key then search_node comp r key
    else .node a l r h v

/-- Source `map::search_node(key, _hot)`: the slot reached (its content) and the
chain of parents above it, innermost (`_hot`) first. -/
def search_node_hot (comp : K → K → Bool) :
    Tree K V → K → List (Frame K V) → Tree K V × List (Frame K V)
  | .nil, _, ctx => (.nil, ctx)
  | .node a l r h v, key, ctx =>
    if comp key v.1 then search_node_hot comp l key (.inl a r h v :: ctx)
    else if comp v.1 key then search_node_hot comp r key (.inr a l h v :: ctx)
    else (.node a l r h v, ctx)

/-- Dereference a `node*` given as an address: the node and its parent chain.
`none` when no node of the tree lives at that address. -/
def locate : Tree K V → Nat → List (Frame K V) → Option (Tree K V × List (Frame K V))
  | .nil, _, _ => none
  | .node a l r h v, p, ctx =>
    if a = p then some (.node a l r h v, ctx)
    else match locate l p (.inl a r h v :: ctx) with
      | some z => some z
      | none => locate r p (.inr a l h v :: ctx)

/-- The loop `while (n->left) n = n->left`, keeping the parent chain. -/
def leftmost : Tree K V → List (Frame K V) → Tree K V × List (Frame K V)
  | .nil, ctx => (.nil, ctx)
  | .node a .nil r h v, ctx => (.node a .nil r h v, ctx)
  | .node a (.node la ll lr lh lv) r h v, ctx =>
    leftmost (.node la ll lr lh lv) (.inl a r h v :: ctx)

/-- The rebalancing loop of `insert_helper`: `sub` is the subtree now in the
slot below `hot`, the head of the chain. -/
def insert_walk : Tree K V → List (Frame K V) → Except Failure (Tree K V)
  | sub, [] => .ok sub
  | sub, f :: ctx =>
    match f.plug sub with
    | .nil => .error .null_dereference
    | .node a l r h v =>
      let (new_height, balance) := recalc_height l r
      if new_height = h then .ok (rebuild (.node a l r h v) ctx)
      else if !balance then
        match rotate (.node a l r new_height v) with
        | .error e => .error e
        | .ok t => .ok (rebuild t ctx)
      else insert_walk (.node a l r new_height v) ctx

/-- Source `map::insert_helper`: the map afterwards and the returned `node*`. -/
def insert_helper (comp : K → K → Bool) (m : map K V) (value : K × V) (fresh : Nat) :
    Except Failure (map K V × Option Nat) :=
  match search_node_hot comp m.root value.1 [] with
  | (.node a _ _ _ _, _) => .ok (m, some a)
  | (.nil, hot) =>
    match insert_walk (.node fresh .nil .nil 1 value) hot with
    | .error e => .error e
    | .ok t => .ok (⟨m.self, m.map_size + 1, t⟩, some fresh)

/-- Source `map::insert(value)`: the map afterwards, the iterator and the flag. -/
def insert (comp : K → K → Bool) (m : map K V) (value : K × V) (fresh : Nat) :
    Except Failure (map K V × iterator × Bool) :=
  match search_node comp m.root value.1 with
  | .node a _ _ _ _ => .ok (m, ⟨m.self, some a⟩, false)
  | .nil =>
    match insert_helper comp m value fresh with
    | .error e => .error e
    | .ok (m1, res) => .ok (m1, ⟨m1.self, res⟩, true)

/-- The rebalancing loop of `erase`. -/
def erase_walk : Tree K V → List (Frame K V) → Except Failure (Tree K V)
  | sub, [] => .ok sub
  | sub, f :: ctx =>
    match f.plug sub with
    | .nil => .error .null_dereference
    | .node a l r _ v =>
      let (new_height, balance) := recalc_height l r
      if !balance then
        match rotate (.node a l r new_height v) with
        | .error e => .error e
        | .ok t => erase_walk t ctx
      else erase_walk (.node a l r new_height v) ctx

/-- The body of `map::erase` after the guard, on the tree: `p` is
`pos.this_node`, `fresh` the address of `new_node` in the two-children case.
The result is the tree after the rebalancing loop. -/
def erase_node (t : Tree K V) (p : Nat) (fresh : Nat) : Except Failure (Tree K V) :=
  match locate t p [] with
  | none => .error .null_dereference
  | some (.nil, _) => .error .null_dereference
  | some (.node _ tl tr th _, ctx) =>
    if !tl.is_null && !tr.is_null then
      match leftmost tr [] with
      | (.nil, _) => .error .null_dereference
      | (.node _ _ sr _ sv, inner) =>
        erase_walk sr (inner ++ Frame.inr fresh tl th sv :: ctx)
    else
      erase_walk (if !tl.is_null then tl else tr) ctx

/-- Source `map::erase(pos)`: the map after the call and its outcome. The guard
throws before anything is written. `--map_size` is `map_size - 1`: it is only
reached for a map that holds the node erased. (After a null dereference the
state is not meaningful; the argument is returned.) -/
def erase (m : map K V) (pos : iterator) (fresh : Nat) : map K V × Except Failure Unit :=
  if pos.this_map ≠ m.self ∨ pos.this_node = none then (m, .error .index_out_of_bound)
  else
    match pos.this_node with
    | none => (m, .error .null_dereference)
    | some p =>
      match erase_node m.root p fresh with
      | .error e => (m, .error e)
      | .ok t => (⟨m.self, m.map_size - 1, t⟩, .ok ())

/-- Source `map::at(key)`, the non-const overload: the map after the call and the
outcome (the mapped value, or `index_out_of_bound`). -/
def map.at_ (comp : K → K → Bool) (m : map K V) (key : K) : map K V × Except Failure V :=
  match search_node comp m.root key with
  | .nil => (m, .error .index_out_of_bound)
  | .node _ _ _ _ v => (m, .ok v.2)

/-- Source `map::at(key) const`. -/
def map.at_const (comp : K → K → Bool) (m : map K V) (key : K) : Except Failure V :=
  match search_node comp m.root key with
  | .nil => .error .index_out_of_bound
  | .node _ _ _ _ v => .ok v.2

/-- Source `map::operator[](key) const`. -/
def map.index_const (comp : K → K → Bool) (m : map K V) (key : K) : Except Failure V :=
  match search_node comp m.root key with
  | .nil => .error .index_out_of_bound
  | .node _ _ _ _ v => .ok v.2

/-- Read `res->value` through a `node*` into the tree. -/
def node_value (t : Tree K V) (res : Option Nat) : Except Failure (K × V) :=
  match res with
  | none => .error .null_dereference
  | some p =>
    match locate t p [] with
    | some (.node _ _ _ _ v, _) => .ok v
    | _ => .error .null_dereference

/-- Source `map::operator[](key)` (mutable): the map afterwards, the node whose
`value.second` the returned reference designates, and that value. -/
def map.index [Inhabited V] (comp : K → K → Bool) (m : map K V) (key : K) (fresh : Nat) :
    Except Failure (map K V × Option Nat × V) :=
  match search_node comp m.root key with
  | .node a _ _ _ v => .ok (m, some a, v.2)
  | .nil =>
    match insert_helper comp m (key, default) fresh with
    | .error e => .error e
    | .ok (m1, res) =>
      match node_value m1.root res with
      | .error e => .error e
      | .ok v => .ok (m1, res, v.2)

/-- Source `map::empty()`. -/
def map.empty (m : map K V) : Bool := m.map_size == 0

/-- Source `map::size()`. -/
def map.size (m : map K V) : Nat := m.map_size

/-- The constructor `map()`, for an object at address `self`. -/
def map.new (self : Nat) : map K V := ⟨self, 0, .nil⟩

/-- Source `iterator::operator*` on an iterator of `m`. -/
def iterator.deref (m : map K V) (it : iterator) : Except Failure (K × V) :=
  node_value m.root it.this_node

/-- In-order sequence of the stored pairs. -/
def Tree.toList : Tree K V → List (K × V)
  | .nil => []
  | .node _ l r _ v => l.toList ++ v :: r.toList

/-- In-order sequence of the nodes: address and stored pair. -/
def Tree.entries : Tree K V → List (Nat × (K × V))
  | .nil => []
  | .node a l r _ v => l.entries ++ (a, v) :: r.entries

/-- Number of nodes of the tree. -/
def Tree.count : Tree K V → Nat
  | .nil => 0
  | .node _ l r _ _ => l.count + 1 + r.count

/-- In-order sequence of the node addresses. -/
def Tree.addrs : Tree K V → List Nat
  | .nil => []
  | .node a l r _ _ => l.addrs ++ a :: r.addrs

/-- Stored-height invariant: every node's `height` is
`1 + max(child heights)`, an absent child counting 0. -/
def HeightsOk : Tree K V → Prop
  | .nil => True
  | .node _ l r h _ => h = 1 + max l.height r.height ∧ HeightsOk l ∧ HeightsOk r

/-- Balance invariant: at every node the child heights differ by at most 1. -/
def Balanced : Tree K V → Prop
  | .nil => True
  | .node _ l r _ _ => (l.height - r.height).natAbs ≤ 1 ∧ Balanced l ∧ Balanced r

/-- Ordering invariant: every key of the left subtree orders before the
node's key, every key of the right subtree after it. -/
def Ordered (comp : K → K → Bool) : Tree K V → Prop
  | .nil => True
  | .node _ l r _ v =>
    (∀ x ∈ l.toList, comp x.1 v.1 = true) ∧ (∀ x ∈ r.toList, comp v.1 x.1 = true) ∧
    Ordered comp l ∧ Ordered comp r

/-- Keys `a`, `b` are equivalent: neither orders before the other. -/
def Equiv (comp : K → K → Bool) (a b : K) : Prop := comp a b = false ∧ comp b a = false

instance Equiv.decide (comp : K → K → Bool) (a b : K) : Decidable (Equiv comp a b) :=
  inferInstanceAs (Decidable (comp a b = false ∧ comp b a = false))

/-- The requirements on `Compare`: a strict weak ordering. -/
structure StrictWeakOrder (comp : K → K → Bool) : Prop where
  irrefl : ∀ a, comp a a = false
  trans : ∀ a b c, comp a b = true → comp b c = true → comp a c = true
  equiv_trans : ∀ a b c, Equiv comp a b → Equiv comp b c → Equiv comp a c

/-- The in-order key sequence is strictly increasing. -/
def Increasing (comp : K → K → Bool) (l : List (K × V)) : Prop :=
  l.Pairwise (fun x y => comp x.1 y.1 = true)

instance HeightsOk.decide : (t : Tree K V) → Decidable (HeightsOk t)
  | .nil => isTrue trivial
  | .node _ l r h _ =>
    have := HeightsOk.decide l
    have := HeightsOk.decide r
    inferInstanceAs (Decidable (h = 1 + max l.height r.height ∧ HeightsOk l ∧ HeightsOk r))

instance Balanced.decide : (t : Tree K V) → Decidable (Balanced t)
  | .nil => isTrue trivial
  | .node _ l r _ _ =>
    have := Balanced.decide l
    have := Balanced.decide r
    inferInstanceAs (Decidable ((l.height - r.height).natAbs ≤ 1 ∧ Balanced l ∧ Balanced r))

instance Ordered.decide (comp : K → K → Bool) : (t : Tree K V) → Decidable (Ordered comp t)
  | .nil => isTrue trivial
  | .node _ l r _ v =>
    have := Ordered.decide comp l
    have := Ordered.decide comp r
    inferInstanceAs (Decidable ((∀ x ∈ l.toList, comp x.1 v.1 = true) ∧
      (∀ x ∈ r.toList, comp v.1 x.1 = true) ∧ Ordered comp l ∧ Ordered comp r))

/-- The default `Compare` on natural-number keys, `std::less`. -/
def less (a b : Nat) : Bool := decide (a < b)

/-- A run of `insert` calls, one per pair of the list; the allocator hands
out the addresses `base`, `base + 1`, ... -/
def insert_seq (comp : K → K → Bool) : map K V → List (K × V) → Nat → Except Failure (map K V)
  | m, [], _ => .ok m
  | m, value :: rest, base =>
    match insert comp m value base with
    | .error e => .error e
    | .ok (m1, _, _) => insert_seq comp m1 rest (base + 1)

/-- The map at address 0 obtained from the empty map by inserting the keys
50, 20, 60, 10, 30, 70, 5, 40 (each with value 0) at addresses 100..107. -/
def sample_map : map Nat Nat :=
  ⟨0, 8,
    .node 100
      (.node 101
        (.node 103 (.node 106 .nil .nil 1 (5, 0)) .nil 2 (10, 0))
        (.node 104 .nil (.node 107 .nil .nil 1 (40, 0)) 2 (30, 0))
        3 (20, 0))
      (.node 102 .nil (.node 105 .nil .nil 1 (70, 0)) 2 (60, 0))
      4 (50, 0)⟩

/-- Maps reachable from the empty map by `insert`, mutable `operator[]` and
`erase` calls that return normally; every allocation yields an address at
which no node of the map lives. -/
inductive Reachable [Inhabited V] (comp : K → K → Bool) : map K V → Prop where
  | empty_map (self : Nat) : Reachable comp (map.new self)
  | by_insert {m : map K V} {r : map K V × iterator × Bool} (value : K × V) (fresh : Nat) :
      Reachable comp m → fresh ∉ m.root.addrs → insert comp m value fresh = .ok r →
      Reachable comp r.1
  | by_index {m : map K V} {r : map K V × Option Nat × V} (key : K) (fresh : Nat) :
      Reachable comp m → fresh ∉ m.root.addrs → m.index comp key fresh = .ok r →
      Reachable comp r.1
  | by_erase {m : map K V} (pos : iterator) (fresh : Nat) :
      Reachable comp m → fresh ∉ m.root.addrs → (erase m pos fresh).2 = .ok () →
      Reachable comp (erase m pos fresh).1

/-- Counting runs. `Counted comp n k m`: the map `m` is obtained from the empty map by `n`
calls of `insert` with a key equivalent to no key stored at the time, and `k`
calls of `erase` that returned normally, in any order. -/
inductive Counted (comp : K → K → Bool) : Nat → Nat → map K V → Prop where
  | empty_map (self : Nat) : Counted comp 0 0 (map.new self)
  | by_insert {n k : Nat} {m : map K V} {r : map K V × iterator × Bool}
      (value : K × V) (fresh : Nat) :
      Counted comp n k m → (∀ x ∈ m.root.toList, ¬ Equiv comp x.1 value.1) →
      insert comp m value fresh = .ok r → Counted comp (n + 1) k r.1
  | by_erase {n k : Nat} {m : map K V} (pos : iterator) (fresh : Nat) :
      Counted comp n k m → (erase m pos fresh).2 = .ok () →
      Counted comp n (k + 1) (erase m pos fresh).1

/-- Entries that precede the hole of a parent chain, in order. -/
def before : List (Frame K V) → List (Nat × (K × V))
  | [] => []
  | .inl _ _ _ _ :: ctx => before ctx
  | .inr a l _ v :: ctx => before ctx ++ (l.entries ++ [(a, v)])

/-- Entries that follow the hole of a parent chain, in order. -/
def after : List (Frame K V) → List (Nat × (K × V))
  | [] => []
  | .inl a r _ v :: ctx => ((a, v) :: r.entries) ++ after ctx
  | .inr _ _ _ _ :: ctx => after ctx

/-- Every subtree hanging off the parent chain has correct stored heights. -/
def CtxHeightsOk : List (Frame K V) → Prop
  | [] => True
  | .inl _ r _ _ :: ctx => HeightsOk r ∧ CtxHeightsOk ctx
  | .inr _ l _ _ :: ctx => HeightsOk l ∧ CtxHeightsOk ctx

/-- Both height invariants together: stored heights are correct and every
node is balanced. -/
def Avl (t : Tree K V) : Prop := HeightsOk t ∧ Balanced t

/-- Shape of a subtree whose height has just grown by an insertion below it:
a node that is either the new leaf or has children of different heights. -/
def Grown : Tree K V → Prop
  | .nil => False
  | .node _ l r h _ => l.height ≠ r.height ∨ h = 1

/-- Shape of a subtree the rebalancing loop of `insert_helper` has passed by:
the new leaf, or a node whose child heights differ by exactly one. -/
def Stepped : Tree K V → Prop
  | .nil => False
  | .node _ l r h _ => (l.height - r.height).natAbs = 1 ∨ h = 1

/-! ### Lookup, iteration range and iterator steps -/

/-- Source `map::count(key)`. -/
def map.count (comp : K → K → Bool) (m : map K V) (key : K) : Nat :=
  match search_node comp m.root key with
  | .nil => 0
  | .node _ _ _ _ _ => 1

/-- Source `map::find(key)` (both overloads): `iterator(this, search_node(key))`. -/
def map.find (comp : K → K → Bool) (m : map K V) (key : K) : iterator :=
  ⟨m.self, (search_node comp m.root key).ptr⟩

/-- Source `map::begin()` and `map::cbegin()`: the leftmost node, or the null
position when there is no root. -/
def map.begin (m : map K V) : iterator := ⟨m.self, (leftmost m.root []).1.ptr⟩

/-- Source `map::end()` and `map::cend()`: `iterator(this, nullptr)`. -/
def map.end_ (m : map K V) : iterator := ⟨m.self, none⟩

/-- Source `map::clear()`: all nodes released, `map_size = 0`, `root = nullptr`. -/
def map.clear (m : map K V) : map K V := ⟨m.self, 0, .nil⟩

/-- The loop `while (n->right) n = n->right`, keeping the parent chain. -/
def rightmost : Tree K V → List (Frame K V) → Tree K V × List (Frame K V)
  | .nil, ctx => (.nil, ctx)
  | .node a l .nil h v, ctx => (.node a l .nil h v, ctx)
  | .node a l (.node ra rl rr rh rv) h v, ctx =>
    rightmost (.node ra rl rr rh rv) (.inr a l h v :: ctx)

/-- The steps `while (n->is_rchild()) n = n->parent; n = n->parent` on the
parent chain of `n`: the node reached, `none` for `nullptr`. -/
def climb_right : List (Frame K V) → Option Nat
  | [] => none
  | .inr _ _ _ _ :: ctx => climb_right ctx
  | .inl a _ _ _ :: _ => some a

/-- The steps `while (n->is_lchild()) n = n->parent; n = n->parent`. -/
def climb_left : List (Frame K V) → Option Nat
  | [] => none
  | .inl _ _ _ _ :: ctx => climb_left ctx
  | .inr a _ _ _ :: _ => some a

/-- The body of the increment operators once `this_node` is known not to be
null: the new value of `this_node`. The node is read in the tree `t` it lives
in. -/
def next_node (t : Tree K V) (p : Nat) : Except Failure (Option Nat) :=
  match locate t p [] with
  | some (.node _ _ r _ _, ctx) =>
    if !r.is_null then .ok (leftmost r []).1.ptr else .ok (climb_right ctx)
  | _ => .error .null_dereference

/-- The `else` branch of the decrement operators (`this_node` not null): the
new value of `this_node`. -/
def prev_node (t : Tree K V) (p : Nat) : Except Failure (Option Nat) :=
  match locate t p [] with
  | some (.node _ l _ _ _, ctx) =>
    if !l.is_null then .ok (rightmost l []).1.ptr else .ok (climb_left ctx)
  | _ => .error .null_dereference

/-- Source `iterator::operator++()` (prefix), for an iterator into the map `m`:
the iterator after the call, and the outcome (the iterator returned). -/
def iterator.pre_incr (m : map K V) (it : iterator) : iterator × Except Failure iterator :=
  match it.this_node with
  | none => (it, .error .invalid_iterator)
  | some p =>
    match next_node m.root p with
    | .error e => (it, .error e)
    | .ok n => (⟨it.this_map, n⟩, .ok ⟨it.this_map, n⟩)

/-- Source `iterator::operator++(int)` (postfix): the iterator after the call,
and the outcome (the copy `ret` taken before the step). -/
def iterator.post_incr (m : map K V) (it : iterator) : iterator × Except Failure iterator :=
  match it.this_node with
  | none => (it, .error .invalid_iterator)
  | some p =>
    match next_node m.root p with
    | .error e => (it, .error e)
    | .ok n => (⟨it.this_map, n⟩, .ok it)

/-- Source `iterator::operator--()` (prefix); `m` is the map `this_map` points
to. -/
def iterator.pre_decr (m : map K V) (it : iterator) : iterator × Except Failure iterator :=
  if it = m.begin then (it, .error .invalid_iterator)
  else
    match it.this_node with
    | none =>
      (⟨it.this_map, (rightmost m.root []).1.ptr⟩, .ok ⟨it.this_map, (rightmost m.root []).1.ptr⟩)
    | some p =>
      match prev_node m.root p with
      | .error e => (it, .error e)
      | .ok n => (⟨it.this_map, n⟩, .ok ⟨it.this_map, n⟩)

/-- Source `iterator::operator--(int)` (postfix); `m` is the map `this_map`
points to. In the branch `!this_node` the source declares a local
`node* this_node = this_map->root` and walks with that local: the member is
not written. -/
def iterator.post_decr (m : map K V) (it : iterator) : iterator × Except Failure iterator :=
  if it = m.begin then (it, .error .invalid_iterator)
  else
    match it.this_node with
    | none => (it, .ok it)
    | some p =>
      match prev_node m.root p with
      | .error e => (it, .error e)
      | .ok n => (⟨it.this_map, n⟩, .ok it)

/-- Source `const_iterator::operator++()`: the same statements as in `iterator`. -/
def const_iterator.pre_incr (m : map K V) (it : iterator) : iterator × Except Failure iterator :=
  iterator.pre_incr m it

/-- Source `const_iterator::operator++(int)`: the same statements as in
`iterator`. -/
def const_iterator.post_incr (m : map K V) (it : iterator) : iterator × Except Failure iterator :=
  iterator.post_incr m it

/-- Source `const_iterator::operator--()`: the same statements as in `iterator`
(with `cbegin`). -/
def const_iterator.pre_decr (m : map K V) (it : iterator) : iterator × Except Failure iterator :=
  iterator.pre_decr m it

/-- Source `const_iterator::operator--(int)`: here the branch `!this_node`
assigns the member, `this_node = this_map->root`. -/
def const_iterator.post_decr (m : map K V) (it : iterator) : iterator × Except Failure iterator :=
  if it = m.begin then (it, .error .invalid_iterator)
  else
    match it.this_node with
    | none => (⟨it.this_map, (rightmost m.root []).1.ptr⟩, .ok it)
    | some p =>
      match prev_node m.root p with
      | .error e => (it, .error e)
      | .ok n => (⟨it.this_map, n⟩, .ok it)

/-- A run of `n` prefix increments. -/
def iterator.advance (m : map K V) : iterator → Nat → Except Failure iterator
  | it, 0 => .ok it
  | it, n + 1 =>
    match (iterator.pre_incr m it).2 with
    | .error e => .error e
    | .ok it' => iterator.advance m it' n

/-- Number of levels of the tree (its height as a shape, whatever the
stored `height` fields say). -/
def Tree.depth : Tree K V → Nat
  | .nil => 0
  | .node _ l r _ _ => 1 + max l.depth r.depth

/-- The map at address 0 obtained from the empty map by inserting the keys
1, 2, ..., 7 in this order (each with value 0) at addresses 100..106. -/
def seven_map : map Nat Nat :=
  ⟨0, 7,
    .node 103
      (.node 101 (.node 100 .nil .nil 1 (1, 0)) (.node 102 .nil .nil 1 (3, 0)) 2 (2, 0))
      (.node 105 (.node 104 .nil .nil 1 (5, 0)) (.node 106 .nil .nil 1 (7, 0)) 2 (6, 0))
      3 (4, 0)⟩

/-- The map at address 0 obtained from the empty map by inserting the keys
5, 7, 3 (each with value 0) at addresses 100, 101, 102. -/
def three_map : map Nat Nat :=
  ⟨0, 3, .node 100 (.node 102 .nil .nil 1 (3, 0)) (.node 101 .nil .nil 1 (7, 0)) 2 (5, 0)⟩

/-- The map `sample_map` after `erase` of the element with key 70 (the new
address being 200): the node with key 20 has a left subtree of height 2 and no
right subtree. -/
def leaning_map : map Nat Nat :=
  ⟨0, 7,
    .node 104
      (.node 101 (.node 103 (.node 106 .nil .nil 1 (5, 0)) .nil 2 (10, 0)) .nil 3 (20, 0))
      (.node 100 (.node 107 .nil .nil 1 (40, 0)) (.node 102 .nil .nil 1 (60, 0)) 2 (50, 0))
      4 (30, 0)⟩

/-- Sorted insertion of a pair into a list of pairs ordered by key: the pair
goes before the first pair with a greater key, and nothing changes when a pair
with an equivalent key is met. -/
def sorted_insert (comp : K → K → Bool) (x : K × V) : List (K × V) → List (K × V)
  | [] => [x]
  | y :: ys =>
    if comp x.1 y.1 then x :: y :: ys
    else if comp y.1 x.1 then y :: sorted_insert comp x ys
    else y :: ys

/-- The pairs of a sequence sorted by key, each key with the value of its
first occurrence: the pairs put one by one into the empty list. -/
def sorted_first (comp : K → K → Bool) (l : List (K × V)) : List (K × V) :=
  l.foldl (fun acc x => sorted_insert comp x acc) []

/-- A balanced tree of height 3 with root key 20 whose two children, 10 and
30, both have height 2. -/
def tie_left : Tree Nat Nat :=
  .node 101
    (.node 103 (.node 106 .nil .nil 1 (5, 0)) .nil 2 (10, 0))
    (.node 104 .nil (.node 107 .nil .nil 1 (40, 0)) 2 (30, 0))
    3 (20, 0)

/-- The subtree rooted at key 50 that `erase` meets on `sample_map` once the
element 70 is unlinked: left child `tie_left` (height 3), right child the
single node 60 (height 1). -/
def tie_node : Tree Nat Nat :=
  .node 100 tie_left (.node 102 .nil .nil 1 (60, 0)) 4 (50, 0)

/-- What `rotate` returns on `tie_node`. -/
def tie_result : Tree Nat Nat :=
  .node 104
    (.node 101 (.node 103 (.node 106 .nil .nil 1 (5, 0)) .nil 2 (10, 0)) .nil 3 (20, 0))
    (.node 100 (.node 107 .nil .nil 1 (40, 0)) (.node 102 .nil .nil 1 (60, 0)) 2 (50, 0))
    4 (30, 0)

/-! ### The class `deque` (`include/deque.hpp`)

A deque is a doubly linked chain `dummy_head, node_0, ..., node_(n-1),
dummy_tail`. The chain is kept as the list of its element nodes (address and
object) between the two dummies; a `node*` is an address, and dereferencing it
is finding its place in the chain, where `prev` and `next` are the neighbours
(`nullptr` before `dummy_head` and after `dummy_tail`). An `int` has 32 bits:
the offset of `operator+` and `operator-` is an integer between `-2^31` and
`2^31 - 1`, and `to_int` gives what the conversion of a `size_t` position and
the negation `-n` store in an `int`. The `int` result of the difference of two
iterators is kept as a mathematical integer: it is the count of the nodes
between them, below `2^31` for every chain of fewer than `2^31` nodes. -/

/-- The class `deque`: its own address, `curr_size`, the addresses of the
two dummy nodes, and the element nodes from front to back (address, object). -/
structure deque (T : Type) where
  self : Nat
  curr_size : Nat
  dummy_head : Nat
  dummy_tail : Nat
  nodes : List (Nat × T)
  deriving DecidableEq, Repr

/-- The class `deque::iterator` (and `const_iterator`): `dq`, `ptr`. -/
structure deque.iterator where
  dq : Nat
  ptr : Nat
  deriving DecidableEq, Repr

variable {T : Type}

/-- The elements of the deque from front to back. -/
def deque.elements (d : deque T) : List T := d.nodes.map Prod.snd

/-- Addresses of the nodes of the chain, from `dummy_head` to `dummy_tail`. -/
def deque.chain_addrs (d : deque T) : List Nat :=
  d.dummy_head :: (d.nodes.map Prod.fst ++ [d.dummy_tail])

/-- Dereference a `node*`: its place in the chain (0 for `dummy_head`), `none`
when no node of the chain lives at that address. -/
def deque.position (d : deque T) (p : Nat) : Option Nat :=
  if d.chain_addrs.indexOf p < d.chain_addrs.length then some (d.chain_addrs.indexOf p)
  else none

/-- Address of the node at place `k` of the chain. -/
def deque.addr_at (d : deque T) (k : Nat) : Nat := d.chain_addrs.getD k d.dummy_tail

/-- The field `object` of the node at place `k`: null for the two dummies. -/
def deque.object_at (d : deque T) : Nat → Option T
  | 0 => none
  | k + 1 => (d.nodes.get? k).map Prod.snd

/-- The constructor `deque()`, for an object at `self` with dummies at `head`
and `tail`. -/
def deque.new (self head tail : Nat) : deque T := ⟨self, 0, head, tail, []⟩

/-- Source `deque::begin()` and `cbegin()`: `iterator(this, dummy_head->next)`. -/
def deque.begin (d : deque T) : deque.iterator := ⟨d.self, d.addr_at 1⟩

/-- Source `deque::end()` and `cend()`: `iterator(this, dummy_tail)`. -/
def deque.end_ (d : deque T) : deque.iterator := ⟨d.self, d.dummy_tail⟩

/-- Source `deque::size()`. -/
def deque.size (d : deque T) : Nat := d.curr_size

/-- The loop `for (i = 0; i < n && ret->next; ++i) ret = ret->next` started
at place `k` of a chain of `len` nodes: the place reached. -/
def forward (len : Nat) : Nat → Nat → Nat
  | k, 0 => k
  | k, n + 1 => if k + 1 < len then forward len (k + 1) n else k

/-- The loop `for (i = 0; i < n && ret->prev; ++i) ret = ret->prev` started
at place `k`: the place reached. -/
def backward : Nat → Nat → Nat
  | k, 0 => k
  | 0, _ + 1 => 0
  | k + 1, n + 1 => backward k n

/-- The body of `operator+(n)` for `n >= 0`, for an iterator into `d`: the
forward loop. With `n = 0` no node is read. -/
def deque.iterator.forward_by (d : deque T) (it : deque.iterator) (n : Nat) :
    Except Failure deque.iterator :=
  if n = 0 then .ok it
  else
    match d.position it.ptr with
    | none => .error .null_dereference
    | some k => .ok ⟨it.dq, d.addr_at (forward d.chain_addrs.length k n)⟩

/-- The body of `operator-(n)` for `n >= 0`: the backward loop. -/
def deque.iterator.backward_by (d : deque T) (it : deque.iterator) (n : Nat) :
    Except Failure deque.iterator :=
  if n = 0 then .ok it
  else
    match d.position it.ptr with
    | none => .error .null_dereference
    | some k => .ok ⟨it.dq, d.addr_at (backward k n)⟩

/-- The value an `int` holds when the integer `n` is stored in it: `n` modulo
`2^32`, taken between `-2^31` and `2^31 - 1`. It is what the conversion of a
`size_t` to `int` gives, and the negation of an `int`. -/
def to_int (n : Int) : Int := (n + 2 ^ 31) % 2 ^ 32 - 2 ^ 31

mutual

/-- Source `iterator::operator+(const int &n)` (and `const_iterator`): a
negative `n` is handed to `operator-(-n)`, otherwise the forward loop runs.
`fuel` bounds the calls the two operators make of each other; `none` when it
does not suffice. -/
def deque.iterator.plus (d : deque T) :
    Nat → deque.iterator → Int → Option (Except Failure deque.iterator)
  | 0, _, _ => none
  | fuel + 1, it, n =>
    if n < 0 then deque.iterator.minus d fuel it (to_int (-n))
    else some (it.forward_by d n.toNat)

/-- Source `iterator::operator-(const int &n)` (and `const_iterator`): a
negative `n` is handed to `operator+(-n)`, otherwise the backward loop runs. -/
def deque.iterator.minus (d : deque T) :
    Nat → deque.iterator → Int → Option (Except Failure deque.iterator)
  | 0, _, _ => none
  | fuel + 1, it, n =>
    if n < 0 then deque.iterator.plus d fuel it (to_int (-n))
    else some (it.backward_by d n.toNat)

end

/-- Source `iterator::operator*` (and `const_iterator`): `invalid_iterator`
when the node has no object. -/
def deque.iterator.deref (d : deque T) (it : deque.iterator) : Except Failure T :=
  match d.position it.ptr with
  | none => .error .null_dereference
  | some k =>
    match d.object_at k with
    | none => .error .invalid_iterator
    | some v => .ok v

/-- Source `deque::at(pos)` (both overloads): the guard, then
`begin() + pos`, where the `size_t` position becomes the `int` argument of
`operator+`, then `operator*`. `none` when `fuel` does not suffice for the
calls of `operator+`. -/
def deque.at_ (d : deque T) (fuel : Nat) (pos : Nat) : Option (Except Failure T) :=
  if d.curr_size ≤ pos then some (.error .index_out_of_bound)
  else
    match d.begin.plus d fuel (to_int pos) with
    | none => none
    | some (.error e) => some (.error e)
    | some (.ok it) => some (it.deref d)

/-- Source `deque::operator[](pos)` (both overloads): `return at(pos)`. -/
def deque.index (d : deque T) (fuel : Nat) (pos : Nat) : Option (Except Failure T) :=
  d.at_ fuel pos

/-- Source `deque::insert(pos, value)`: the deque after the call and the
outcome. The new node at `fresh` is linked between `pos.ptr->prev` and
`pos.ptr`. -/
def deque.insert (d : deque T) (pos : deque.iterator) (value : T) (fresh : Nat) :
    deque T × Except Failure deque.iterator :=
  if pos.dq ≠ d.self ∨ pos.ptr = d.dummy_head then (d, .error .invalid_iterator)
  else
    match d.position pos.ptr with
    | none => (d, .error .null_dereference)
    | some 0 => (d, .error .null_dereference)
    | some (i + 1) =>
      (⟨d.self, d.curr_size + 1, d.dummy_head, d.dummy_tail,
          d.nodes.take i ++ (fresh, value) :: d.nodes.drop i⟩,
        .ok ⟨d.self, fresh⟩)

/-- Source `deque::erase(pos)`: the deque after the call and the outcome. The
node is unlinked from between `pos.ptr->prev` and `pos.ptr->next`, and the
iterator returned holds `pos.ptr->next`. -/
def deque.erase (d : deque T) (pos : deque.iterator) :
    deque T × Except Failure deque.iterator :=
  if d.curr_size = 0 ∨ pos.dq ≠ d.self ∨ pos.ptr = d.dummy_tail then
    (d, .error .invalid_iterator)
  else
    match d.position pos.ptr with
    | none => (d, .error .null_dereference)
    | some 0 => (d, .error .null_dereference)
    | some (i + 1) =>
      if i < d.nodes.length then
        (⟨d.self, d.curr_size - 1, d.dummy_head, d.dummy_tail, d.nodes.eraseIdx i⟩,
          .ok ⟨d.self, d.addr_at (i + 2)⟩)
      else (d, .error .null_dereference)

/-- The iterator of `d` positioned at index `i` counted from the front;
`i = size()` is `end()`. -/
def deque.iter_at (d : deque T) (i : Nat) : deque.iterator := ⟨d.self, d.addr_at (i + 1)⟩

/-- Well-formed deque: the nodes of the chain live at distinct addresses and
`curr_size` counts the element nodes. -/
def deque.WF (d : deque T) : Prop := d.chain_addrs.Nodup ∧ d.curr_size = d.nodes.length

instance deque.WF.decide (d : deque T) [DecidableEq T] : Decidable d.WF :=
  inferInstanceAs (Decidable (d.chain_addrs.Nodup ∧ d.curr_size = d.nodes.length))

/-- The deque at address 0 with dummies at 1 and 2 and the elements 10, 20, 30
at addresses 5, 6, 7. -/
def sample_deque : deque Nat := ⟨0, 3, 1, 2, [(5, 10), (6, 20), (7, 30)]⟩

namespace linked

/-- An owned subtree whose nodes carry all the fields of `struct node`:
`left`, `right`, `parent`, `height`, `value`, preceded by the node's address. -/
inductive PTree (K V : Type) where
  | nil : PTree K V
  | node (addr : Nat) (left right : PTree K V) (parent : Option Nat) (height : Int)
      (value : K × V) : PTree K V
  deriving DecidableEq, Repr

/-- One step of the chain of nodes above a position: the node with a hole in
place of the child we came from (`inl`: the hole is `left`). -/
inductive PFrame (K V : Type) where
  | inl (addr : Nat) (right : PTree K V) (parent : Option Nat) (height : Int)
      (value : K × V) : PFrame K V
  | inr (addr : Nat) (left : PTree K V) (parent : Option Nat) (height : Int)
      (value : K × V) : PFrame K V
  deriving DecidableEq, Repr

/-- The class `map`, with the nodes carrying `parent`. -/
structure map (K V : Type) where
  self : Nat
  map_size : Nat
  root : PTree K V
  deriving DecidableEq, Repr

/-- Why a call does not return normally: a failure of the program, or a
`parent` field that does not name the node its owner hangs from. -/
inductive Stop where
  | failure (f : Failure)
  | stray_parent
  deriving DecidableEq, Repr

/-- The three places a `node*&` returned by `pointer_in_parent` can designate:
the member `root`, or the `left` or `right` field of the node at an address. -/
inductive Slot where
  | root
  | left (a : Nat)
  | right (a : Nat)
  deriving DecidableEq, Repr

/-- Stored height read through a possibly null pointer. -/
def PTree.height : PTree K V → Int
  | .nil => 0
  | .node _ _ _ _ h _ => h

/-- Address of a node pointer, `none` for `nullptr`. -/
def PTree.ptr : PTree K V → Option Nat
  | .nil => none
  | .node a _ _ _ _ _ => some a

/-- The test `!n` on a node pointer. -/
def PTree.is_null : PTree K V → Bool
  | .nil => true
  | .node _ _ _ _ _ _ => false

/-- The statement `if (t) t->parent = p`. -/
def PTree.set_parent : PTree K V → Option Nat → PTree K V
  | .nil, _ => .nil
  | .node a l r _ h v, p => .node a l r p h v

/-- The field `parent` read through a node pointer (`none` also for `nullptr`). -/
def PTree.parent : PTree K V → Option Nat
  | .nil => none
  | .node _ _ _ p _ _ => p

/-- The field `left` read through a node pointer. -/
def PTree.left : PTree K V → PTree K V
  | .nil => .nil
  | .node _ l _ _ _ _ => l

/-- The field `right` read through a node pointer. -/
def PTree.right : PTree K V → PTree K V
  | .nil => .nil
  | .node _ _ r _ _ _ => r

/-- Put a subtree back into the hole of a frame. -/
def PFrame.plug : PFrame K V → PTree K V → PTree K V
  | .inl a r p h v, t => .node a t r p h v
  | .inr a l p h v, t => .node a l t p h v

/-- Address of the node a frame stands for. -/
def PFrame.addr : PFrame K V → Nat
  | .inl a _ _ _ _ => a
  | .inr a _ _ _ _ => a

/-- The `left` pointer of the node a frame stands for, with `n` in its hole. -/
def PFrame.left_ptr : PFrame K V → PTree K V → Option Nat
  | .inl _ _ _ _ _, n => n.ptr
  | .inr _ l _ _ _, _ => l.ptr

/-- The `right` pointer of the node a frame stands for, with `n` in its hole. -/
def PFrame.right_ptr : PFrame K V → PTree K V → Option Nat
  | .inl _ r _ _ _, _ => r.ptr
  | .inr _ _ _ _ _, n => n.ptr

/-- Source `node::is_lchild`, `parent && parent->left == this`, for a node `n`
that hangs from the node at `pa` whose `left` is the pointer `pl`. The answer
is `none` when `n->parent` names another node. -/
def is_lchild (n : PTree K V) (pa : Nat) (pl : Option Nat) : Option Bool :=
  match n.parent with
  | none => some false
  | some x => if x = pa then some (decide (pl = n.ptr)) else none

/-- Source `node::is_rchild`, `parent && parent->right == this`, likewise. -/
def is_rchild (n : PTree K V) (pa : Nat) (pr : Option Nat) : Option Bool :=
  match n.parent with
  | none => some false
  | some x => if x = pa then some (decide (pr = n.ptr)) else none

/-- Source `map::pointer_in_parent(n)` for the node `n` in the hole of a chain:
`parent->left` if `is_lchild`, else `parent->right` if `is_rchild`, else `root`.
For the topmost node a non-null `parent` names no node of the chain. -/
def pointer_in_parent (n : PTree K V) : List (PFrame K V) → Option Slot
  | [] =>
    match n.parent with
    | none => some .root
    | some _ => none
  | f :: _ =>
    match is_lchild n f.addr (f.left_ptr n) with
    | none => none
    | some true => some (.left f.addr)
    | some false =>
      match is_rchild n f.addr (f.right_ptr n) with
      | none => none
      | some true => some (.right f.addr)
      | some false => some .root

/-- The slot the hole of a chain is. -/
def hole_slot : List (PFrame K V) → Slot
  | [] => .root
  | .inl a _ _ _ _ :: _ => .left a
  | .inr a _ _ _ _ :: _ => .right a

/-- Close a position: plug the subtree into every frame up to the root. -/
def rebuild : PTree K V → List (PFrame K V) → PTree K V
  | t, [] => t
  | t, f :: ctx => rebuild (f.plug t) ctx

/-- The node `addr` with children `l`, `r` and parent field `p` after
`node::update_height`. -/
def update_height (addr : Nat) (l r : PTree K V) (p : Option Nat) (value : K × V) :
    PTree K V :=
  .node addr l r p ((if l.height > r.height then l.height else r.height) + 1) value

/-- Source `node::recalc_height`: the recomputed height and the `balance` flag. -/
def recalc_height (l r : PTree K V) : Int × Bool :=
  ((if l.height > r.height then l.height else r.height) + 1,
   decide (l.height ≤ r.height + 1) && decide (r.height ≤ l.height + 1))

/-- Source `map::connect34`. `a` and `c` get all their links written
(`a->left = t1; a->right = t2; t1->parent = a; t2->parent = a; ...;
a->parent = b; c->parent = b`); `b` gets `left` and `right` and keeps the
`parent` field it had, which the caller overwrites. -/
def connect34 (a : Nat × (K × V)) (b : Nat × Option Nat × (K × V)) (c : Nat × (K × V))
    (t1 t2 t3 t4 : PTree K V) : PTree K V :=
  update_height b.1
    (update_height a.1 (t1.set_parent (some a.1)) (t2.set_parent (some a.1)) (some b.1) a.2)
    (update_height c.1 (t3.set_parent (some c.1)) (t4.set_parent (some c.1)) (some b.1) c.2)
    b.2.1 b.2.2

/-- Source `map::rotate(p)`: `c = p->taller_child()`,
`gc = c->taller_child()`, then the four cases on `gc->is_lchild()` and
`c->is_lchild()`. The case is decided by the two flags as read from the
`parent` fields; when a flag is not the side the node is on, the call stops. -/
def rotate : PTree K V → Except Stop (PTree K V)
  | .nil => .error (.failure .null_dereference)
  | .node pa pl pr _ _ pv =>
    if pl.height > pr.height then
      match pl with
      | .nil => .error (.failure .null_dereference)
      | .node ca cl cr cp ch cv =>
        if cl.height > cr.height then
          match cl with
          | .nil => .error (.failure .null_dereference)
          | .node ga gl gr gp gh gv =>
            if is_lchild (.node ga gl gr gp gh gv) ca cl.ptr = some true ∧
                is_lchild (.node ca cl cr cp ch cv) pa pl.ptr = some true then
              .ok (connect34 (ga, gv) (ca, cp, cv) (pa, pv) gl gr cr pr)
            else .error .stray_parent
        else
          match cr with
          | .nil => .error (.failure .null_dereference)
          | .node ga gl gr gp gh gv =>
            if is_lchild (.node ga gl gr gp gh gv) ca cl.ptr = some false ∧
                is_lchild (.node ca cl cr cp ch cv) pa pl.ptr = some true then
              .ok (connect34 (ca, cv) (ga, gp, gv) (pa, pv) cl gl gr pr)
            else .error .stray_parent
    else
      match pr with
      | .nil => .error (.failure .null_dereference)
      | .node ca cl cr cp ch cv =>
        if cl.height > cr.height then
          match cl with
          | .nil => .error (.failure .null_dereference)
          | .node ga gl gr gp gh gv =>
            if is_lchild (.node ga gl gr gp gh gv) ca cl.ptr = some true ∧
                is_lchild (.node ca cl cr cp ch cv) pa pl.ptr = some false then
              .ok (connect34 (pa, pv) (ga, gp, gv) (ca, cv) pl gl gr cr)
            else .error .stray_parent
        else
          match cr with
          | .nil => .error (.failure .null_dereference)
          | .node ga gl gr gp gh gv =>
            if is_lchild (.node ga gl gr gp gh gv) ca cl.ptr = some false ∧
                is_lchild (.node ca cl cr cp ch cv) pa pl.ptr = some false then
              .ok (connect34 (pa, pv) (ca, cp, cv) (ga, gv) pl cl gl gr)
            else .error .stray_parent

/-- Source `map::search_node(key) const`. -/
def search_node (comp : K → K → Bool) : PTree K V → K → PTree K V
  | .nil, _ => .nil
  | .node a l r p h v, key =>
    if comp key v.1 then search_node comp l key
    else if comp v.1 key then search_node comp r key
    else .node a l r p h v

/-- Source `map::search_node(key, _hot)`: the slot reached and the chain of
nodes above it, `_hot` first. -/
def search_node_hot (comp : K → K → Bool) :
    PTree K V → K → List (PFrame K V) → PTree K V × List (PFrame K V)
  | .nil, _, ctx => (.nil, ctx)
  | .node a l r p h v, key, ctx =>
    if comp key v.1 then search_node_hot comp l key (.inl a r p h v :: ctx)
    else if comp v.1 key then search_node_hot comp r key (.inr a l p h v :: ctx)
    else (.node a l r p h v, ctx)

/-- Dereference a `node*` given as an address: the node and the chain above. -/
def locate : PTree K V → Nat → List (PFrame K V) → Option (PTree K V × List (PFrame K V))
  | .nil, _, _ => none
  | .node a l r p h v, q, ctx =>
    if a = q then some (.node a l r p h v, ctx)
    else match locate l q (.inl a r p h v :: ctx) with
      | some z => some z
      | none => locate r q (.inr a l p h v :: ctx)

/-- The loop `while (n->left) n = n->left`, keeping the chain above. -/
def leftmost : PTree K V → List (PFrame K V) → PTree K V × List (PFrame K V)
  | .nil, ctx => (.nil, ctx)
  | .node a .nil r p h v, ctx => (.node a .nil r p h v, ctx)
  | .node a (.node la ll lr lp lh lv) r p h v, ctx =>
    leftmost (.node la ll lr lp lh lv) (.inl a r p h v :: ctx)

/-- The value of the pointer `hot` for a chain: its innermost node. -/
def hot_ptr : List (PFrame K V) → Option Nat
  | [] => none
  | f :: _ => some f.addr

/-- The rebalancing loop of `insert_helper`, at `hot` the node of the first
frame. Unbalanced: `tmp = hot->parent; pip = pointer_in_parent(hot);
pip = rotate(hot); pip->parent = tmp; break`. Otherwise `hot = hot->parent`,
and the loop ends when that is null. -/
def insert_walk : PTree K V → List (PFrame K V) → Except Stop (PTree K V)
  | sub, [] => .ok sub
  | sub, f :: ctx =>
    match f.plug sub with
    | .nil => .error (.failure .null_dereference)
    | .node a l r p h v =>
      let (new_height, balance) := recalc_height l r
      if new_height = h then .ok (rebuild (.node a l r p h v) ctx)
      else if !balance then
        if pointer_in_parent (.node a l r p new_height v) ctx = some (hole_slot ctx) then
          match rotate (.node a l r p new_height v) with
          | .error e => .error e
          | .ok t => .ok (rebuild (t.set_parent p) ctx)
        else .error .stray_parent
      else
        match p with
        | none => .ok (rebuild (.node a l r p new_height v) ctx)
        | some x =>
          if hot_ptr ctx = some x then insert_walk (.node a l r p new_height v) ctx
          else .error .stray_parent

/-- Source `map::insert_helper`: `new node(hot, value)` gets `parent = hot`. -/
def insert_helper (comp : K → K → Bool) (m : map K V) (value : K × V) (fresh : Nat) :
    Except Stop (map K V × Option Nat) :=
  match search_node_hot comp m.root value.1 [] with
  | (.node a _ _ _ _ _, _) => .ok (m, some a)
  | (.nil, hot) =>
    match insert_walk (.node fresh .nil .nil (hot_ptr hot) 1 value) hot with
    | .error e => .error e
    | .ok t => .ok (⟨m.self, m.map_size + 1, t⟩, some fresh)

/-- Source `map::insert(value)`. -/
def insert (comp : K → K → Bool) (m : map K V) (value : K × V) (fresh : Nat) :
    Except Stop (map K V × iterator × Bool) :=
  match search_node comp m.root value.1 with
  | .node a _ _ _ _ _ => .ok (m, ⟨m.self, some a⟩, false)
  | .nil =>
    match insert_helper comp m value fresh with
    | .error e => .error e
    | .ok (m1, res) => .ok (m1, ⟨m1.self, res⟩, true)

/-- Source mutable `map::operator[](key)`: the map afterwards and the node
whose value the returned reference designates. -/
def index [Inhabited V] (comp : K → K → Bool) (m : map K V) (key : K) (fresh : Nat) :
    Except Stop (map K V × Option Nat) :=
  match search_node comp m.root key with
  | .node a _ _ _ _ _ => .ok (m, some a)
  | .nil => insert_helper comp m (key, default) fresh

/-- The rebalancing loop of `erase`, at `hot` the node of the first frame.
Unbalanced: `tmp = hot->parent; pip = pointer_in_parent(hot);
pip = rotate(hot); pip->parent = tmp; hot = tmp`, where `tmp` is the next node
of the chain once `pointer_in_parent` has selected the slot `hot` is in.
Otherwise `hot = hot->parent`, and the loop ends when that is null. -/
def erase_walk : PTree K V → List (PFrame K V) → Except Stop (PTree K V)
  | sub, [] => .ok sub
  | sub, f :: ctx =>
    match f.plug sub with
    | .nil => .error (.failure .null_dereference)
    | .node a l r p _ v =>
      let (new_height, balance) := recalc_height l r
      if !balance then
        if pointer_in_parent (.node a l r p new_height v) ctx = some (hole_slot ctx) then
          match rotate (.node a l r p new_height v) with
          | .error e => .error e
          | .ok t => erase_walk (t.set_parent p) ctx
        else .error .stray_parent
      else
        match p with
        | none => .ok (rebuild (.node a l r p new_height v) ctx)
        | some x =>
          if hot_ptr ctx = some x then erase_walk (.node a l r p new_height v) ctx
          else .error .stray_parent

/-- The loop `while (hot)` entered with `hot = start`, a `parent` field just
read from the node in the hole of the chain `ctx`: nothing to do when null,
the walk up the chain when it names the first node of the chain. -/
def erase_from (start : Option Nat) (sub : PTree K V) (ctx : List (PFrame K V)) :
    Except Stop (PTree K V) :=
  match start with
  | none => .ok (rebuild sub ctx)
  | some x => if hot_ptr ctx = some x then erase_walk sub ctx else .error .stray_parent

/-- The body of `map::erase` after the guard. Two children: `new_node` takes
the links and the `parent` field of `to_remove`, both children get
`parent = new_node`, `pointer_in_parent(to_remove) = new_node`; then the
successor is unlinked through `pointer_in_parent`, its right child gets the
successor's `parent` field, and the loop starts at that field. Otherwise the
child gets the `parent` field of `to_remove`, is written to
`pointer_in_parent(to_remove)`, and the loop starts at that field. -/
def erase_node (t : PTree K V) (q : Nat) (fresh : Nat) : Except Stop (PTree K V) :=
  match locate t q [] with
  | none => .error (.failure .null_dereference)
  | some (.nil, _) => .error (.failure .null_dereference)
  | some (.node ta tl tr tp th tv, ctx) =>
    if pointer_in_parent (.node ta tl tr tp th tv) ctx = some (hole_slot ctx) then
      if !tl.is_null && !tr.is_null then
        match leftmost (tr.set_parent (some fresh)) [] with
        | (.nil, _) => .error (.failure .null_dereference)
        | (.node sa sl sr sp sh sv, inner) =>
          if pointer_in_parent (.node sa sl sr sp sh sv)
              (inner ++ PFrame.inr fresh (tl.set_parent (some fresh)) tp th sv :: ctx) =
              some (hole_slot (inner ++ PFrame.inr fresh (tl.set_parent (some fresh)) tp th sv
                :: ctx)) then
            erase_from sp (sr.set_parent sp)
              (inner ++ PFrame.inr fresh (tl.set_parent (some fresh)) tp th sv :: ctx)
          else .error .stray_parent
      else
        erase_from tp ((if !tl.is_null then tl else tr).set_parent tp) ctx
    else .error .stray_parent

/-- Source `map::erase(pos)`: the map after the call and its outcome. -/
def erase (m : map K V) (pos : iterator) (fresh : Nat) : map K V × Except Stop Unit :=
  if pos.this_map ≠ m.self ∨ pos.this_node = none then
    (m, .error (.failure .index_out_of_bound))
  else
    match pos.this_node with
    | none => (m, .error (.failure .null_dereference))
    | some q =>
      match erase_node m.root q fresh with
      | .error e => (m, .error e)
      | .ok t => (⟨m.self, m.map_size - 1, t⟩, .ok ())

/-- The constructor `map()`. -/
def map.new (self : Nat) : map K V := ⟨self, 0, .nil⟩

/-- Source `map::clear()`. -/
def map.clear (m : map K V) : map K V := ⟨m.self, 0, .nil⟩

/-- Source `map::clone_tree(tree)`: the `k`-th call of `new` since the start
returns the address `alloc k`; the result is the clone and the number of
allocations so far. The new node is built with `parent(nullptr)`, and each
present child gets `parent = ret`. -/
def clone_tree (alloc : Nat → Nat) : PTree K V → Nat → PTree K V × Nat
  | .nil, k => (.nil, k)
  | .node _ l r _ h v, k =>
    let left := clone_tree alloc l k
    let right := clone_tree alloc r left.2
    (.node (alloc right.2) (left.1.set_parent (some (alloc right.2)))
        (right.1.set_parent (some (alloc right.2))) none h v,
      right.2 + 1)

/-- The copy constructor `map(const map &other)`, for a new object at `self`. -/
def map.copy (self : Nat) (other : map K V) (alloc : Nat → Nat) : map K V :=
  ⟨self, other.map_size, (clone_tree alloc other.root 0).1⟩

/-- Source `map::operator=(const map &other)`. -/
def map.assign (m other : map K V) (alloc : Nat → Nat) : map K V :=
  if m.self = other.self then m
  else ⟨m.self, other.map_size, (clone_tree alloc other.root 0).1⟩

/-- Addresses of the nodes of a tree, in symmetric order. -/
def PTree.addrs : PTree K V → List Nat
  | .nil => []
  | .node a l r _ _ _ => l.addrs ++ a :: r.addrs

/-- Addresses of the nodes of a chain that come before its hole. -/
def before_addrs : List (PFrame K V) → List Nat
  | [] => []
  | .inl _ _ _ _ _ :: ctx => before_addrs ctx
  | .inr a l _ _ _ :: ctx => before_addrs ctx ++ (l.addrs ++ [a])

/-- Addresses of the nodes of a chain that come after its hole. -/
def after_addrs : List (PFrame K V) → List Nat
  | [] => []
  | .inl a r _ _ _ :: ctx => (a :: r.addrs) ++ after_addrs ctx
  | .inr _ _ _ _ _ :: ctx => after_addrs ctx

/-- All the nodes of a tree, each given as the subtree it roots. -/
def PTree.nodes : PTree K V → List (PTree K V)
  | .nil => []
  | .node a l r p h v => .node a l r p h v :: (l.nodes ++ r.nodes)

/-- Parent back-references are consistent below a node whose own parent
reference should be `p`: the node's `parent` is `p`, and so on for both
children with the node's address. -/
def ParentsOk : Option Nat → PTree K V → Prop
  | _, .nil => True
  | p, .node a l r par _ _ => par = p ∧ ParentsOk (some a) l ∧ ParentsOk (some a) r

instance ParentsOk.decide : (p : Option Nat) → (t : PTree K V) → Decidable (ParentsOk p t)
  | _, .nil => isTrue trivial
  | p, .node a l r par _ _ =>
    have := ParentsOk.decide (some a) l
    have := ParentsOk.decide (some a) r
    inferInstanceAs (Decidable (par = p ∧ ParentsOk (some a) l ∧ ParentsOk (some a) r))

/-- The parent reference a subtree in the hole of the chain should have, when
the outermost node of the chain should have `top`. -/
def hole_parent (top : Option Nat) : List (PFrame K V) → Option Nat
  | [] => top
  | f :: _ => some f.addr

/-- The same for the chain above a position, whose outermost node should have
the parent reference `top`: every frame's `parent` is the address of the next
frame (`top` for the last), and the subtree hanging off it is consistent. -/
def CtxParentsOk (top : Option Nat) : List (PFrame K V) → Prop
  | [] => True
  | .inl a r p _ _ :: ctx =>
    p = hole_parent top ctx ∧ ParentsOk (some a) r ∧ CtxParentsOk top ctx
  | .inr a l p _ _ :: ctx =>
    p = hole_parent top ctx ∧ ParentsOk (some a) l ∧ CtxParentsOk top ctx

/-- A position is sound: parent references are consistent in the subtree and
along the chain above it, and no address occurs twice in the whole tree. -/
def WalkOk (sub : PTree K V) (ctx : List (PFrame K V)) : Prop :=
  ParentsOk (hole_parent none ctx) sub ∧ CtxParentsOk none ctx ∧
    (before_addrs ctx ++ sub.addrs ++ after_addrs ctx).Nodup

/-- Maps reachable from the empty map by `insert`, mutable `operator[]`,
`erase` (calls that return normally), `clear`, copy construction and copy
assignment. -/
inductive Reachable [Inhabited V] (comp : K → K → Bool) : map K V → Prop where
  | empty_map (self : Nat) : Reachable comp (map.new self)
  | by_insert {m : map K V} {r : map K V × iterator × Bool} (value : K × V) (fresh : Nat) :
      Reachable comp m → insert comp m value fresh = .ok r → Reachable comp r.1
  | by_index {m : map K V} {r : map K V × Option Nat} (key : K) (fresh : Nat) :
      Reachable comp m → index comp m key fresh = .ok r → Reachable comp r.1
  | by_erase {m : map K V} (pos : iterator) (fresh : Nat) :
      Reachable comp m → (erase m pos fresh).2 = .ok () →
      Reachable comp (erase m pos fresh).1
  | by_clear {m : map K V} : Reachable comp m → Reachable comp m.clear
  | by_copy {other : map K V} (self : Nat) (alloc : Nat → Nat) :
      Reachable comp other → Reachable comp (map.copy self other alloc)
  | by_assign {m other : map K V} (alloc : Nat → Nat) :
      Reachable comp m → Reachable comp other → Reachable comp (m.assign other alloc)

/-- The node without its `parent` field, and so on below it. -/
def PTree.forget : PTree K V → Tree K V
  | .nil => .nil
  | .node a l r _ h v => .node a l.forget r.forget h v

/-- A frame without its `parent` field. -/
def PFrame.forget : PFrame K V → Frame K V
  | .inl a r _ h v => .inl a r.forget h v
  | .inr a l _ h v => .inr a l.forget h v

/-- The map with the `parent` fields of its nodes left out. -/
def map.forget (m : map K V) : sjtu.map K V := ⟨m.self, m.map_size, m.root.forget⟩

/-- The outcome on trees without `parent` fields that an outcome here stands
for: the same failure, or the result by `f`; none for `stray_parent`. -/
def lower {α β : Type} (f : α → β) : Except Stop α → Option (Except Failure β)
  | .ok a => some (.ok (f a))
  | .error (.failure e) => some (.error e)
  | .error .stray_parent => none

/-- The map after `insert` of the keys 1, 2, 3 and `m[4]`, with the nodes at
the addresses 100 to 103. -/
def grown_map : map Nat Nat :=
  ⟨0, 4,
    .node 101 (.node 100 .nil .nil (some 101) 1 (1, 0))
      (.node 102 .nil (.node 103 .nil .nil (some 102) 1 (4, 0)) (some 101) 2 (3, 0))
      none 3 (2, 0)⟩

/-- A copy of `grown_map` after the erasure of its root, the copy's nodes at
the addresses 200 to 202. -/
def copied_map : map Nat Nat :=
  ⟨1, 3,
    .node 202 (.node 200 .nil .nil (some 202) 1 (1, 0))
      (.node 201 .nil .nil (some 202) 1 (4, 0)) none 2 (3, 0)⟩

end linked

/-! ## In-order content -/

@[simp] theorem height_nil : (Tree.nil : Tree K V).height = 0 := rfl

@[simp] theorem height_node (a : Nat) (l r : Tree K V) (h : Int) (v : K × V) :
    (Tree.node a l r h v).height = h := rfl

theorem toList_eq_entries (t : Tree K V) : t.toList = t.entries.map Prod.snd := by
  induction t with
  | nil => rfl
  | node a l r h v ihl ihr => simp [Tree.toList, Tree.entries, ihl, ihr]

theorem addrs_eq_entries (t : Tree K V) : t.addrs = t.entries.map Prod.fst := by
  induction t with
  | nil => rfl
  | node a l r h v ihl ihr => simp [Tree.addrs, Tree.entries, ihl, ihr]

theorem entries_plug (f : Frame K V) (t : Tree K V) :
    (f.plug t).entries = before [f] ++ t.entries ++ after [f] := by
  cases f <;> simp [Frame.plug, Tree.entries, before, after]

theorem entries_rebuild (t : Tree K V) (ctx : List (Frame K V)) :
    (rebuild t ctx).entries = before ctx ++ t.entries ++ after ctx := by
  induction ctx generalizing t with
  | nil => simp [rebuild, before, after]
  | cons f ctx ih =>
    rw [rebuild, ih]
    cases f <;> simp [Frame.plug, Tree.entries, before, after]

theorem before_append (c1 c2 : List (Frame K V)) :
    before (c1 ++ c2) = before c2 ++ before c1 := by
  induction c1 with
  | nil => simp [before]
  | cons f c1 ih => cases f <;> simp [before, ih]

theorem after_append (c1 c2 : List (Frame K V)) :
    after (c1 ++ c2) = after c1 ++ after c2 := by
  induction c1 with
  | nil => simp [after]
  | cons f c1 ih => cases f <;> simp [after, ih]

theorem entries_rotate {t t' : Tree K V} (h : rotate t = .ok t') : t'.entries = t.entries := by
  unfold rotate at h
  split at h
  · cases h
  · split at h
    · split at h
      · cases h
      · split at h
        · split at h
          · cases h
          · cases h; simp [connect34, update_height, Tree.entries]
        · split at h
          · cases h
          · cases h; simp [connect34, update_height, Tree.entries]
    · split at h
      · cases h
      · split at h
        · split at h
          · cases h
          · cases h; simp [connect34, update_height, Tree.entries]
        · split at h
          · cases h
          · cases h; simp [connect34, update_height, Tree.entries]

theorem entries_insert_walk {sub t' : Tree K V} {ctx : List (Frame K V)}
    (h : insert_walk sub ctx = .ok t') : t'.entries = (rebuild sub ctx).entries := by
  induction ctx generalizing sub with
  | nil => simp [insert_walk] at h; simp [rebuild, h]
  | cons f ctx ih =>
    rw [insert_walk] at h
    rw [rebuild]
    generalize f.plug sub = hot at h
    cases hot with
    | nil => simp at h
    | node a l r hh v =>
      simp only at h
      split at h
      · cases h; simp [entries_rebuild, Tree.entries]
      · split at h
        · split at h
          · cases h
          · rename_i t ht
            cases h
            rw [entries_rebuild, entries_rotate ht, entries_rebuild]
            simp [Tree.entries]
        · rw [ih h]; simp [entries_rebuild, Tree.entries]

theorem entries_erase_walk {sub t' : Tree K V} {ctx : List (Frame K V)}
    (h : erase_walk sub ctx = .ok t') : t'.entries = (rebuild sub ctx).entries := by
  induction ctx generalizing sub with
  | nil => simp [erase_walk] at h; simp [rebuild, h]
  | cons f ctx ih =>
    rw [erase_walk] at h
    rw [rebuild]
    generalize f.plug sub = hot at h
    cases hot with
    | nil => simp at h
    | node a l r hh v =>
      simp only at h
      split at h
      · split at h
        · cases h
        · rename_i t ht
          rw [ih h, entries_rebuild, entries_rotate ht, entries_rebuild]
          simp [Tree.entries]
      · rw [ih h]; simp [entries_rebuild, Tree.entries]

/-! ## Searching and dereferencing -/

theorem search_node_hot_fst (comp : K → K → Bool) (t : Tree K V) (key : K)
    (ctx : List (Frame K V)) :
    (search_node_hot comp t key ctx).1 = search_node comp t key := by
  induction t generalizing ctx with
  | nil => rfl
  | node a l r h v ihl ihr =>
    simp only [search_node_hot, search_node]
    split
    · exact ihl _
    · split
      · exact ihr _
      · rfl

theorem search_node_hot_rebuild (comp : K → K → Bool) (t : Tree K V) (key : K)
    (ctx : List (Frame K V)) :
    rebuild (search_node_hot comp t key ctx).1 (search_node_hot comp t key ctx).2
      = rebuild t ctx := by
  induction t generalizing ctx with
  | nil => rfl
  | node a l r h v ihl ihr =>
    simp only [search_node_hot]
    split
    · rw [ihl]; rfl
    · split
      · rw [ihr]; rfl
      · rfl

theorem mem_toList_of_mem_entries {t : Tree K V} {e : Nat × (K × V)} (h : e ∈ t.entries) :
    e.2 ∈ t.toList := by
  rw [toList_eq_entries]; exact List.mem_map_of_mem _ h

theorem search_node_hot_bounds {comp : K → K → Bool} (hc : StrictWeakOrder comp)
    (t : Tree K V) (key : K) (ctx : List (Frame K V)) (ht : Ordered comp t)
    (hb : ∀ e ∈ before ctx, comp e.2.1 key = true)
    (ha : ∀ e ∈ after ctx, comp key e.2.1 = true) :
    (∀ e ∈ before (search_node_hot comp t key ctx).2, comp e.2.1 key = true) ∧
    (∀ e ∈ after (search_node_hot comp t key ctx).2, comp key e.2.1 = true) := by
  induction t generalizing ctx with
  | nil => exact ⟨hb, ha⟩
  | node a l r h v ihl ihr =>
    obtain ⟨hl, hr, hol, hor⟩ := ht
    simp only [search_node_hot]
    split
    · rename_i hlt
      apply ihl _ hol
      · simpa [before] using hb
      · intro e he
        simp only [after, List.cons_append, List.mem_cons, List.mem_append] at he
        rcases he with rfl | he | he
        · exact hlt
        · exact hc.trans _ _ _ hlt (hr _ (mem_toList_of_mem_entries he))
        · exact ha e he
    · split
      · rename_i hgt
        apply ihr _ hor
        · intro e he
          simp only [before, List.mem_append, List.mem_singleton] at he
          rcases he with he | he | rfl
          · exact hb e he
          · exact hc.trans _ _ _ (hl _ (mem_toList_of_mem_entries he)) hgt
          · exact hgt
        · simpa [after] using ha
      · exact ⟨hb, ha⟩

theorem search_node_sound {comp : K → K → Bool} {t : Tree K V} {key : K}
    {a : Nat} {l r : Tree K V} {h : Int} {v : K × V}
    (hs : search_node comp t key = .node a l r h v) :
    Equiv comp key v.1 ∧ (a, v) ∈ t.entries := by
  induction t with
  | nil => simp [search_node] at hs
  | node a' l' r' h' v' ihl ihr =>
    simp only [search_node] at hs
    split at hs
    · exact ⟨(ihl hs).1, by simp [Tree.entries, (ihl hs).2]⟩
    · split at hs
      · exact ⟨(ihr hs).1, by simp [Tree.entries, (ihr hs).2]⟩
      · rename_i h1 h2
        cases hs
        exact ⟨⟨by simpa using h1, by simpa using h2⟩, by simp [Tree.entries]⟩

theorem equiv_symm {comp : K → K → Bool} {a b : K} (h : Equiv comp a b) : Equiv comp b a :=
  ⟨h.2, h.1⟩

theorem search_node_complete {comp : K → K → Bool} (hc : StrictWeakOrder comp)
    {t : Tree K V} {key : K} (ht : Ordered comp t) {x : K × V} (hx : x ∈ t.toList)
    (he : Equiv comp x.1 key) :
    ∃ a l r h, search_node comp t key = .node a l r h x := by
  induction t with
  | nil => simp [Tree.toList] at hx
  | node a l r h v ihl ihr =>
    obtain ⟨hl, hr, hol, hor⟩ := ht
    simp only [Tree.toList, List.mem_append, List.mem_cons] at hx
    simp only [search_node]
    split
    · rename_i hlt
      rcases hx with hx | rfl | hx
      · exact ihl hol hx
      · rw [he.2] at hlt; cases hlt
      · have := hc.trans _ _ _ hlt (hr x hx)
        rw [he.2] at this; cases this
    · split
      · rename_i hgt
        rcases hx with hx | rfl | hx
        · have := hc.trans _ _ _ (hl x hx) hgt
          rw [he.1] at this; cases this
        · rw [he.1] at hgt; cases hgt
        · exact ihr hor hx
      · rename_i h1 h2
        have hkv : Equiv comp key v.1 := ⟨by simpa using h1, by simpa using h2⟩
        have hxv : Equiv comp x.1 v.1 := hc.equiv_trans _ _ _ he hkv
        rcases hx with hx | rfl | hx
        · have := hl x hx
          rw [hxv.1] at this; cases this
        · exact ⟨a, l, r, h, rfl⟩
        · have := hr x hx
          rw [hxv.2] at this; cases this

theorem locate_sound {t : Tree K V} {p : Nat} {ctx ctx' : List (Frame K V)} {foc : Tree K V}
    (h : locate t p ctx = some (foc, ctx')) :
    rebuild foc ctx' = rebuild t ctx ∧ ∃ l r hh v, foc = .node p l r hh v := by
  induction t generalizing ctx with
  | nil => simp [locate] at h
  | node a l r hh v ihl ihr =>
    simp only [locate] at h
    split at h
    · rename_i hap
      cases h
      exact ⟨rfl, l, r, hh, v, by rw [hap]⟩
    · split at h
      · rename_i z hz
        cases h
        have := ihl hz
        exact ⟨by rw [this.1]; rfl, this.2⟩
      · have := ihr h
        exact ⟨by rw [this.1]; rfl, this.2⟩

theorem locate_complete {t : Tree K V} {p : Nat} (ctx : List (Frame K V))
    (h : p ∈ t.addrs) : ∃ z, locate t p ctx = some z := by
  induction t generalizing ctx with
  | nil => simp [Tree.addrs] at h
  | node a l r hh v ihl ihr =>
    simp only [Tree.addrs, List.mem_append, List.mem_cons] at h
    simp only [locate]
    split
    · exact ⟨_, rfl⟩
    · rename_i hne
      rcases h with h | h | h
      · obtain ⟨z, hz⟩ := ihl (.inl a r hh v :: ctx) h
        rw [hz]; exact ⟨_, rfl⟩
      · exact absurd h.symm hne
      · cases hl : locate l p (.inl a r hh v :: ctx) with
        | some z => exact ⟨_, rfl⟩
        | none => exact ihr _ h

theorem leftmost_spec (t : Tree K V) (ctx : List (Frame K V)) :
    rebuild (leftmost t ctx).1 (leftmost t ctx).2 = rebuild t ctx ∧
    before (leftmost t ctx).2 = before ctx ∧
    (t.is_null = false → ∃ a r h v, (leftmost t ctx).1 = .node a .nil r h v) := by
  induction t generalizing ctx with
  | nil => simp [leftmost, Tree.is_null]
  | node a l r h v ihl _ =>
    cases l with
    | nil => simp [leftmost]
    | node la ll lr lh lv =>
      simp only [leftmost]
      obtain ⟨h1, h2, h3⟩ := ihl (.inl a r h v :: ctx)
      refine ⟨by rw [h1]; rfl, by rw [h2]; rfl, fun _ => h3 rfl⟩

/-! ## Stored heights -/

theorem height_nonneg {t : Tree K V} (h : HeightsOk t) : 0 ≤ t.height := by
  induction t with
  | nil => simp
  | node a l r hh v ihl ihr =>
    obtain ⟨h1, h2, h3⟩ := h
    have := ihl h2
    have := ihr h3
    simp only [height_nil, height_node]
    omega

theorem height_eq_zero_nil {t : Tree K V} (h : HeightsOk t) (h0 : t.height ≤ 0) : t = .nil := by
  cases t with
  | nil => rfl
  | node a l r hh v =>
    obtain ⟨h1, h2, h3⟩ := h
    have := height_nonneg h2
    have := height_nonneg h3
    simp only [height_nil, height_node] at h0
    omega

theorem heightsOk_update_height {a : Nat} {l r : Tree K V} {v : K × V}
    (hl : HeightsOk l) (hr : HeightsOk r) : HeightsOk (update_height a l r v) := by
  refine ⟨?_, hl, hr⟩
  omega

theorem heightsOk_connect34 {a b c : Nat × (K × V)} {t1 t2 t3 t4 : Tree K V}
    (h1 : HeightsOk t1) (h2 : HeightsOk t2) (h3 : HeightsOk t3) (h4 : HeightsOk t4) :
    HeightsOk (connect34 a b c t1 t2 t3 t4) :=
  heightsOk_update_height (heightsOk_update_height h1 h2) (heightsOk_update_height h3 h4)

theorem rotate_heightsOk {a : Nat} {l r : Tree K V} {h : Int} {v : K × V}
    (hl : HeightsOk l) (hr : HeightsOk r)
    (hb : ¬ (l.height ≤ r.height + 1 ∧ r.height ≤ l.height + 1)) :
    ∃ t', rotate (.node a l r h v) = .ok t' ∧ HeightsOk t' := by
  have hl0 := height_nonneg hl
  have hr0 := height_nonneg hr
  simp only [rotate]
  by_cases hgt : l.height > r.height
  · rw [if_pos hgt]
    cases l with
    | nil => simp only [height_nil] at hgt; omega
    | node ca cl cr ch cv =>
      obtain ⟨e, hcl, hcr⟩ := hl
      have := height_nonneg hcl
      have := height_nonneg hcr
      simp only [height_node] at hgt hb hl0
      by_cases hg : cl.height > cr.height
      · simp only [if_pos hg]
        cases cl with
        | nil => simp only [height_nil] at hg; omega
        | node ga gl gr gh gv =>
          exact ⟨_, rfl, heightsOk_connect34 hcl.2.1 hcl.2.2 hcr hr⟩
      · simp only [if_neg hg]
        cases cr with
        | nil => simp only [height_nil] at hg e; omega
        | node ga gl gr gh gv =>
          exact ⟨_, rfl, heightsOk_connect34 hcl hcr.2.1 hcr.2.2 hr⟩
  · rw [if_neg hgt]
    cases r with
    | nil => simp only [height_nil] at hgt hb; omega
    | node ca cl cr ch cv =>
      obtain ⟨e, hcl, hcr⟩ := hr
      have := height_nonneg hcl
      have := height_nonneg hcr
      simp only [height_node] at hgt hb hr0
      by_cases hg : cl.height > cr.height
      · simp only [if_pos hg]
        cases cl with
        | nil => simp only [height_nil] at hg; omega
        | node ga gl gr gh gv =>
          exact ⟨_, rfl, heightsOk_connect34 hl hcl.2.1 hcl.2.2 hcr⟩
      · simp only [if_neg hg]
        cases cr with
        | nil => simp only [height_nil] at hg e; omega
        | node ga gl gr gh gv =>
          exact ⟨_, rfl, heightsOk_connect34 hl hcl hcr.2.1 hcr.2.2⟩

theorem heightsOk_plug_inv {f : Frame K V} {t : Tree K V} (h : HeightsOk (f.plug t)) :
    HeightsOk t ∧ CtxHeightsOk [f] := by
  cases f with
  | inl a r hh v => exact ⟨h.2.1, h.2.2, trivial⟩
  | inr a l hh v => exact ⟨h.2.2, h.2.1, trivial⟩

theorem heightsOk_rebuild_inv {t : Tree K V} {ctx : List (Frame K V)}
    (h : HeightsOk (rebuild t ctx)) : HeightsOk t ∧ CtxHeightsOk ctx := by
  induction ctx generalizing t with
  | nil => exact ⟨h, trivial⟩
  | cons f ctx ih =>
    obtain ⟨h1, h2⟩ := ih h
    cases f with
    | inl a r hh v => exact ⟨h1.2.1, h1.2.2, h2⟩
    | inr a l hh v => exact ⟨h1.2.2, h1.2.1, h2⟩

theorem ctxHeightsOk_append {c1 c2 : List (Frame K V)}
    (h1 : CtxHeightsOk c1) (h2 : CtxHeightsOk c2) : CtxHeightsOk (c1 ++ c2) := by
  induction c1 with
  | nil => exact h2
  | cons f c1 ih =>
    cases f with
    | inl a r hh v => exact ⟨h1.1, ih h1.2⟩
    | inr a l hh v => exact ⟨h1.1, ih h1.2⟩

theorem erase_walk_heightsOk {sub : Tree K V} {ctx : List (Frame K V)}
    (hs : HeightsOk sub) (hc : CtxHeightsOk ctx) :
    ∃ t', erase_walk sub ctx = .ok t' ∧ HeightsOk t' := by
  induction ctx generalizing sub with
  | nil => exact ⟨sub, rfl, hs⟩
  | cons f ctx ih =>
    have key : ∀ (a : Nat) (l r : Tree K V) (h : Int) (v : K × V),
        f.plug sub = .node a l r h v → HeightsOk l → HeightsOk r → CtxHeightsOk ctx →
        ∃ t', erase_walk sub (f :: ctx) = .ok t' ∧ HeightsOk t' := by
      intro a l r h v hp hl hr hctx
      rw [erase_walk, hp]
      simp only [recalc_height]
      by_cases hb : l.height ≤ r.height + 1 ∧ r.height ≤ l.height + 1
      · have : (!(decide (l.height ≤ r.height + 1) && decide (r.height ≤ l.height + 1))) = false := by
          simp [hb.1, hb.2]
        rw [this]
        simp only [Bool.false_eq_true, if_false]
        apply ih _ hctx
        exact ⟨by omega, hl, hr⟩
      · have : (!(decide (l.height ≤ r.height + 1) && decide (r.height ≤ l.height + 1))) = true := by
          simp only [Bool.not_eq_true', Bool.and_eq_false_iff, decide_eq_false_iff_not]
          by_cases h1 : l.height ≤ r.height + 1
          · right; intro h2; exact hb ⟨h1, h2⟩
          · left; exact h1
        rw [this]
        simp only [if_true]
        obtain ⟨t', ht', hok⟩ := rotate_heightsOk (a := a) (v := v)
          (h := (if l.height > r.height then l.height else r.height) + 1) hl hr hb
        rw [ht']
        exact ih hok hctx
    cases f with
    | inl a r h v => exact key a sub r h v rfl hs hc.1 hc.2
    | inr a l h v => exact key a l sub h v rfl hc.1 hs hc.2

/-! ## Erasing a node -/

theorem erase_node_heightsOk {t : Tree K V} {p : Nat} (fresh : Nat)
    (ht : HeightsOk t) (hp : p ∈ t.addrs) :
    ∃ t', erase_node t p fresh = .ok t' ∧ HeightsOk t' := by
  obtain ⟨⟨foc, ctx⟩, hz⟩ := locate_complete (t := t) [] hp
  obtain ⟨hre, tl, tr, th, tv, rfl⟩ := locate_sound hz
  simp only [rebuild] at hre
  rw [← hre] at ht
  obtain ⟨hfoc, hctx⟩ := heightsOk_rebuild_inv ht
  obtain ⟨-, htl, htr⟩ := hfoc
  simp only [erase_node, hz]
  split
  · rename_i hboth
    simp only [Bool.and_eq_true, Bool.not_eq_true'] at hboth
    obtain ⟨e1, e2, e3⟩ := leftmost_spec tr []
    obtain ⟨sa, sr, sh, sv, e3⟩ := e3 hboth.2
    simp only [rebuild] at e1
    rw [← e1] at htr
    obtain ⟨hs, hinner⟩ := heightsOk_rebuild_inv htr
    generalize leftmost tr [] = lm at *
    obtain ⟨s, inner⟩ := lm
    simp only at e3 hs hinner
    subst e3
    simp only
    exact erase_walk_heightsOk hs.2.2 (ctxHeightsOk_append hinner ⟨htl, hctx⟩)
  · apply erase_walk_heightsOk _ hctx
    split
    · exact htl
    · exact htr

theorem erase_node_toList {t t' : Tree K V} {p fresh : Nat}
    (h : erase_node t p fresh = .ok t') :
    ∃ l1 x l2, node_value t (some p) = .ok x ∧ t.toList = l1 ++ x :: l2 ∧
      t'.toList = l1 ++ l2 := by
  simp only [erase_node] at h
  cases hz : locate t p [] with
  | none => simp [hz] at h
  | some z =>
    obtain ⟨foc, ctx⟩ := z
    obtain ⟨hre, tl, tr, th, tv, rfl⟩ := locate_sound hz
    simp only [rebuild] at hre
    have hent := entries_rebuild (.node p tl tr th tv) ctx
    rw [hre] at hent
    simp only [hz] at h
    refine ⟨(before ctx ++ tl.entries).map Prod.snd, tv, ?_⟩
    split at h
    · rename_i hboth
      simp only [Bool.and_eq_true, Bool.not_eq_true'] at hboth
      obtain ⟨e1, e2, e3⟩ := leftmost_spec tr []
      obtain ⟨sa, sr, sh, sv, e3⟩ := e3 hboth.2
      simp only [rebuild] at e1
      have hent2 := entries_rebuild (leftmost tr []).1 (leftmost tr []).2
      rw [e1, e2] at hent2
      generalize leftmost tr [] = lm at *
      obtain ⟨s, inner⟩ := lm
      simp only at e3 hent2
      subst e3
      simp only at h
      have h3 := entries_erase_walk h
      rw [entries_rebuild, before_append, after_append] at h3
      refine ⟨(((sa, sv) :: sr.entries) ++ after inner ++ after ctx).map Prod.snd, ?_, ?_, ?_⟩
      · simp [node_value, hz]
      · rw [toList_eq_entries, hent]
        simp [Tree.entries, hent2, before]
      · have e2' : before inner = [] := e2
        rw [toList_eq_entries, h3]
        simp [Tree.entries, before, after, e2']
    · rename_i hnot
      have h3 := entries_erase_walk h
      rw [entries_rebuild] at h3
      refine ⟨(tr.entries ++ after ctx).map Prod.snd, ?_, ?_, ?_⟩
      · simp [node_value, hz]
      · rw [toList_eq_entries, hent]
        simp [Tree.entries]
      · rw [toList_eq_entries, h3]
        cases tl with
        | nil =>
          simp [Tree.is_null, Tree.entries]
        | node la ll lr lh lv =>
          cases tr with
          | nil => simp [Tree.is_null, Tree.entries]
          | node ra rl rr rh rv => simp [Tree.is_null] at hnot

/-! ## Ordering -/

theorem ordered_iff_increasing {comp : K → K → Bool} (hc : StrictWeakOrder comp)
    (t : Tree K V) : Ordered comp t ↔ Increasing comp t.toList := by
  induction t with
  | nil => simp [Ordered, Increasing, Tree.toList]
  | node a l r h v ihl ihr =>
    simp only [Ordered, Increasing, Tree.toList, List.pairwise_append, List.pairwise_cons,
      List.mem_cons] at *
    rw [ihl, ihr]
    constructor
    · rintro ⟨h1, h2, h3, h4⟩
      refine ⟨h3, ⟨h2, h4⟩, ?_⟩
      rintro x hx y (rfl | hy)
      · exact h1 x hx
      · exact hc.trans _ _ _ (h1 x hx) (h2 y hy)
    · rintro ⟨h3, ⟨h2, h4⟩, h5⟩
      exact ⟨fun x hx => h5 x hx v (Or.inl rfl), h2, h3, h4⟩

theorem increasing_split {comp : K → K → Bool} {l1 l2 : List (K × V)} {x : K × V}
    (h : Increasing comp (l1 ++ x :: l2)) :
    (∀ y ∈ l1, comp y.1 x.1 = true) ∧ (∀ y ∈ l2, comp x.1 y.1 = true) ∧
      Increasing comp (l1 ++ l2) := by
  simp only [Increasing, List.pairwise_append, List.pairwise_cons, List.mem_cons] at *
  obtain ⟨h1, ⟨h2, h3⟩, h4⟩ := h
  exact ⟨fun y hy => h4 y hy x (Or.inl rfl), h2, h1, h3,
    fun a ha b hb => h4 a ha b (Or.inr hb)⟩

/-! ## Balance after insertion -/

theorem avl_nil : Avl (Tree.nil : Tree K V) := ⟨trivial, trivial⟩

theorem avl_node_iff {a : Nat} {l r : Tree K V} {h : Int} {v : K × V} :
    Avl (.node a l r h v) ↔
      h = 1 + max l.height r.height ∧ (l.height - r.height).natAbs ≤ 1 ∧ Avl l ∧ Avl r := by
  simp only [Avl, HeightsOk, Balanced]
  tauto

theorem avl_update_height {a : Nat} {l r : Tree K V} {v : K × V}
    (hl : Avl l) (hr : Avl r) (hb : (l.height - r.height).natAbs ≤ 1) :
    Avl (update_height a l r v) := by
  rw [update_height, avl_node_iff]
  exact ⟨by omega, hb, hl, hr⟩

theorem height_update_height (a : Nat) (l r : Tree K V) (v : K × V) :
    (update_height a l r v).height = 1 + max l.height r.height := by
  simp only [update_height, height_node]; omega

theorem avl_plug_congr {f : Frame K V} {t t' : Tree K V}
    (h : Avl (f.plug t)) (h' : Avl t') (hh : t'.height = t.height) : Avl (f.plug t') := by
  cases f with
  | inl a r hf v =>
    simp only [Frame.plug, avl_node_iff] at *
    rw [hh]; exact ⟨h.1, h.2.1, h', h.2.2.2⟩
  | inr a l hf v =>
    simp only [Frame.plug, avl_node_iff] at *
    rw [hh]; exact ⟨h.1, h.2.1, h.2.2.1, h'⟩

theorem height_plug (f : Frame K V) (t t' : Tree K V) :
    (f.plug t').height = (f.plug t).height := by
  cases f <;> rfl

theorem avl_rebuild_inv {t : Tree K V} {ctx : List (Frame K V)}
    (h : Avl (rebuild t ctx)) : Avl t := by
  induction ctx generalizing t with
  | nil => exact h
  | cons f ctx ih =>
    have := ih h
    cases f with
    | inl a r hf v => exact (avl_node_iff.1 this).2.2.1
    | inr a l hf v => exact (avl_node_iff.1 this).2.2.2

theorem avl_rebuild_congr {t t' : Tree K V} {ctx : List (Frame K V)}
    (h : Avl (rebuild t ctx)) (h' : Avl t') (hh : t'.height = t.height) :
    Avl (rebuild t' ctx) := by
  induction ctx generalizing t t' with
  | nil => exact h'
  | cons f ctx ih =>
    exact ih h (avl_plug_congr (avl_rebuild_inv h) h' hh) (height_plug f t t')

theorem avl_height_nonneg {t : Tree K V} (h : Avl t) : 0 ≤ t.height := height_nonneg h.1

theorem rotate_insert_left {a : Nat} {c r : Tree K V} {h : Int} {v : K × V}
    (hc : Avl c) (hr : Avl r) (hg : Grown c) (hh : c.height = r.height + 2) :
    ∃ t', rotate (.node a c r h v) = .ok t' ∧ Avl t' ∧ t'.height = r.height + 2 := by
  have hr0 := avl_height_nonneg hr
  cases c with
  | nil => exact absurd hg id
  | node ca cl cr ch cv =>
    obtain ⟨e, hb, hcl, hcr⟩ := avl_node_iff.1 hc
    have hl0 := avl_height_nonneg hcl
    have hr0' := avl_height_nonneg hcr
    simp only [height_node] at hh
    have hne : cl.height ≠ cr.height := by
      rcases hg with hg | hg
      · exact hg
      · omega
    simp only [rotate, height_node]
    rw [if_pos (by omega)]
    by_cases hgt : cl.height > cr.height
    · simp only [if_pos hgt]
      cases cl with
      | nil => simp only [height_nil] at hgt; omega
      | node ga gl gr gh gv =>
        obtain ⟨e', hb', hgl, hgr⟩ := avl_node_iff.1 hcl
        simp only [height_node] at *
        refine ⟨_, rfl, ?_, ?_⟩
        · apply avl_update_height
          · apply avl_update_height hgl hgr hb'
          · apply avl_update_height hcr hr; omega
          · simp only [height_update_height]; omega
        · simp only [connect34, height_update_height]; omega
    · simp only [if_neg hgt]
      cases cr with
      | nil => simp only [height_nil] at hgt e hne; omega
      | node ga gl gr gh gv =>
        obtain ⟨e', hb', hgl, hgr⟩ := avl_node_iff.1 hcr
        have := avl_height_nonneg hgl
        have := avl_height_nonneg hgr
        simp only [height_node] at *
        refine ⟨_, rfl, ?_, ?_⟩
        · apply avl_update_height
          · apply avl_update_height hcl hgl; omega
          · apply avl_update_height hgr hr; omega
          · simp only [height_update_height]; omega
        · simp only [connect34, height_update_height]; omega

theorem rotate_insert_right {a : Nat} {l c : Tree K V} {h : Int} {v : K × V}
    (hl : Avl l) (hc : Avl c) (hg : Grown c) (hh : c.height = l.height + 2) :
    ∃ t', rotate (.node a l c h v) = .ok t' ∧ Avl t' ∧ t'.height = l.height + 2 := by
  have hl0 := avl_height_nonneg hl
  cases c with
  | nil => exact absurd hg id
  | node ca cl cr ch cv =>
    obtain ⟨e, hb, hcl, hcr⟩ := avl_node_iff.1 hc
    have hl0' := avl_height_nonneg hcl
    have hr0' := avl_height_nonneg hcr
    simp only [height_node] at hh
    have hne : cl.height ≠ cr.height := by
      rcases hg with hg | hg
      · exact hg
      · omega
    simp only [rotate, height_node]
    rw [if_neg (by omega)]
    by_cases hgt : cl.height > cr.height
    · simp only [if_pos hgt]
      cases cl with
      | nil => simp only [height_nil] at hgt; omega
      | node ga gl gr gh gv =>
        obtain ⟨e', hb', hgl, hgr⟩ := avl_node_iff.1 hcl
        have := avl_height_nonneg hgl
        have := avl_height_nonneg hgr
        simp only [height_node] at *
        refine ⟨_, rfl, ?_, ?_⟩
        · apply avl_update_height
          · apply avl_update_height hl hgl; omega
          · apply avl_update_height hgr hcr; omega
          · simp only [height_update_height]; omega
        · simp only [connect34, height_update_height]; omega
    · simp only [if_neg hgt]
      cases cr with
      | nil => simp only [height_nil] at hgt e hne; omega
      | node ga gl gr gh gv =>
        obtain ⟨e', hb', hgl, hgr⟩ := avl_node_iff.1 hcr
        simp only [height_node] at *
        refine ⟨_, rfl, ?_, ?_⟩
        · apply avl_update_height
          · apply avl_update_height hl hcl; omega
          · apply avl_update_height hgl hgr hb'
          · simp only [height_update_height]; omega
        · simp only [connect34, height_update_height]; omega

theorem insert_walk_avl {sub old : Tree K V} {ctx : List (Frame K V)}
    (hold : Avl (rebuild old ctx)) (hsub : Avl sub)
    (hh : sub.height = old.height + 1) (hg : Grown sub) :
    ∃ t', insert_walk sub ctx = .ok t' ∧ Avl t' := by
  induction ctx generalizing sub old with
  | nil => exact ⟨sub, rfl, hsub⟩
  | cons f ctx ih =>
    have hhot := avl_rebuild_inv (t := f.plug old) hold
    have hs0 := avl_height_nonneg hsub
    have ho0 := avl_height_nonneg (@avl_rebuild_inv K V old [f] hhot)
    cases f with
    | inl a r h v =>
      obtain ⟨e, hb, -, hr⟩ := avl_node_iff.1 hhot
      have hr0 := avl_height_nonneg hr
      simp only [insert_walk, Frame.plug, recalc_height]
      by_cases h1 : (if sub.height > r.height then sub.height else r.height) + 1 = h
      · rw [if_pos h1]
        refine ⟨_, rfl, avl_rebuild_congr hold ?_ rfl⟩
        exact avl_node_iff.2 ⟨by omega, by omega, hsub, hr⟩
      · rw [if_neg h1]
        by_cases h2 : sub.height ≤ r.height + 1 ∧ r.height ≤ sub.height + 1
        · have : (!(decide (sub.height ≤ r.height + 1) && decide (r.height ≤ sub.height + 1)))
              = false := by simp [h2.1, h2.2]
          rw [this]
          simp only [Bool.false_eq_true, if_false]
          apply @ih _ (.node a old r h v) hold
          · exact avl_node_iff.2 ⟨by omega, by omega, hsub, hr⟩
          · simp only [height_node]; omega
          · left; omega
        · have : (!(decide (sub.height ≤ r.height + 1) && decide (r.height ≤ sub.height + 1)))
              = true := by
            simp only [Bool.not_eq_true', Bool.and_eq_false_iff, decide_eq_false_iff_not]
            by_cases h3 : sub.height ≤ r.height + 1
            · right; intro h4; exact h2 ⟨h3, h4⟩
            · left; exact h3
          rw [this]
          simp only [if_true]
          obtain ⟨t', ht', havl, hht⟩ := rotate_insert_left (a := a) (v := v)
            (h := (if sub.height > r.height then sub.height else r.height) + 1)
            hsub hr hg (by omega)
          rw [ht']
          refine ⟨_, rfl, avl_rebuild_congr hold havl ?_⟩
          simp only [Frame.plug, height_node]; omega
    | inr a l h v =>
      obtain ⟨e, hb, hl, -⟩ := avl_node_iff.1 hhot
      have hl0 := avl_height_nonneg hl
      simp only [insert_walk, Frame.plug, recalc_height]
      by_cases h1 : (if l.height > sub.height then l.height else sub.height) + 1 = h
      · rw [if_pos h1]
        refine ⟨_, rfl, avl_rebuild_congr hold ?_ rfl⟩
        exact avl_node_iff.2 ⟨by omega, by omega, hl, hsub⟩
      · rw [if_neg h1]
        by_cases h2 : l.height ≤ sub.height + 1 ∧ sub.height ≤ l.height + 1
        · have : (!(decide (l.height ≤ sub.height + 1) && decide (sub.height ≤ l.height + 1)))
              = false := by simp [h2.1, h2.2]
          rw [this]
          simp only [Bool.false_eq_true, if_false]
          apply @ih _ (.node a l old h v) hold
          · exact avl_node_iff.2 ⟨by omega, by omega, hl, hsub⟩
          · simp only [height_node]; omega
          · left; omega
        · have : (!(decide (l.height ≤ sub.height + 1) && decide (sub.height ≤ l.height + 1)))
              = true := by
            simp only [Bool.not_eq_true', Bool.and_eq_false_iff, decide_eq_false_iff_not]
            by_cases h3 : l.height ≤ sub.height + 1
            · right; intro h4; exact h2 ⟨h3, h4⟩
            · left; exact h3
          rw [this]
          simp only [if_true]
          obtain ⟨t', ht', havl, hht⟩ := rotate_insert_right (a := a) (v := v)
            (h := (if l.height > sub.height then l.height else sub.height) + 1)
            hl hsub hg (by omega)
          rw [ht']
          refine ⟨_, rfl, avl_rebuild_congr hold havl ?_⟩
          simp only [Frame.plug, height_node]; omega

/-! ## Insertion -/

theorem insert_walk_ok {sub : Tree K V} {ctx : List (Frame K V)}
    (hs : HeightsOk sub) (hc : CtxHeightsOk ctx) : ∃ t', insert_walk sub ctx = .ok t' := by
  induction ctx generalizing sub with
  | nil => exact ⟨sub, rfl⟩
  | cons f ctx ih =>
    have key : ∀ (a : Nat) (l r : Tree K V) (h : Int) (v : K × V),
        f.plug sub = .node a l r h v → HeightsOk l → HeightsOk r → CtxHeightsOk ctx →
        ∃ t', insert_walk sub (f :: ctx) = .ok t' := by
      intro a l r h v hp hl hr hctx
      rw [insert_walk, hp]
      simp only [recalc_height]
      by_cases h1 : (if l.height > r.height then l.height else r.height) + 1 = h
      · rw [if_pos h1]; exact ⟨_, rfl⟩
      · rw [if_neg h1]
        by_cases hb : l.height ≤ r.height + 1 ∧ r.height ≤ l.height + 1
        · have : (!(decide (l.height ≤ r.height + 1) && decide (r.height ≤ l.height + 1)))
              = false := by simp [hb.1, hb.2]
          rw [this]
          simp only [Bool.false_eq_true, if_false]
          exact ih ⟨by omega, hl, hr⟩ hctx
        · have : (!(decide (l.height ≤ r.height + 1) && decide (r.height ≤ l.height + 1)))
              = true := by
            simp only [Bool.not_eq_true', Bool.and_eq_false_iff, decide_eq_false_iff_not]
            by_cases h3 : l.height ≤ r.height + 1
            · right; intro h4; exact hb ⟨h3, h4⟩
            · left; exact h3
          rw [this]
          simp only [if_true]
          obtain ⟨t', ht', -⟩ := rotate_heightsOk (a := a) (v := v)
            (h := (if l.height > r.height then l.height else r.height) + 1) hl hr hb
          rw [ht']
          exact ⟨_, rfl⟩
    cases f with
    | inl a r h v => exact key a sub r h v rfl hs hc.1 hc.2
    | inr a l h v => exact key a l sub h v rfl hc.1 hs hc.2

theorem insert_helper_absent (comp : K → K → Bool) (m : map K V) (value : K × V)
    (fresh : Nat) (hs : search_node comp m.root value.1 = .nil) :
    insert_helper comp m value fresh =
      match insert_walk (.node fresh .nil .nil 1 value)
          (search_node_hot comp m.root value.1 []).2 with
      | .error e => .error e
      | .ok t => .ok (⟨m.self, m.map_size + 1, t⟩, some fresh) := by
  have h1 := search_node_hot_fst comp m.root value.1 []
  rw [hs] at h1
  unfold insert_helper
  generalize search_node_hot comp m.root value.1 [] = z at *
  obtain ⟨z1, z2⟩ := z
  simp only at h1
  subst h1
  rfl

theorem insert_helper_present (comp : K → K → Bool) (m : map K V) (value : K × V)
    (fresh : Nat) {a : Nat} {l r : Tree K V} {h : Int} {v : K × V}
    (hs : search_node comp m.root value.1 = .node a l r h v) :
    insert_helper comp m value fresh = .ok (m, some a) := by
  have h1 := search_node_hot_fst comp m.root value.1 []
  rw [hs] at h1
  unfold insert_helper
  generalize search_node_hot comp m.root value.1 [] = z at *
  obtain ⟨z1, z2⟩ := z
  simp only at h1
  subst h1
  rfl

theorem hot_rebuild_nil (comp : K → K → Bool) (t : Tree K V) (key : K)
    (hs : search_node comp t key = .nil) :
    rebuild .nil (search_node_hot comp t key []).2 = t := by
  have h1 := search_node_hot_fst comp t key []
  have h2 := search_node_hot_rebuild comp t key []
  rw [h1, hs] at h2
  exact h2

theorem insert_helper_ok (comp : K → K → Bool) (m : map K V) (value : K × V)
    (fresh : Nat) (hh : HeightsOk m.root) :
    ∃ r, insert_helper comp m value fresh = .ok r := by
  cases hs : search_node comp m.root value.1 with
  | node a l r h v => exact ⟨_, insert_helper_present comp m value fresh hs⟩
  | nil =>
    rw [insert_helper_absent comp m value fresh hs]
    have hre := hot_rebuild_nil comp m.root value.1 hs
    rw [← hre] at hh
    obtain ⟨-, hctx⟩ := heightsOk_rebuild_inv hh
    obtain ⟨t', ht'⟩ := @insert_walk_ok K V (.node fresh .nil .nil 1 value) _
      ⟨by simp, trivial, trivial⟩ hctx
    rw [ht']
    exact ⟨_, rfl⟩

theorem insert_helper_avl (comp : K → K → Bool) (m : map K V) (value : K × V)
    (fresh : Nat) (hh : Avl m.root) :
    ∃ r, insert_helper comp m value fresh = .ok r ∧ Avl r.1.root := by
  cases hs : search_node comp m.root value.1 with
  | node a l r h v => exact ⟨_, insert_helper_present comp m value fresh hs, hh⟩
  | nil =>
    rw [insert_helper_absent comp m value fresh hs]
    have hre := hot_rebuild_nil comp m.root value.1 hs
    rw [← hre] at hh
    obtain ⟨t', ht', havl⟩ := @insert_walk_avl K V (.node fresh .nil .nil 1 value) _ _ hh
      (avl_node_iff.2 ⟨by simp, by simp, avl_nil, avl_nil⟩) (by simp) (Or.inr rfl)
    rw [ht']
    exact ⟨_, rfl, havl⟩

/-! ## Stored heights after insertion, without balance -/

theorem heightsOk_plug_congr {f : Frame K V} {t t' : Tree K V}
    (h : HeightsOk (f.plug t)) (h' : HeightsOk t') (hh : t'.height = t.height) :
    HeightsOk (f.plug t') := by
  cases f with
  | inl a r hf v =>
    simp only [Frame.plug, HeightsOk] at *
    rw [hh]; exact ⟨h.1, h', h.2.2⟩
  | inr a l hf v =>
    simp only [Frame.plug, HeightsOk] at *
    rw [hh]; exact ⟨h.1, h.2.1, h'⟩

theorem heightsOk_rebuild_congr {t t' : Tree K V} {ctx : List (Frame K V)}
    (h : HeightsOk (rebuild t ctx)) (h' : HeightsOk t') (hh : t'.height = t.height) :
    HeightsOk (rebuild t' ctx) := by
  induction ctx generalizing t t' with
  | nil => exact h'
  | cons f ctx ih =>
    exact ih h (heightsOk_plug_congr (heightsOk_rebuild_inv (t := f.plug t) h).1 h' hh)
      (height_plug f t t')

theorem rotate_stepped_left {a : Nat} {c r : Tree K V} {h : Int} {v : K × V}
    (hc : HeightsOk c) (hr : HeightsOk r) (hg : Stepped c) (hh : r.height + 2 ≤ c.height) :
    ∃ t', rotate (.node a c r h v) = .ok t' ∧ HeightsOk t' ∧ t'.height = c.height := by
  have hr0 := height_nonneg hr
  cases c with
  | nil => exact absurd hg id
  | node ca cl cr ch cv =>
    obtain ⟨e, hcl, hcr⟩ := hc
    have hl0 := height_nonneg hcl
    have hr0' := height_nonneg hcr
    simp only [height_node] at hh
    have hne : (cl.height - cr.height).natAbs = 1 := by
      rcases hg with hg | hg
      · exact hg
      · omega
    simp only [rotate, height_node]
    rw [if_pos (by omega)]
    by_cases hgt : cl.height > cr.height
    · simp only [if_pos hgt]
      cases cl with
      | nil => simp only [height_nil] at hgt; omega
      | node ga gl gr gh gv =>
        obtain ⟨e', hgl, hgr⟩ := hcl
        simp only [height_node] at *
        refine ⟨_, rfl, heightsOk_connect34 hgl hgr hcr hr, ?_⟩
        simp only [connect34, height_update_height]; omega
    · simp only [if_neg hgt]
      cases cr with
      | nil => simp only [height_nil] at hgt e hne; omega
      | node ga gl gr gh gv =>
        obtain ⟨e', hgl, hgr⟩ := hcr
        have := height_nonneg hgl
        have := height_nonneg hgr
        simp only [height_node] at *
        refine ⟨_, rfl, heightsOk_connect34 hcl hgl hgr hr, ?_⟩
        simp only [connect34, height_update_height]; omega

theorem rotate_stepped_right {a : Nat} {l c : Tree K V} {h : Int} {v : K × V}
    (hl : HeightsOk l) (hc : HeightsOk c) (hg : Stepped c) (hh : l.height + 2 ≤ c.height) :
    ∃ t', rotate (.node a l c h v) = .ok t' ∧ HeightsOk t' ∧ t'.height = c.height := by
  have hl0 := height_nonneg hl
  cases c with
  | nil => exact absurd hg id
  | node ca cl cr ch cv =>
    obtain ⟨e, hcl, hcr⟩ := hc
    have hl0' := height_nonneg hcl
    have hr0' := height_nonneg hcr
    simp only [height_node] at hh
    have hne : (cl.height - cr.height).natAbs = 1 := by
      rcases hg with hg | hg
      · exact hg
      · omega
    simp only [rotate, height_node]
    rw [if_neg (by omega)]
    by_cases hgt : cl.height > cr.height
    · simp only [if_pos hgt]
      cases cl with
      | nil => simp only [height_nil] at hgt; omega
      | node ga gl gr gh gv =>
        obtain ⟨e', hgl, hgr⟩ := hcl
        have := height_nonneg hgl
        have := height_nonneg hgr
        simp only [height_node] at *
        refine ⟨_, rfl, heightsOk_connect34 hl hgl hgr hcr, ?_⟩
        simp only [connect34, height_update_height]; omega
    · simp only [if_neg hgt]
      cases cr with
      | nil => simp only [height_nil] at hgt e hne; omega
      | node ga gl gr gh gv =>
        obtain ⟨e', hgl, hgr⟩ := hcr
        simp only [height_node] at *
        refine ⟨_, rfl, heightsOk_connect34 hl hcl hgl hgr, ?_⟩
        simp only [connect34, height_update_height]; omega

theorem insert_walk_heightsOk {sub old : Tree K V} {ctx : List (Frame K V)}
    (hold : HeightsOk (rebuild old ctx)) (hsub : HeightsOk sub)
    (hh : sub.height = old.height + 1) (hg : Stepped sub) :
    ∃ t', insert_walk sub ctx = .ok t' ∧ HeightsOk t' := by
  induction ctx generalizing sub old with
  | nil => exact ⟨sub, rfl, hsub⟩
  | cons f ctx ih =>
    have hhot := (heightsOk_rebuild_inv (t := f.plug old) hold).1
    have hs0 := height_nonneg hsub
    have ho0 := height_nonneg (heightsOk_plug_inv hhot).1
    cases f with
    | inl a r h v =>
      obtain ⟨e, -, hr⟩ := hhot
      have hr0 := height_nonneg hr
      simp only [insert_walk, Frame.plug, recalc_height]
      by_cases h1 : (if sub.height > r.height then sub.height else r.height) + 1 = h
      · rw [if_pos h1]
        refine ⟨_, rfl, heightsOk_rebuild_congr hold ?_ rfl⟩
        exact ⟨by omega, hsub, hr⟩
      · rw [if_neg h1]
        by_cases h2 : sub.height ≤ r.height + 1 ∧ r.height ≤ sub.height + 1
        · have : (!(decide (sub.height ≤ r.height + 1) && decide (r.height ≤ sub.height + 1)))
              = false := by simp [h2.1, h2.2]
          rw [this]
          simp only [Bool.false_eq_true, if_false]
          apply @ih _ (.node a old r h v) hold
          · exact ⟨by omega, hsub, hr⟩
          · simp only [height_node]; omega
          · left; omega
        · have : (!(decide (sub.height ≤ r.height + 1) && decide (r.height ≤ sub.height + 1)))
              = true := by
            simp only [Bool.not_eq_true', Bool.and_eq_false_iff, decide_eq_false_iff_not]
            by_cases h3 : sub.height ≤ r.height + 1
            · right; intro h4; exact h2 ⟨h3, h4⟩
            · left; exact h3
          rw [this]
          simp only [if_true]
          obtain ⟨t', ht', hok, hht⟩ := rotate_stepped_left (a := a) (v := v)
            (h := (if sub.height > r.height then sub.height else r.height) + 1)
            hsub hr hg (by omega)
          rw [ht']
          refine ⟨_, rfl, heightsOk_rebuild_congr hold hok ?_⟩
          simp only [Frame.plug, height_node]; omega
    | inr a l h v =>
      obtain ⟨e, hl, -⟩ := hhot
      have hl0 := height_nonneg hl
      simp only [insert_walk, Frame.plug, recalc_height]
      by_cases h1 : (if l.height > sub.height then l.height else sub.height) + 1 = h
      · rw [if_pos h1]
        refine ⟨_, rfl, heightsOk_rebuild_congr hold ?_ rfl⟩
        exact ⟨by omega, hl, hsub⟩
      · rw [if_neg h1]
        by_cases h2 : l.height ≤ sub.height + 1 ∧ sub.height ≤ l.height + 1
        · have : (!(decide (l.height ≤ sub.height + 1) && decide (sub.height ≤ l.height + 1)))
              = false := by simp [h2.1, h2.2]
          rw [this]
          simp only [Bool.false_eq_true, if_false]
          apply @ih _ (.node a l old h v) hold
          · exact ⟨by omega, hl, hsub⟩
          · simp only [height_node]; omega
          · left; omega
        · have : (!(decide (l.height ≤ sub.height + 1) && decide (sub.height ≤ l.height + 1)))
              = true := by
            simp only [Bool.not_eq_true', Bool.and_eq_false_iff, decide_eq_false_iff_not]
            by_cases h3 : l.height ≤ sub.height + 1
            · right; intro h4; exact h2 ⟨h3, h4⟩
            · left; exact h3
          rw [this]
          simp only [if_true]
          obtain ⟨t', ht', hok, hht⟩ := rotate_stepped_right (a := a) (v := v)
            (h := (if l.height > sub.height then l.height else sub.height) + 1)
            hl hsub hg (by omega)
          rw [ht']
          refine ⟨_, rfl, heightsOk_rebuild_congr hold hok ?_⟩
          simp only [Frame.plug, height_node]; omega

theorem insert_helper_heightsOk (comp : K → K → Bool) (m : map K V) (value : K × V)
    (fresh : Nat) (hh : HeightsOk m.root) :
    ∃ r, insert_helper comp m value fresh = .ok r ∧ HeightsOk r.1.root := by
  cases hs : search_node comp m.root value.1 with
  | node a l r h v => exact ⟨_, insert_helper_present comp m value fresh hs, hh⟩
  | nil =>
    rw [insert_helper_absent comp m value fresh hs]
    have hre := hot_rebuild_nil comp m.root value.1 hs
    rw [← hre] at hh
    obtain ⟨t', ht', hok⟩ := @insert_walk_heightsOk K V (.node fresh .nil .nil 1 value) _ _ hh
      ⟨by simp, trivial, trivial⟩ (by simp) (Or.inr rfl)
    rw [ht']
    exact ⟨_, rfl, hok⟩

theorem insert_heightsOk (comp : K → K → Bool) (m : map K V) (value : K × V)
    (fresh : Nat) (hh : HeightsOk m.root) :
    ∃ r, insert comp m value fresh = .ok r ∧ HeightsOk r.1.root := by
  unfold insert
  split
  · exact ⟨_, rfl, hh⟩
  · obtain ⟨r, hr, hok⟩ := insert_helper_heightsOk comp m value fresh hh
    rw [hr]
    exact ⟨_, rfl, hok⟩

theorem index_heightsOk [Inhabited V] {comp : K → K → Bool} {m : map K V} {key : K}
    {fresh : Nat} {r : map K V × Option Nat × V} (hh : HeightsOk m.root)
    (h : m.index comp key fresh = .ok r) : HeightsOk r.1.root := by
  unfold map.index at h
  split at h
  · cases h; exact hh
  · obtain ⟨r', hr', hok⟩ := insert_helper_heightsOk comp m (key, default) fresh hh
    rw [hr'] at h
    simp only at h
    split at h
    · cases h
    · cases h; exact hok

theorem erase_heightsOk {m : map K V} (pos : iterator) (fresh : Nat) (hh : HeightsOk m.root)
    (h : (erase m pos fresh).2 = .ok ()) : HeightsOk (erase m pos fresh).1.root := by
  unfold erase at h ⊢
  split at h
  · cases h
  · rename_i hg
    rw [if_neg hg]
    cases hq : pos.this_node with
    | none => rw [hq] at h; cases h
    | some p =>
      rw [hq] at h
      simp only at h ⊢
      cases hn : erase_node m.root p fresh with
      | error e => rw [hn] at h; cases h
      | ok t =>
        simp only
        have hmem : p ∈ m.root.addrs := by
          by_contra hne
          have : locate m.root p [] = none := by
            cases hl : locate m.root p [] with
            | none => rfl
            | some z =>
              obtain ⟨z1, z2⟩ := z
              obtain ⟨hre, l, r, h', v, rfl⟩ := locate_sound hl
              simp only [rebuild] at hre
              exfalso
              apply hne
              rw [addrs_eq_entries, ← hre, entries_rebuild]
              simp [Tree.entries]
          simp [erase_node, this] at hn
        obtain ⟨t', ht', hok⟩ := erase_node_heightsOk fresh hh hmem
        rw [hn] at ht'
        cases ht'
        exact hok

theorem reachable_heightsOk [Inhabited V] {comp : K → K → Bool} {m : map K V}
    (h : Reachable comp m) : HeightsOk m.root := by
  induction h with
  | empty_map self => trivial
  | by_insert value fresh _ _ hins ih =>
    obtain ⟨r', hr', hok⟩ := insert_heightsOk comp _ value fresh ih
    rw [hr'] at hins
    cases hins
    exact hok
  | by_index key fresh _ _ hidx ih => exact index_heightsOk ih hidx
  | by_erase pos fresh _ _ hok ih => exact erase_heightsOk pos fresh ih hok

/-! ## Content after insertion -/

theorem insert_helper_entries {comp : K → K → Bool} {m m' : map K V} {value : K × V}
    {fresh : Nat} {res : Option Nat}
    (hs : search_node comp m.root value.1 = .nil)
    (h : insert_helper comp m value fresh = .ok (m', res)) :
    res = some fresh ∧ m'.self = m.self ∧ m'.map_size = m.map_size + 1 ∧
    ∃ l1 l2, m.root.entries = l1 ++ l2 ∧ m'.root.entries = l1 ++ (fresh, value) :: l2 ∧
      (StrictWeakOrder comp → Ordered comp m.root →
        (∀ e ∈ l1, comp e.2.1 value.1 = true) ∧ (∀ e ∈ l2, comp value.1 e.2.1 = true)) := by
  rw [insert_helper_absent comp m value fresh hs] at h
  have hre := hot_rebuild_nil comp m.root value.1 hs
  split at h
  · cases h
  · rename_i t ht
    cases h
    refine ⟨rfl, rfl, rfl, before (search_node_hot comp m.root value.1 []).2,
      after (search_node_hot comp m.root value.1 []).2, ?_, ?_, ?_⟩
    · conv_lhs => rw [← hre]
      rw [entries_rebuild]; simp [Tree.entries]
    · simp only
      rw [entries_insert_walk ht, entries_rebuild]; simp [Tree.entries]
    · intro hc hord
      exact search_node_hot_bounds hc m.root value.1 [] hord (by simp [before]) (by simp [after])

/-! ## Reading through a node pointer -/

theorem node_value_of_entries {t : Tree K V} {p : Nat} {x : K × V}
    (hp : p ∈ t.addrs) (hu : ∀ e ∈ t.entries, e.1 = p → e.2 = x) :
    node_value t (some p) = .ok x := by
  obtain ⟨⟨foc, ctx⟩, hz⟩ := locate_complete (t := t) [] hp
  obtain ⟨hre, l, r, h, v, rfl⟩ := locate_sound hz
  simp only [rebuild] at hre
  have hent := entries_rebuild (.node p l r h v) ctx
  rw [hre] at hent
  have hmem : (p, v) ∈ t.entries := by rw [hent]; simp [Tree.entries]
  have := hu _ hmem rfl
  simp only at this
  simp [node_value, hz, this]

theorem node_value_mem {t : Tree K V} {p : Nat} {x : K × V}
    (h : node_value t (some p) = .ok x) : (p, x) ∈ t.entries := by
  simp only [node_value] at h
  cases hz : locate t p [] with
  | none => simp [hz] at h
  | some z =>
    obtain ⟨foc, ctx⟩ := z
    obtain ⟨hre, l, r, hh, v, rfl⟩ := locate_sound hz
    simp only [rebuild] at hre
    have hent := entries_rebuild (.node p l r hh v) ctx
    rw [hre] at hent
    simp only [hz] at h
    cases h
    rw [hent]; simp [Tree.entries]

theorem entries_unique {l : List (Nat × (K × V))} (hnd : (l.map Prod.fst).Nodup)
    {a : Nat} {x y : K × V} (hx : (a, x) ∈ l) (hy : (a, y) ∈ l) : x = y := by
  induction l with
  | nil => simp at hx
  | cons e l ih =>
    simp only [List.map_cons, List.nodup_cons, List.mem_map, not_exists, not_and] at hnd
    simp only [List.mem_cons] at hx hy
    rcases hx with rfl | hx
    · rcases hy with hy | hy
      · exact (Prod.mk.inj hy).2.symm
      · exact absurd rfl (hnd.1 (a, y) hy)
    · rcases hy with rfl | hy
      · exact absurd rfl (hnd.1 (a, x) hx)
      · exact ih hnd.2 hx hy

theorem node_value_of_mem {t : Tree K V} (hnd : t.addrs.Nodup) {a : Nat} {x : K × V}
    (hx : (a, x) ∈ t.entries) : node_value t (some a) = .ok x := by
  apply node_value_of_entries
  · rw [addrs_eq_entries]; exact List.mem_map_of_mem Prod.fst hx
  · rintro ⟨a', y⟩ hy rfl
    rw [addrs_eq_entries] at hnd
    exact entries_unique hnd hy hx

/-! ## The erase operation -/

theorem erase_eq (m : map K V) (p fresh : Nat) :
    erase m ⟨m.self, some p⟩ fresh =
      match erase_node m.root p fresh with
      | .error e => (m, .error e)
      | .ok t => (⟨m.self, m.map_size - 1, t⟩, .ok ()) := by
  simp [erase]

/-- C1 (`map::erase` and the balance invariant). The map built from the empty
map by inserting 50, 20, 60, 10, 30, 70, 5, 40 satisfies the ordering, the
stored-height and the balance invariant; erasing the element with key 70
succeeds and leaves correct stored heights, yet the node with key 20 then has
a left child of height 2 and no right child: the tree is not balanced. -/
theorem erase_breaks_balance :
    insert_seq less (map.new 0)
        [(50, 0), (20, 0), (60, 0), (10, 0), (30, 0), (70, 0), (5, 0), (40, 0)] 100
      = .ok sample_map ∧
    Ordered less sample_map.root ∧ HeightsOk sample_map.root ∧ Balanced sample_map.root ∧
    iterator.deref sample_map ⟨0, some 105⟩ = .ok (70, 0) ∧
    (erase sample_map ⟨0, some 105⟩ 200).2 = .ok () ∧
    HeightsOk (erase sample_map ⟨0, some 105⟩ 200).1.root ∧
    ¬ Balanced (erase sample_map ⟨0, some 105⟩ 200).1.root ∧
    (erase sample_map ⟨0, some 105⟩ 200).1.root =
      .node 104
        (.node 101 (.node 103 (.node 106 .nil .nil 1 (5, 0)) .nil 2 (10, 0)) .nil 3 (20, 0))
        (.node 100 (.node 107 .nil .nil 1 (40, 0)) (.node 102 .nil .nil 1 (60, 0)) 2 (50, 0))
        4 (30, 0) := by
  decide

/-- C3 (`map::erase` and the stored heights). If every node of the map stores
`1 + max(child heights)` and the iterator belongs to the map and points at one
of its nodes, then `erase` returns normally and every node of the resulting
tree again stores `1 + max(child heights)`, whichever case of `erase` ran. -/
theorem erase_preserves_heights (m : map K V) (pos : iterator) (fresh : Nat)
    (hh : HeightsOk m.root) (hmap : pos.this_map = m.self)
    (hnode : ∃ p, pos.this_node = some p ∧ p ∈ m.root.addrs) :
    (erase m pos fresh).2 = .ok () ∧ HeightsOk (erase m pos fresh).1.root := by
  obtain ⟨p, hp, hmem⟩ := hnode
  obtain ⟨mp, np⟩ := pos
  simp only at hmap hp
  subst hmap hp
  rw [erase_eq]
  obtain ⟨t', ht', hok⟩ := erase_node_heightsOk fresh hh hmem
  rw [ht']
  exact ⟨rfl, hok⟩

theorem erase_preserves_heights_witness :
    (erase sample_map ⟨0, some 100⟩ 200).2 = .ok () ∧
      HeightsOk (erase sample_map ⟨0, some 100⟩ 200).1.root :=
  erase_preserves_heights sample_map ⟨0, some 100⟩ 200 (by decide) rfl ⟨100, rfl, by decide⟩

theorem erase_result {m : map K V} {pos : iterator} {fresh : Nat}
    (h : (erase m pos fresh).2 = .ok ()) :
    ∃ p t', pos = ⟨m.self, some p⟩ ∧ erase_node m.root p fresh = .ok t' ∧
      erase m pos fresh = (⟨m.self, m.map_size - 1, t'⟩, .ok ()) := by
  obtain ⟨mp, np⟩ := pos
  simp only [erase] at h ⊢
  split at h
  · cases h
  · rename_i hg
    simp only [ne_eq, not_or, not_not] at hg
    obtain ⟨hg1, hg2⟩ := hg
    subst hg1
    cases np with
    | none => exact absurd rfl hg2
    | some p =>
      simp only at h ⊢
      cases he : erase_node m.root p fresh with
      | error e => rw [he] at h; cases h
      | ok t' => exact ⟨p, t', rfl, he, by simp [he]⟩

/-- C5 (`map::erase`, content). For a map with the ordering invariant and an
iterator of that map positioned at the pair `(k, v)`: `erase` returns normally
for every map obtained from the empty map by `insert`, `operator[]` and `erase`
calls, balanced or not (and for any map whose stored heights are correct), and
whenever it returns normally the in-order sequence of pairs is the previous one
with `(k, v)` taken out (all other pairs kept, in the same order) and no
remaining key is equivalent to `k`. Both cases of `erase` are covered. -/
theorem erase_removes_pair [Inhabited V] {comp : K → K → Bool} (hc : StrictWeakOrder comp)
    (m : map K V) (pos : iterator) (fresh : Nat) (k : K) (v : V)
    (hord : Ordered comp m.root) (hmap : pos.this_map = m.self)
    (hpos : pos.deref m = .ok (k, v)) :
    (Reachable comp m → (erase m pos fresh).2 = .ok ()) ∧
    (HeightsOk m.root → (erase m pos fresh).2 = .ok ()) ∧
    ((erase m pos fresh).2 = .ok () →
      ∃ l1 l2, m.root.toList = l1 ++ (k, v) :: l2 ∧
        (erase m pos fresh).1.root.toList = l1 ++ l2 ∧
        ∀ x ∈ l1 ++ l2, ¬ Equiv comp x.1 k) := by
  have hret : HeightsOk m.root → (erase m pos fresh).2 = .ok () := by
    intro hh
    obtain ⟨mp, np⟩ := pos
    simp only at hmap
    subst hmap
    cases np with
    | none => simp [iterator.deref, node_value] at hpos
    | some p =>
      have hmem := node_value_mem hpos
      have hp : p ∈ m.root.addrs := by
        rw [addrs_eq_entries]; exact List.mem_map_of_mem Prod.fst hmem
      rw [erase_eq]
      obtain ⟨t', ht', -⟩ := erase_node_heightsOk fresh hh hp
      rw [ht']
  refine ⟨fun hr => hret (reachable_heightsOk hr), hret, ?_⟩
  · intro hok
    obtain ⟨p, t', rfl, hnode, heq⟩ := erase_result hok
    obtain ⟨l1, x, l2, hx, h1, h2⟩ := erase_node_toList hnode
    have : x = (k, v) := by
      simp only [iterator.deref] at hpos
      rw [hx] at hpos
      cases hpos; rfl
    subst this
    refine ⟨l1, l2, h1, by rw [heq]; exact h2, ?_⟩
    have hinc := (ordered_iff_increasing hc m.root).1 hord
    rw [h1] at hinc
    obtain ⟨hlt, hgt, -⟩ := increasing_split hinc
    intro y hy he
    rcases List.mem_append.1 hy with hy | hy
    · have := hlt y hy
      rw [he.1] at this; cases this
    · have := hgt y hy
      rw [he.2] at this; cases this

theorem less_strictWeakOrder : StrictWeakOrder less := by
  refine ⟨?_, ?_, ?_⟩
  · intro a; simp [less]
  · intro a b c; simp only [less, decide_eq_true_eq]; omega
  · intro a b c; simp only [Equiv, less, decide_eq_false_iff_not]; omega

/-! ## The insert operation -/

theorem insert_absent_eq (comp : K → K → Bool) (m : map K V) (value : K × V) (fresh : Nat)
    (hs : search_node comp m.root value.1 = .nil) :
    insert comp m value fresh =
      match insert_helper comp m value fresh with
      | .error e => .error e
      | .ok (m1, res) => .ok (m1, ⟨m1.self, res⟩, true) := by
  simp only [insert, hs]

theorem insert_present_eq (comp : K → K → Bool) (m : map K V) (value : K × V) (fresh : Nat)
    {a : Nat} {l r : Tree K V} {h : Int} {v : K × V}
    (hs : search_node comp m.root value.1 = .node a l r h v) :
    insert comp m value fresh = .ok (m, ⟨m.self, some a⟩, false) := by
  simp only [insert, hs]

theorem search_node_nil_of_absent {comp : K → K → Bool} {t : Tree K V} {key : K}
    (habs : ∀ x ∈ t.toList, ¬ Equiv comp x.1 key) : search_node comp t key = .nil := by
  cases hs : search_node comp t key with
  | nil => rfl
  | node a l r h v =>
    obtain ⟨he, hmem⟩ := search_node_sound hs
    exact absurd (equiv_symm he) (habs v (mem_toList_of_mem_entries hmem))

/-- C2 (`map::insert` and the height invariants). If every node of the map
stores `1 + max(child heights)` and is balanced, then `insert` of any pair (key
present or not) returns normally and every node of the resulting tree is
balanced and stores `1 + max(child heights)`. -/
theorem insert_preserves_avl (comp : K → K → Bool) (m : map K V) (value : K × V)
    (fresh : Nat) (hh : HeightsOk m.root) (hb : Balanced m.root) :
    ∃ r, insert comp m value fresh = .ok r ∧ HeightsOk r.1.root ∧ Balanced r.1.root := by
  cases hs : search_node comp m.root value.1 with
  | node a l r h v =>
    exact ⟨_, insert_present_eq comp m value fresh hs, hh, hb⟩
  | nil =>
    rw [insert_absent_eq comp m value fresh hs]
    obtain ⟨⟨m1, res⟩, hr, havl⟩ := insert_helper_avl comp m value fresh ⟨hh, hb⟩
    rw [hr]
    exact ⟨_, rfl, havl.1, havl.2⟩

theorem insert_preserves_avl_witness :
    ∃ r, insert less sample_map (45, 0) 108 = .ok r ∧ HeightsOk r.1.root ∧
      Balanced r.1.root :=
  insert_preserves_avl less sample_map (45, 0) 108 (by decide) (by decide)

theorem insert_absent_entries {comp : K → K → Bool} {m : map K V} {value : K × V}
    {fresh : Nat} {r : map K V × iterator × Bool}
    (hs : search_node comp m.root value.1 = .nil)
    (h : insert comp m value fresh = .ok r) :
    r.2.2 = true ∧ r.2.1 = ⟨m.self, some fresh⟩ ∧ r.1.self = m.self ∧
    r.1.map_size = m.map_size + 1 ∧
    ∃ l1 l2, m.root.entries = l1 ++ l2 ∧ r.1.root.entries = l1 ++ (fresh, value) :: l2 ∧
      (StrictWeakOrder comp → Ordered comp m.root →
        (∀ e ∈ l1, comp e.2.1 value.1 = true) ∧ (∀ e ∈ l2, comp value.1 e.2.1 = true)) := by
  rw [insert_absent_eq comp m value fresh hs] at h
  cases hh : insert_helper comp m value fresh with
  | error e => rw [hh] at h; cases h
  | ok z =>
    obtain ⟨m1, res⟩ := z
    rw [hh] at h
    cases h
    obtain ⟨h1, h2, h3, h4⟩ := insert_helper_entries hs hh
    subst h1
    exact ⟨rfl, by simp [h2], h2, h3, h4⟩

theorem increasing_insert {comp : K → K → Bool} {l1 l2 : List (K × V)} {x : K × V}
    (h : Increasing comp (l1 ++ l2)) (hl : ∀ y ∈ l1, comp y.1 x.1 = true)
    (hr : ∀ y ∈ l2, comp x.1 y.1 = true) : Increasing comp (l1 ++ x :: l2) := by
  simp only [Increasing, List.pairwise_append, List.pairwise_cons, List.mem_cons] at *
  obtain ⟨h1, h2, h3⟩ := h
  refine ⟨h1, ⟨hr, h2⟩, ?_⟩
  rintro a ha b (rfl | hb)
  · exact hl a ha
  · exact h3 a ha b hb

theorem insert_toList {comp : K → K → Bool} {m : map K V} {value : K × V}
    {fresh : Nat} {r : map K V × iterator × Bool}
    (hs : search_node comp m.root value.1 = .nil)
    (h : insert comp m value fresh = .ok r) :
    ∃ l1 l2, m.root.toList = l1 ++ l2 ∧ r.1.root.toList = l1 ++ value :: l2 ∧
      (StrictWeakOrder comp → Ordered comp m.root →
        (∀ x ∈ l1, comp x.1 value.1 = true) ∧ (∀ x ∈ l2, comp value.1 x.1 = true)) := by
  obtain ⟨-, -, -, -, l1, l2, h1, h2, h3⟩ := insert_absent_entries hs h
  refine ⟨l1.map Prod.snd, l2.map Prod.snd, ?_, ?_, ?_⟩
  · rw [toList_eq_entries, h1]; simp
  · rw [toList_eq_entries, h2]; simp
  · intro hc hord
    obtain ⟨hb, ha⟩ := h3 hc hord
    constructor
    · intro x hx
      obtain ⟨e, he, rfl⟩ := List.mem_map.1 hx
      exact hb e he
    · intro x hx
      obtain ⟨e, he, rfl⟩ := List.mem_map.1 hx
      exact ha e he

theorem insert_ordered {comp : K → K → Bool} (hc : StrictWeakOrder comp) {m : map K V}
    {value : K × V} {fresh : Nat} {r : map K V × iterator × Bool}
    (hord : Ordered comp m.root) (h : insert comp m value fresh = .ok r) :
    Ordered comp r.1.root := by
  cases hs : search_node comp m.root value.1 with
  | node a l rr hh v =>
    rw [insert_present_eq comp m value fresh hs] at h
    cases h; exact hord
  | nil =>
    obtain ⟨l1, l2, h1, h2, h3⟩ := insert_toList hs h
    obtain ⟨hb, ha⟩ := h3 hc hord
    rw [ordered_iff_increasing hc, h2]
    apply increasing_insert _ hb ha
    rw [← h1]
    exact (ordered_iff_increasing hc m.root).1 hord

/-- C6 (`map::insert`, key absent). For a map with the ordering invariant, a
pair `(k, v)` whose key is equivalent to no stored key, and a new address:
`insert` returns normally for every map obtained from the empty map by
`insert`, `operator[]` and `erase` calls, balanced or not (and for any map whose
stored heights are correct), and whenever it returns normally the flag is
`true`, the iterator belongs to the map and
dereferences to `(k, v)`, and the in-order sequence of pairs is the previous one
with `(k, v)` put between the pairs whose keys order before `k` and those whose
keys order after `k` (all previous pairs kept, with their values). -/
theorem insert_absent_spec [Inhabited V] {comp : K → K → Bool} (hc : StrictWeakOrder comp)
    (m : map K V) (k : K) (v : V) (fresh : Nat)
    (hord : Ordered comp m.root) (habs : ∀ x ∈ m.root.toList, ¬ Equiv comp x.1 k)
    (hfresh : fresh ∉ m.root.addrs) :
    (Reachable comp m → ∃ r, insert comp m (k, v) fresh = .ok r) ∧
    (HeightsOk m.root → ∃ r, insert comp m (k, v) fresh = .ok r) ∧
    (∀ r, insert comp m (k, v) fresh = .ok r →
      r.2.2 = true ∧ r.2.1.this_map = r.1.self ∧ r.2.1.deref r.1 = .ok (k, v) ∧
      ∃ l1 l2, m.root.toList = l1 ++ l2 ∧ r.1.root.toList = l1 ++ (k, v) :: l2 ∧
        (∀ x ∈ l1, comp x.1 k = true) ∧ (∀ x ∈ l2, comp k x.1 = true)) := by
  have hs : search_node comp m.root (k, v).1 = .nil := search_node_nil_of_absent habs
  have hret : HeightsOk m.root → ∃ r, insert comp m (k, v) fresh = .ok r := by
    intro hh
    rw [insert_absent_eq comp m (k, v) fresh hs]
    obtain ⟨⟨m1, res⟩, hr⟩ := insert_helper_ok comp m (k, v) fresh hh
    rw [hr]
    exact ⟨_, rfl⟩
  refine ⟨fun hr => hret (reachable_heightsOk hr), hret, ?_⟩
  · intro r hr
    obtain ⟨h1, h2, h3, -, l1, l2, e1, e2, -⟩ := insert_absent_entries hs hr
    obtain ⟨t1, t2, g1, g2, g3⟩ := insert_toList hs hr
    refine ⟨h1, by rw [h2, h3], ?_, t1, t2, g1, g2, g3 hc hord⟩
    rw [h2]
    simp only [iterator.deref]
    apply node_value_of_entries
    · rw [addrs_eq_entries, e2]; simp
    · intro e he hfst
      rw [e2] at he
      rw [addrs_eq_entries, e1] at hfresh
      simp only [List.map_append, List.mem_append, List.mem_map, not_or, not_exists,
        not_and] at hfresh
      simp only [List.mem_append, List.mem_cons] at he
      rcases he with he | rfl | he
      · exact absurd hfst (hfresh.1 e he)
      · rfl
      · exact absurd hfst (hfresh.2 e he)

theorem insert_present_core {comp : K → K → Bool} (hc : StrictWeakOrder comp)
    (m : map K V) (k : K) (v' : V) (fresh : Nat)
    (hord : Ordered comp m.root) (hnd : m.root.addrs.Nodup)
    (x : K × V) (hx : x ∈ m.root.toList) (he : Equiv comp x.1 k) :
    ∃ it, insert comp m (k, v') fresh = .ok (m, it, false) ∧ it.this_map = m.self ∧
      it.deref m = .ok x := by
  obtain ⟨a, l, r, h, hs⟩ := search_node_complete hc hord hx he
  refine ⟨⟨m.self, some a⟩, insert_present_eq comp m (k, v') fresh hs, rfl, ?_⟩
  exact node_value_of_mem hnd (search_node_sound hs).2

theorem insert_addrs_nodup {comp : K → K → Bool} {m : map K V} {value : K × V}
    {fresh : Nat} {r : map K V × iterator × Bool}
    (hnd : m.root.addrs.Nodup) (hfresh : fresh ∉ m.root.addrs)
    (h : insert comp m value fresh = .ok r) : r.1.root.addrs.Nodup := by
  cases hs : search_node comp m.root value.1 with
  | node a l rr hh v =>
    rw [insert_present_eq comp m value fresh hs] at h
    cases h; exact hnd
  | nil =>
    obtain ⟨-, -, -, -, l1, l2, e1, e2, -⟩ := insert_absent_entries hs h
    rw [addrs_eq_entries, e1] at hnd hfresh
    rw [addrs_eq_entries, e2]
    simp only [List.map_append, List.map_cons, List.mem_append, not_or] at hnd hfresh ⊢
    rw [List.nodup_append] at hnd ⊢
    refine ⟨hnd.1, List.nodup_cons.2 ⟨hfresh.2, hnd.2.1⟩, ?_⟩
    intro a ha hb
    rcases List.mem_cons.1 hb with rfl | hb
    · exact hfresh.1 ha
    · exact hnd.2.2 ha hb

/-- C7 (`map::insert`, key present). For a map with the ordering invariant
(whose nodes live at distinct addresses) that stores a pair `x` with key
equivalent to `k`: `insert (k, v')` returns the flag `false` and an iterator of
the map that dereferences to `x`, and the map — size, tree, heights, every
pair — is exactly as before. In particular, after a first `insert (k, v)` of an
absent key, a second `insert (k, v')` reports `false`, changes nothing and its
iterator still dereferences to `(k, v)`. -/
theorem insert_present_spec {comp : K → K → Bool} (hc : StrictWeakOrder comp)
    (m : map K V) (k : K) (v' : V) (fresh : Nat)
    (hord : Ordered comp m.root) (hnd : m.root.addrs.Nodup)
    (x : K × V) (hx : x ∈ m.root.toList) (he : Equiv comp x.1 k) :
    (∃ it, insert comp m (k, v') fresh = .ok (m, it, false) ∧ it.this_map = m.self ∧
      it.deref m = .ok x) ∧
    (∀ (m0 : map K V) (v : V) (f0 : Nat) (r1 : map K V × iterator × Bool),
      Ordered comp m0.root → m0.root.addrs.Nodup → f0 ∉ m0.root.addrs →
      (∀ y ∈ m0.root.toList, ¬ Equiv comp y.1 k) →
      insert comp m0 (k, v) f0 = .ok r1 →
      ∃ it, insert comp r1.1 (k, v') fresh = .ok (r1.1, it, false) ∧
        it.deref r1.1 = .ok (k, v)) := by
  refine ⟨insert_present_core hc m k v' fresh hord hnd x hx he, ?_⟩
  intro m0 v f0 r1 hord0 hnd0 hf0 habs hins
  have hs : search_node comp m0.root (k, v).1 = .nil := search_node_nil_of_absent habs
  obtain ⟨l1, l2, -, g2, -⟩ := insert_toList hs hins
  have hmem : (k, v) ∈ r1.1.root.toList := by rw [g2]; simp
  obtain ⟨it, h1, -, h3⟩ := insert_present_core hc r1.1 k v' fresh
    (insert_ordered hc hord0 hins) (insert_addrs_nodup hnd0 hf0 hins) (k, v) hmem
    ⟨hc.irrefl k, hc.irrefl k⟩
  exact ⟨it, h1, h3⟩

theorem insert_present_spec_witness :
    (∃ it, insert less sample_map (30, 9) 108 = .ok (sample_map, it, false) ∧
      it.this_map = sample_map.self ∧ it.deref sample_map = .ok (30, 0)) ∧
    (∀ (m0 : map Nat Nat) (v : Nat) (f0 : Nat) (r1 : map Nat Nat × iterator × Bool),
      Ordered less m0.root → m0.root.addrs.Nodup → f0 ∉ m0.root.addrs →
      (∀ y ∈ m0.root.toList, ¬ Equiv less y.1 30) →
      insert less m0 (30, v) f0 = .ok r1 →
      ∃ it, insert less r1.1 (30, 9) 108 = .ok (r1.1, it, false) ∧
        it.deref r1.1 = .ok (30, v)) :=
  insert_present_spec less_strictWeakOrder sample_map 30 9 108 (by decide) (by decide)
    (30, 0) (by decide) (by decide)

/-! ## Element access -/

theorem search_node_absent_iff {comp : K → K → Bool} (hc : StrictWeakOrder comp)
    {t : Tree K V} (key : K) (hord : Ordered comp t) :
    search_node comp t key = .nil ↔ ∀ x ∈ t.toList, ¬ Equiv comp x.1 key := by
  constructor
  · intro hs x hx he
    obtain ⟨a, l, r, h, hs'⟩ := search_node_complete hc hord hx he
    rw [hs] at hs'; cases hs'
  · exact search_node_nil_of_absent

/-- C9 (`map::at`, both overloads, and the const `operator[]`). For a map with
the ordering invariant and a key `k`: each of the three calls fails with
`index_out_of_bound` exactly when no stored key is equivalent to `k`, and
returns the value stored with the equivalent key otherwise; the non-const `at`
leaves the map as it was (the other two are const). On the empty map every
call fails with `index_out_of_bound`. -/
theorem at_spec {comp : K → K → Bool} (hc : StrictWeakOrder comp) (m : map K V) (k : K)
    (hord : Ordered comp m.root) :
    (((m.at_ comp k).2 = .error .index_out_of_bound ↔
        ∀ x ∈ m.root.toList, ¬ Equiv comp x.1 k) ∧
     (m.at_const comp k = .error .index_out_of_bound ↔
        ∀ x ∈ m.root.toList, ¬ Equiv comp x.1 k) ∧
     (m.index_const comp k = .error .index_out_of_bound ↔
        ∀ x ∈ m.root.toList, ¬ Equiv comp x.1 k)) ∧
    (∀ x ∈ m.root.toList, Equiv comp x.1 k →
      (m.at_ comp k).2 = .ok x.2 ∧ m.at_const comp k = .ok x.2 ∧
        m.index_const comp k = .ok x.2) ∧
    (m.at_ comp k).1 = m ∧
    (∀ self : Nat, ((map.new self : map K V).at_ comp k).2 = .error .index_out_of_bound ∧
      (map.new self : map K V).at_const comp k = .error .index_out_of_bound ∧
      (map.new self : map K V).index_const comp k = .error .index_out_of_bound) := by
  have hiff := search_node_absent_iff hc k hord
  refine ⟨⟨?_, ?_, ?_⟩, ?_, ?_, ?_⟩
  · rw [← hiff]; simp only [map.at_]
    cases search_node comp m.root k <;> simp
  · rw [← hiff]; simp only [map.at_const]
    cases search_node comp m.root k <;> simp
  · rw [← hiff]; simp only [map.index_const]
    cases search_node comp m.root k <;> simp
  · intro x hx he
    obtain ⟨a, l, r, h, hs⟩ := search_node_complete hc hord hx he
    simp [map.at_, map.at_const, map.index_const, hs]
  · simp only [map.at_]
    cases search_node comp m.root k <;> rfl
  · intro self
    simp [map.at_, map.at_const, map.index_const, map.new, search_node]

theorem at_spec_witness :
    (((sample_map.at_ less 30).2 = .error .index_out_of_bound ↔
        ∀ x ∈ sample_map.root.toList, ¬ Equiv less x.1 30) ∧
     (sample_map.at_const less 30 = .error .index_out_of_bound ↔
        ∀ x ∈ sample_map.root.toList, ¬ Equiv less x.1 30) ∧
     (sample_map.index_const less 30 = .error .index_out_of_bound ↔
        ∀ x ∈ sample_map.root.toList, ¬ Equiv less x.1 30)) ∧
    (∀ x ∈ sample_map.root.toList, Equiv less x.1 30 →
      (sample_map.at_ less 30).2 = .ok x.2 ∧ sample_map.at_const less 30 = .ok x.2 ∧
        sample_map.index_const less 30 = .ok x.2) ∧
    (sample_map.at_ less 30).1 = sample_map ∧
    (∀ self : Nat, ((map.new self : map Nat Nat).at_ less 30).2 = .error .index_out_of_bound ∧
      (map.new self : map Nat Nat).at_const less 30 = .error .index_out_of_bound ∧
      (map.new self : map Nat Nat).index_const less 30 = .error .index_out_of_bound) :=
  at_spec less_strictWeakOrder sample_map 30 (by decide)

theorem index_present_eq [Inhabited V] (comp : K → K → Bool) (m : map K V) (key : K)
    (fresh : Nat) {a : Nat} {l r : Tree K V} {h : Int} {v : K × V}
    (hs : search_node comp m.root key = .node a l r h v) :
    m.index comp key fresh = .ok (m, some a, v.2) := by
  simp only [map.index, hs]

theorem index_absent_eq [Inhabited V] (comp : K → K → Bool) (m : map K V) (key : K)
    (fresh : Nat) (hs : search_node comp m.root key = .nil) :
    m.index comp key fresh =
      match insert_helper comp m (key, default) fresh with
      | .error e => .error e
      | .ok (m1, res) =>
        match node_value m1.root res with
        | .error e => .error e
        | .ok v => .ok (m1, res, v.2) := by
  simp only [map.index, hs]

theorem index_absent_result [Inhabited V] {comp : K → K → Bool} {m : map K V} {key : K}
    {fresh : Nat} {r : map K V × Option Nat × V}
    (hs : search_node comp m.root key = .nil) (h : m.index comp key fresh = .ok r) :
    insert_helper comp m (key, default) fresh = .ok (r.1, r.2.1) := by
  rw [index_absent_eq comp m key fresh hs] at h
  cases hh : insert_helper comp m (key, default) fresh with
  | error e => rw [hh] at h; cases h
  | ok z =>
    obtain ⟨m1, res⟩ := z
    rw [hh] at h
    simp only at h
    cases hv : node_value m1.root res with
    | error e => rw [hv] at h; cases h
    | ok v => rw [hv] at h; cases h; rfl

theorem node_value_fresh {t : Tree K V} {fresh : Nat} {value : K × V}
    {l1 l2 : List (Nat × (K × V))} (hfresh : fresh ∉ (l1 ++ l2).map Prod.fst)
    (e2 : t.entries = l1 ++ (fresh, value) :: l2) :
    node_value t (some fresh) = .ok value := by
  apply node_value_of_entries
  · rw [addrs_eq_entries, e2]; simp
  · intro e he hfst
    rw [e2] at he
    simp only [List.map_append, List.mem_append, List.mem_map, not_or, not_exists,
      not_and] at hfresh
    simp only [List.mem_append, List.mem_cons] at he
    rcases he with he | rfl | he
    · exact absurd hfst (hfresh.1 e he)
    · rfl
    · exact absurd hfst (hfresh.2 e he)

/-- C10 (mutable `map::operator[]`). For a map with the ordering invariant, a
key `k` and a new address: if a stored pair has a key equivalent to `k`, the
call returns its value and the map is exactly as before; if no stored key is
equivalent to `k`, the call returns normally for every map obtained from the
empty map by `insert`, `operator[]` and `erase` calls, balanced or not (and for
any map whose stored heights are correct), and whenever it returns normally the
size has grown by exactly one, the
returned reference designates the value of a node holding `(k, default)`, that
value is the default value, and the in-order sequence is the previous one with
`(k, default)` inserted at its sorted position. On the empty map the result has
size 1 and the single element `(k, default)`. -/
theorem index_spec [Inhabited V] {comp : K → K → Bool} (hc : StrictWeakOrder comp)
    (m : map K V) (k : K) (fresh : Nat)
    (hord : Ordered comp m.root) (hfresh : fresh ∉ m.root.addrs) :
    (∀ x ∈ m.root.toList, Equiv comp x.1 k →
      ∃ a, m.index comp k fresh = .ok (m, some a, x.2)) ∧
    ((∀ x ∈ m.root.toList, ¬ Equiv comp x.1 k) →
      (Reachable comp m → ∃ r, m.index comp k fresh = .ok r) ∧
      (HeightsOk m.root → ∃ r, m.index comp k fresh = .ok r) ∧
      (∀ r, m.index comp k fresh = .ok r →
        r.1.size = m.size + 1 ∧ r.2.2 = default ∧
        node_value r.1.root r.2.1 = .ok (k, default) ∧
        ∃ l1 l2, m.root.toList = l1 ++ l2 ∧ r.1.root.toList = l1 ++ (k, default) :: l2 ∧
          (∀ x ∈ l1, comp x.1 k = true) ∧ (∀ x ∈ l2, comp k x.1 = true))) ∧
    (∀ self : Nat, (map.new self : map K V).index comp k fresh =
      .ok (⟨self, 1, .node fresh .nil .nil 1 (k, default)⟩, some fresh, default) ∧
      (⟨self, 1, .node fresh .nil .nil 1 (k, default)⟩ : map K V).size = 1 ∧
      (Tree.node fresh .nil .nil 1 (k, (default : V))).toList = [(k, default)]) := by
  refine ⟨?_, ?_, ?_⟩
  · intro x hx he
    obtain ⟨a, l, r, h, hs⟩ := search_node_complete hc hord hx he
    exact ⟨a, index_present_eq comp m k fresh hs⟩
  · intro habs
    have hs : search_node comp m.root k = .nil := search_node_nil_of_absent habs
    have hval : ∀ (m1 : map K V) (res : Option Nat),
        insert_helper comp m (k, default) fresh = .ok (m1, res) →
        res = some fresh ∧ m1.map_size = m.map_size + 1 ∧
        node_value m1.root res = .ok (k, default) ∧
        ∃ l1 l2, m.root.toList = l1 ++ l2 ∧ m1.root.toList = l1 ++ (k, default) :: l2 ∧
          (∀ x ∈ l1, comp x.1 k = true) ∧ (∀ x ∈ l2, comp k x.1 = true) := by
      intro m1 res hh
      obtain ⟨h1, -, h3, l1, l2, e1, e2, h4⟩ := @insert_helper_entries K V comp m m1 (k, default) fresh res hs hh
      subst h1
      have hfr : fresh ∉ (l1 ++ l2).map Prod.fst := by
        rw [← e1, ← addrs_eq_entries]; exact hfresh
      obtain ⟨hb, ha⟩ := h4 hc hord
      refine ⟨rfl, h3, node_value_fresh hfr e2, l1.map Prod.snd, l2.map Prod.snd, ?_, ?_, ?_, ?_⟩
      · rw [toList_eq_entries, e1]; simp
      · rw [toList_eq_entries, e2]; simp
      · intro x hx
        obtain ⟨e, he, rfl⟩ := List.mem_map.1 hx
        exact hb e he
      · intro x hx
        obtain ⟨e, he, rfl⟩ := List.mem_map.1 hx
        exact ha e he
    have hret : HeightsOk m.root → ∃ r, m.index comp k fresh = .ok r := by
      intro hh
      obtain ⟨⟨m1, res⟩, hr⟩ := insert_helper_ok comp m (k, default) fresh hh
      obtain ⟨-, -, hv, -⟩ := hval m1 res hr
      rw [index_absent_eq comp m k fresh hs, hr]
      simp only [hv]
      exact ⟨_, rfl⟩
    refine ⟨fun hr => hret (reachable_heightsOk hr), hret, ?_⟩
    · intro r hr
      have hh := index_absent_result hs hr
      obtain ⟨h1, h2, hv, hl⟩ := hval r.1 r.2.1 hh
      refine ⟨h2, ?_, hv, hl⟩
      rw [index_absent_eq comp m k fresh hs, hh] at hr
      simp only [hv] at hr
      injection hr with hr
      rw [← hr]
  · intro self
    refine ⟨?_, rfl, rfl⟩
    simp [map.index, map.new, search_node, insert_helper, search_node_hot, insert_walk,
      node_value, locate]

/-! ## Reachable maps -/

theorem count_eq_length (t : Tree K V) : t.count = t.toList.length := by
  induction t with
  | nil => rfl
  | node a l r h v ihl ihr => simp [Tree.count, Tree.toList, ihl, ihr]; omega

theorem insert_helper_ordered {comp : K → K → Bool} (hc : StrictWeakOrder comp)
    {m m' : map K V} {value : K × V} {fresh : Nat} {res : Option Nat}
    (hord : Ordered comp m.root) (h : insert_helper comp m value fresh = .ok (m', res)) :
    Ordered comp m'.root := by
  cases hs : search_node comp m.root value.1 with
  | node a l rr hh v =>
    rw [insert_helper_present comp m value fresh hs] at h
    cases h; exact hord
  | nil =>
    obtain ⟨-, -, -, l1, l2, e1, e2, h3⟩ := insert_helper_entries hs h
    obtain ⟨hb, ha⟩ := h3 hc hord
    have hinc := (ordered_iff_increasing hc m.root).1 hord
    rw [toList_eq_entries, e1] at hinc
    rw [ordered_iff_increasing hc, toList_eq_entries, e2]
    simp only [List.map_append, List.map_cons] at hinc ⊢
    apply increasing_insert hinc
    · intro x hx
      obtain ⟨e, he, rfl⟩ := List.mem_map.1 hx
      exact hb e he
    · intro x hx
      obtain ⟨e, he, rfl⟩ := List.mem_map.1 hx
      exact ha e he

theorem index_ordered [Inhabited V] {comp : K → K → Bool} (hc : StrictWeakOrder comp)
    {m : map K V} {key : K} {fresh : Nat} {r : map K V × Option Nat × V}
    (hord : Ordered comp m.root) (h : m.index comp key fresh = .ok r) :
    Ordered comp r.1.root := by
  cases hs : search_node comp m.root key with
  | node a l rr hh v =>
    rw [index_present_eq comp m key fresh hs] at h
    cases h; exact hord
  | nil => exact insert_helper_ordered hc hord (index_absent_result hs h)

theorem erase_toList {m : map K V} {pos : iterator} {fresh : Nat}
    (h : (erase m pos fresh).2 = .ok ()) :
    (erase m pos fresh).1.map_size = m.map_size - 1 ∧
    ∃ l1 x l2, m.root.toList = l1 ++ x :: l2 ∧
      (erase m pos fresh).1.root.toList = l1 ++ l2 := by
  obtain ⟨p, t', rfl, hnode, heq⟩ := erase_result h
  obtain ⟨l1, x, l2, -, h1, h2⟩ := erase_node_toList hnode
  rw [heq]
  exact ⟨rfl, l1, x, l2, h1, h2⟩

theorem erase_ordered {comp : K → K → Bool} (hc : StrictWeakOrder comp)
    {m : map K V} {pos : iterator} {fresh : Nat}
    (hord : Ordered comp m.root) (h : (erase m pos fresh).2 = .ok ()) :
    Ordered comp (erase m pos fresh).1.root := by
  obtain ⟨-, l1, x, l2, h1, h2⟩ := erase_toList h
  have hinc := (ordered_iff_increasing hc m.root).1 hord
  rw [h1] at hinc
  rw [ordered_iff_increasing hc, h2]
  exact (increasing_split hinc).2.2

/-- C4 (ordering invariant of reachable maps). Every map obtained from the
empty map by `insert`, mutable `operator[]` and `erase` calls satisfies the
ordering invariant — at each node the keys of the left subtree order before
the node's key and those of the right subtree after it — and its in-order
key sequence is strictly increasing under the comparison, so no two stored
keys are equivalent. -/
theorem reachable_ordered [Inhabited V] {comp : K → K → Bool} (hc : StrictWeakOrder comp)
    (m : map K V) (h : Reachable comp m) :
    Ordered comp m.root ∧ Increasing comp m.root.toList ∧
    m.root.toList.Pairwise (fun x y => ¬ Equiv comp x.1 y.1) := by
  have hord : Ordered comp m.root := by
    induction h with
    | empty_map self => exact trivial
    | by_insert value fresh _ _ hins ih => exact insert_ordered hc ih hins
    | by_index key fresh _ _ hidx ih => exact index_ordered hc ih hidx
    | by_erase pos fresh _ _ her ih => exact erase_ordered hc ih her
  have hinc := (ordered_iff_increasing hc m.root).1 hord
  refine ⟨hord, hinc, ?_⟩
  apply List.Pairwise.imp _ hinc
  intro x y hxy he
  rw [he.1] at hxy; cases hxy

theorem insert_size {comp : K → K → Bool} {m : map K V} {value : K × V} {fresh : Nat}
    {r : map K V × iterator × Bool}
    (hsz : m.map_size = m.root.count) (h : insert comp m value fresh = .ok r) :
    r.1.map_size = r.1.root.count := by
  cases hs : search_node comp m.root value.1 with
  | node a l rr hh v =>
    rw [insert_present_eq comp m value fresh hs] at h
    cases h; exact hsz
  | nil =>
    obtain ⟨-, -, -, h4, l1, l2, e1, e2, -⟩ := insert_absent_entries hs h
    rw [h4, hsz, count_eq_length, count_eq_length, toList_eq_entries, toList_eq_entries, e1, e2]
    simp; omega

theorem index_size [Inhabited V] {comp : K → K → Bool} {m : map K V} {key : K} {fresh : Nat}
    {r : map K V × Option Nat × V}
    (hsz : m.map_size = m.root.count) (h : m.index comp key fresh = .ok r) :
    r.1.map_size = r.1.root.count := by
  cases hs : search_node comp m.root key with
  | node a l rr hh v =>
    rw [index_present_eq comp m key fresh hs] at h
    cases h; exact hsz
  | nil =>
    obtain ⟨-, -, h4, l1, l2, e1, e2, -⟩ := insert_helper_entries hs (index_absent_result hs h)
    rw [h4, hsz, count_eq_length, count_eq_length, toList_eq_entries, toList_eq_entries, e1, e2]
    simp; omega

theorem erase_size {m : map K V} {pos : iterator} {fresh : Nat}
    (hsz : m.map_size = m.root.count) (h : (erase m pos fresh).2 = .ok ()) :
    (erase m pos fresh).1.map_size = (erase m pos fresh).1.root.count ∧
      (erase m pos fresh).1.root.count + 1 = m.root.count := by
  obtain ⟨h0, l1, x, l2, h1, h2⟩ := erase_toList h
  rw [h0, hsz, count_eq_length, count_eq_length, h1, h2]
  simp only [List.length_append, List.length_cons]
  omega

theorem counted_size {comp : K → K → Bool} {n k : Nat} {m : map K V}
    (h : Counted comp n k m) : m.map_size = m.root.count ∧ m.root.count + k = n := by
  induction h with
  | empty_map self => exact ⟨rfl, rfl⟩
  | by_insert value fresh _ habs hins ih =>
    have hs := search_node_nil_of_absent habs
    obtain ⟨-, -, -, h4, l1, l2, e1, e2, -⟩ := insert_absent_entries hs hins
    refine ⟨insert_size ih.1 hins, ?_⟩
    have h5 := ih.2
    rw [count_eq_length, toList_eq_entries, e1] at h5
    rw [count_eq_length, toList_eq_entries, e2]
    simp at h5 ⊢; omega
  | by_erase pos fresh _ her ih =>
    obtain ⟨h1, h2⟩ := erase_size ih.1 her
    exact ⟨h1, by omega⟩

/-- C8 (`map::size`, `map::empty`). For every map obtained from the empty map
by `insert`, mutable `operator[]` and `erase` calls, `size()` is the number of
nodes of the tree and `empty()` holds exactly when the tree has no node; and
after `n` inserts of keys not stored at the time and `k` erases of stored
elements, in any order, `k ≤ n` and `size() = n - k`. -/
theorem size_spec [Inhabited V] (comp : K → K → Bool) (m : map K V) :
    (Reachable comp m →
      m.size = m.root.count ∧ (m.empty = true ↔ m.root = .nil)) ∧
    (∀ n k : Nat, Counted comp n k m → k ≤ n ∧ m.size = n - k) := by
  constructor
  · intro h
    have hsz : m.map_size = m.root.count := by
      induction h with
      | empty_map self => rfl
      | by_insert value fresh _ _ hins ih => exact insert_size ih hins
      | by_index key fresh _ _ hidx ih => exact index_size ih hidx
      | by_erase pos fresh _ _ her ih => exact (erase_size ih her).1
    refine ⟨hsz, ?_⟩
    simp only [map.empty, hsz, beq_iff_eq]
    cases m.root with
    | nil => simp [Tree.count]
    | node a l r hh v => simp [Tree.count]
  · intro n k h
    obtain ⟨h1, h2⟩ := counted_size h
    simp only [map.size]
    omega

theorem size_spec_witness :
    ((⟨0, 1, .node 100 .nil .nil 1 (5, 0)⟩ : map Nat Nat).size = 1 ∧
      ((⟨0, 1, .node 100 .nil .nil 1 (5, 0)⟩ : map Nat Nat).empty = true ↔
        (Tree.node 100 .nil .nil 1 (5, 0) : Tree Nat Nat) = .nil)) ∧
    (0 ≤ 1 ∧ (⟨0, 1, .node 100 .nil .nil 1 (5, 0)⟩ : map Nat Nat).size = 1 - 0) :=
  ⟨(size_spec less ⟨0, 1, .node 100 .nil .nil 1 (5, 0)⟩).1
      (@Reachable.by_insert Nat Nat _ less (map.new 0)
        (⟨0, 1, .node 100 .nil .nil 1 (5, 0)⟩, ⟨0, some 100⟩, true) (5, 0) 100
        (Reachable.empty_map 0) (by decide) (by decide)),
   (size_spec less ⟨0, 1, .node 100 .nil .nil 1 (5, 0)⟩).2 1 0
      (@Counted.by_insert Nat Nat less 0 0 (map.new 0)
        (⟨0, 1, .node 100 .nil .nil 1 (5, 0)⟩, ⟨0, some 100⟩, true) (5, 0) 100
        (Counted.empty_map 0) (by decide) (by decide))⟩

/-! ## Lookup -/

/-- C11 (`map::find`, `map::count`). For a map with the ordering invariant
(whose nodes live at distinct addresses) and a key `k`: if a stored pair `x`,
wherever it is in the tree, has a key equivalent to `k`, then `find(k)` is an
iterator of the map that dereferences to `x` and `count(k) = 1`; if no stored
key is equivalent to `k`, then `find(k) = end()` and `count(k) = 0`. In every
case `count(k)` is 0 or 1, and it is 1 exactly when `find(k) != end()`. -/
theorem find_count_spec {comp : K → K → Bool} (hc : StrictWeakOrder comp)
    (m : map K V) (k : K) (hord : Ordered comp m.root) (hnd : m.root.addrs.Nodup) :
    (∀ x ∈ m.root.toList, Equiv comp x.1 k →
      (m.find comp k).this_map = m.self ∧ (m.find comp k).deref m = .ok x ∧
        m.count comp k = 1) ∧
    ((∀ x ∈ m.root.toList, ¬ Equiv comp x.1 k) →
      m.find comp k = m.end_ ∧ m.count comp k = 0) ∧
    (m.count comp k = 0 ∨ m.count comp k = 1) ∧
    (m.count comp k = 1 ↔ m.find comp k ≠ m.end_) := by
  refine ⟨?_, ?_, ?_, ?_⟩
  · intro x hx he
    obtain ⟨a, l, r, h, hs⟩ := search_node_complete hc hord hx he
    refine ⟨rfl, ?_, by simp [map.count, hs]⟩
    simp only [map.find, hs, Tree.ptr, iterator.deref]
    exact node_value_of_mem hnd (search_node_sound hs).2
  · intro habs
    have hs := search_node_nil_of_absent habs
    simp [map.find, map.count, map.end_, hs, Tree.ptr]
  · simp only [map.count]
    cases search_node comp m.root k <;> simp
  · simp only [map.count, map.find, map.end_]
    cases search_node comp m.root k <;> simp [Tree.ptr]

theorem find_count_spec_witness :
    (∀ x ∈ sample_map.root.toList, Equiv less x.1 30 →
      (sample_map.find less 30).this_map = sample_map.self ∧
        (sample_map.find less 30).deref sample_map = .ok x ∧
        sample_map.count less 30 = 1) ∧
    ((∀ x ∈ sample_map.root.toList, ¬ Equiv less x.1 30) →
      sample_map.find less 30 = sample_map.end_ ∧ sample_map.count less 30 = 0) ∧
    (sample_map.count less 30 = 0 ∨ sample_map.count less 30 = 1) ∧
    (sample_map.count less 30 = 1 ↔ sample_map.find less 30 ≠ sample_map.end_) :=
  find_count_spec less_strictWeakOrder sample_map 30 (by decide) (by decide)

/-! ## The guard of erase -/

theorem rotate_error {t : Tree K V} {e : Failure} (h : rotate t = .error e) :
    e = .null_dereference := by
  unfold rotate at h
  repeat' split at h
  all_goals first
    | (cases h; rfl)
    | cases h

theorem erase_walk_error {sub : Tree K V} {ctx : List (Frame K V)} {e : Failure}
    (h : erase_walk sub ctx = .error e) : e = .null_dereference := by
  induction ctx generalizing sub with
  | nil => simp [erase_walk] at h
  | cons f ctx ih =>
    rw [erase_walk] at h
    generalize f.plug sub = hot at h
    cases hot with
    | nil => simp only at h; cases h; rfl
    | node a l r hh v =>
      simp only at h
      split at h
      · split at h
        · rename_i e' he'
          cases h
          exact rotate_error he'
        · exact ih h
      · exact ih h

theorem erase_node_error {t : Tree K V} {p fresh : Nat} {e : Failure}
    (h : erase_node t p fresh = .error e) : e = .null_dereference := by
  simp only [erase_node] at h
  repeat' split at h
  all_goals first
    | (cases h; rfl)
    | exact erase_walk_error h

/-- C12 (`map::erase` on a bad iterator, as the code has it). Whenever the
iterator is the past-the-end position or belongs to another map, `erase` fails
with `index_out_of_bound`. -/
theorem erase_bad_iterator_throws (m : map K V) (pos : iterator) (fresh : Nat)
    (h : pos.this_node = none ∨ pos.this_map ≠ m.self) :
    (erase m pos fresh).2 = .error .index_out_of_bound := by
  simp only [erase]
  rw [if_pos (by tauto)]

theorem erase_bad_iterator_throws_witness :
    (erase sample_map sample_map.end_ 200).2 = .error .index_out_of_bound :=
  erase_bad_iterator_throws sample_map sample_map.end_ 200 (Or.inl rfl)

/-- C12, the claim as written fails: on the past-the-end iterator of the
sample map, and on an iterator of the map at address 1 that points at an
existing node address, `erase` does not fail with `invalid_iterator`. -/
theorem erase_bad_iterator_not_invalid_iterator :
    (erase sample_map sample_map.end_ 200).2 ≠ .error .invalid_iterator ∧
    (erase sample_map ⟨1, some 100⟩ 200).2 ≠ .error .invalid_iterator := by
  decide

/-- C13 (`map::erase`, guard). `erase` fails with `index_out_of_bound` exactly
when the iterator is the past-the-end position or belongs to another map, and
in that case the map returned is the map given: tree, heights and size are
untouched. -/
theorem erase_guard_spec (m : map K V) (pos : iterator) (fresh : Nat) :
    ((erase m pos fresh).2 = .error .index_out_of_bound ↔
      (pos = m.end_ ∨ pos.this_map ≠ m.self)) ∧
    ((erase m pos fresh).2 = .error .index_out_of_bound → (erase m pos fresh).1 = m) := by
  obtain ⟨mp, np⟩ := pos
  simp only [erase, map.end_]
  by_cases hg : mp ≠ m.self ∨ np = none
  · rw [if_pos hg]
    simp only [iterator.mk.injEq, true_iff, implies_true, and_true]
    by_cases h1 : mp = m.self
    · rcases hg with hg | hg
      · exact absurd h1 hg
      · exact Or.inl ⟨h1, hg⟩
    · exact Or.inr h1
  · rw [if_neg hg]
    simp only [ne_eq, not_or, not_not] at hg
    obtain ⟨h1, h2⟩ := hg
    cases np with
    | none => exact absurd rfl h2
    | some p =>
      simp only
      cases he : erase_node m.root p fresh with
      | error e =>
        have := erase_node_error he
        subst this
        simp [h1]
      | ok t => simp [h1]

theorem erase_guard_spec_witness :
    ((erase sample_map ⟨1, some 100⟩ 200).2 = .error .index_out_of_bound ↔
      ((⟨1, some 100⟩ : iterator) = sample_map.end_ ∨ (1 : Nat) ≠ sample_map.self)) ∧
    ((erase sample_map ⟨1, some 100⟩ 200).2 = .error .index_out_of_bound →
      (erase sample_map ⟨1, some 100⟩ 200).1 = sample_map) :=
  erase_guard_spec sample_map ⟨1, some 100⟩ 200

/-! ## Iterator steps: failures and the past-the-end position -/

/-- C16 (`iterator::operator--(int)` on `end()`). On the sample map (eight
elements, maximum key 70 at address 105) the postfix decrement of `iterator`
applied to `end()` returns the old position but leaves the iterator at `end()`,
whereas the prefix decrement and the postfix decrement of `const_iterator`
move it to the element with key 70. The same holds on every non-empty map:
`it--` on `end()` does not move `it`. -/
theorem post_decrement_at_end_stays :
    iterator.post_decr sample_map sample_map.end_
      = (sample_map.end_, .ok sample_map.end_) ∧
    iterator.pre_decr sample_map sample_map.end_ = (⟨0, some 105⟩, .ok ⟨0, some 105⟩) ∧
    const_iterator.post_decr sample_map sample_map.end_
      = (⟨0, some 105⟩, .ok sample_map.end_) ∧
    iterator.deref sample_map ⟨0, some 105⟩ = .ok (70, 0) ∧
    (iterator.post_decr sample_map sample_map.end_).1
      ≠ (iterator.pre_decr sample_map sample_map.end_).1 ∧
    (∀ m : map Nat Nat, m.end_ ≠ m.begin →
      iterator.post_decr m m.end_ = (m.end_, .ok m.end_)) := by
  refine ⟨by decide, by decide, by decide, by decide, by decide, ?_⟩
  intro m hne
  simp only [iterator.post_decr, map.end_] at hne ⊢
  rw [if_neg hne]

/-- C17 (failing iterator steps). On every map: the prefix and the postfix
increment of a past-the-end iterator fail with `invalid_iterator`, the prefix
and the postfix decrement of an iterator equal to `begin()` fail with
`invalid_iterator` (on a map without a root `begin()` is `end()`), for
`iterator` and for `const_iterator`; in each case the iterator after the call
is the iterator before it. The steps take the map read-only. -/
theorem iterator_step_failures (m : map K V) (a size : Nat) :
    iterator.pre_incr m ⟨a, none⟩ = (⟨a, none⟩, .error .invalid_iterator) ∧
    iterator.post_incr m ⟨a, none⟩ = (⟨a, none⟩, .error .invalid_iterator) ∧
    const_iterator.pre_incr m ⟨a, none⟩ = (⟨a, none⟩, .error .invalid_iterator) ∧
    const_iterator.post_incr m ⟨a, none⟩ = (⟨a, none⟩, .error .invalid_iterator) ∧
    iterator.pre_incr m m.end_ = (m.end_, .error .invalid_iterator) ∧
    iterator.post_incr m m.end_ = (m.end_, .error .invalid_iterator) ∧
    iterator.pre_decr m m.begin = (m.begin, .error .invalid_iterator) ∧
    iterator.post_decr m m.begin = (m.begin, .error .invalid_iterator) ∧
    const_iterator.pre_decr m m.begin = (m.begin, .error .invalid_iterator) ∧
    const_iterator.post_decr m m.begin = (m.begin, .error .invalid_iterator) ∧
    (⟨a, size, .nil⟩ : map K V).begin = (⟨a, size, .nil⟩ : map K V).end_ ∧
    iterator.pre_decr (⟨a, size, .nil⟩ : map K V) (⟨a, size, .nil⟩ : map K V).end_
      = ((⟨a, size, .nil⟩ : map K V).end_, .error .invalid_iterator) ∧
    iterator.post_decr (⟨a, size, .nil⟩ : map K V) (⟨a, size, .nil⟩ : map K V).end_
      = ((⟨a, size, .nil⟩ : map K V).end_, .error .invalid_iterator) := by
  simp [iterator.pre_incr, iterator.post_incr, const_iterator.pre_incr,
    const_iterator.post_incr, iterator.pre_decr, iterator.post_decr,
    const_iterator.pre_decr, const_iterator.post_decr, map.end_, map.begin, leftmost,
    Tree.ptr]

/-- C20 (insert 1..7 in ascending order, then erase 4). Starting from the
empty map, the tree has 0, 1, 2, 2, 3, 3, 3, 3 levels after 0, 1, ..., 7
inserts (never more than 3); after the seventh insert the root holds key 4
and has two children; erasing the element with key 4 then succeeds, leaves the
in-order keys 1, 2, 3, 5, 6, 7, and every node of the result is balanced (and
stores its correct height). -/
theorem scenario_one_to_seven :
    (List.range 8).map (fun n =>
        (insert_seq less (map.new 0) ((List.range' 1 n).map (fun k => (k, 0))) 100).toOption.map
          (fun m => m.root.depth))
      = [some 0, some 1, some 2, some 2, some 3, some 3, some 3, some 3] ∧
    insert_seq less (map.new 0)
        [(1, 0), (2, 0), (3, 0), (4, 0), (5, 0), (6, 0), (7, 0)] 100 = .ok seven_map ∧
    Avl seven_map.root ∧ seven_map.root.height = 3 ∧
    (seven_map.root.toList.map Prod.fst = [1, 2, 3, 4, 5, 6, 7]) ∧
    (∃ a l r h v, seven_map.root = .node a l r h (4, v) ∧ l.is_null = false ∧
      r.is_null = false) ∧
    (seven_map.find less 4).deref seven_map = .ok (4, 0) ∧
    (erase seven_map (seven_map.find less 4) 200).2 = .ok () ∧
    (erase seven_map (seven_map.find less 4) 200).1.root.toList.map Prod.fst
      = [1, 2, 3, 5, 6, 7] ∧
    Balanced (erase seven_map (seven_map.find less 4) 200).1.root ∧
    HeightsOk (erase seven_map (seven_map.find less 4) 200).1.root ∧
    (erase seven_map (seven_map.find less 4) 200).1.size = 6 := by
  refine ⟨by decide, by decide, ⟨by decide, by decide⟩, by decide, by decide, ?_, by decide,
    by decide, by decide, by decide, by decide, by decide⟩
  exact ⟨_, _, _, _, _, rfl, rfl, rfl⟩

/-! ## Iterator steps in terms of the in-order sequence -/

theorem entries_head_some (a : Nat) (l r : Tree K V) (h : Int) (v : K × V) :
    ∃ e, (Tree.node a l r h v).entries.head? = some e := by
  cases hl : (Tree.node a l r h v).entries with
  | nil => simp [Tree.entries] at hl
  | cons e L => exact ⟨e, rfl⟩

theorem entries_last_some (a : Nat) (l r : Tree K V) (h : Int) (v : K × V) :
    ∃ e, (Tree.node a l r h v).entries.getLast? = some e := by
  cases hl : (Tree.node a l r h v).entries.getLast? with
  | none => simp [Tree.entries] at hl
  | some e => exact ⟨e, rfl⟩

theorem leftmost_ptr (t : Tree K V) (ctx : List (Frame K V)) :
    (leftmost t ctx).1.ptr = t.entries.head?.map Prod.fst := by
  induction t generalizing ctx with
  | nil => rfl
  | node a l r h v ihl _ =>
    cases l with
    | nil => simp [leftmost, Tree.ptr, Tree.entries]
    | node la ll lr lh lv =>
      simp only [leftmost]
      rw [ihl]
      obtain ⟨e, he⟩ := entries_head_some la ll lr lh lv
      have hE : (Tree.node a (Tree.node la ll lr lh lv) r h v).entries
          = (Tree.node la ll lr lh lv).entries ++ (a, v) :: r.entries := rfl
      rw [hE, List.head?_append, he]
      rfl

theorem rightmost_ptr (t : Tree K V) (ctx : List (Frame K V)) :
    (rightmost t ctx).1.ptr = t.entries.getLast?.map Prod.fst := by
  induction t generalizing ctx with
  | nil => rfl
  | node a l r h v _ ihr =>
    cases r with
    | nil => simp [rightmost, Tree.ptr, Tree.entries]
    | node ra rl rr rh rv =>
      simp only [rightmost]
      rw [ihr]
      obtain ⟨e, he⟩ := entries_last_some ra rl rr rh rv
      have hE : (Tree.node a l (Tree.node ra rl rr rh rv) h v).entries
          = l.entries ++ (a, v) :: (Tree.node ra rl rr rh rv).entries := rfl
      rw [hE, List.getLast?_append, List.getLast?_cons, he]
      rfl

theorem climb_right_eq (ctx : List (Frame K V)) :
    climb_right ctx = (after ctx).head?.map Prod.fst := by
  induction ctx with
  | nil => rfl
  | cons f ctx ih => cases f <;> simp [climb_right, after, ih]

theorem climb_left_eq (ctx : List (Frame K V)) :
    climb_left ctx = (before ctx).getLast?.map Prod.fst := by
  induction ctx with
  | nil => rfl
  | cons f ctx ih => cases f <;> simp [climb_left, before, ih]

theorem nodup_split_unique {L l1 l2 l1' l2' : List (Nat × (K × V))} {p : Nat} {x x' : K × V}
    (hnd : (L.map Prod.fst).Nodup) (h1 : L = l1 ++ (p, x) :: l2)
    (h2 : L = l1' ++ (p, x') :: l2') : l1 = l1' ∧ x = x' ∧ l2 = l2' := by
  subst h1
  induction l1 generalizing l1' with
  | nil =>
    cases l1' with
    | nil =>
      simp only [List.nil_append, List.cons.injEq, Prod.mk.injEq, true_and] at h2
      exact ⟨rfl, h2.1, h2.2⟩
    | cons e l1' =>
      simp only [List.nil_append, List.cons_append, List.cons.injEq] at h2
      obtain ⟨rfl, rfl⟩ := h2
      simp at hnd
  | cons e l1 ih =>
    cases l1' with
    | nil =>
      simp only [List.nil_append, List.cons_append, List.cons.injEq] at h2
      obtain ⟨rfl, h2⟩ := h2
      simp at hnd
    | cons e' l1' =>
      simp only [List.cons_append, List.cons.injEq] at h2
      obtain ⟨rfl, h2⟩ := h2
      simp only [List.cons_append, List.map_cons, List.nodup_cons] at hnd
      obtain ⟨h3, h4, h5⟩ := ih hnd.2 h2
      exact ⟨by rw [h3], h4, h5⟩
theorem next_prev_spec {t : Tree K V} (hnd : t.addrs.Nodup) {l1 l2 : List (Nat × (K × V))}
    {p : Nat} {x : K × V} (h : t.entries = l1 ++ (p, x) :: l2) :
    next_node t p = .ok (l2.head?.map Prod.fst) ∧
    prev_node t p = .ok (l1.getLast?.map Prod.fst) := by
  have hp : p ∈ t.addrs := by rw [addrs_eq_entries, h]; simp
  obtain ⟨⟨foc, ctx⟩, hz⟩ := locate_complete (t := t) [] hp
  obtain ⟨hre, fl, fr, fh, fv, rfl⟩ := locate_sound hz
  simp only [rebuild] at hre
  have hent := entries_rebuild (.node p fl fr fh fv) ctx
  rw [hre] at hent
  have hent' : t.entries = (before ctx ++ fl.entries) ++ (p, fv) :: (fr.entries ++ after ctx) := by
    rw [hent]; simp [Tree.entries]
  rw [addrs_eq_entries] at hnd
  obtain ⟨e1, -, e2⟩ := nodup_split_unique hnd h hent'
  subst e1 e2
  constructor
  · simp only [next_node, hz]
    cases fr with
    | nil => simp [Tree.is_null, Tree.entries, climb_right_eq]
    | node ra rl rr rh rv =>
      obtain ⟨e, he⟩ := entries_head_some ra rl rr rh rv
      simp only [Tree.is_null, Bool.not_false, if_true, leftmost_ptr, List.head?_append, he]
      rfl
  · simp only [prev_node, hz]
    cases fl with
    | nil => simp [Tree.is_null, Tree.entries, climb_left_eq]
    | node la ll lr lh lv =>
      obtain ⟨e, he⟩ := entries_last_some la ll lr lh lv
      simp only [Tree.is_null, Bool.not_false, if_true, rightmost_ptr, List.getLast?_append, he]
      rfl

theorem erase_node_entries {t t' : Tree K V} {p fresh : Nat}
    (h : erase_node t p fresh = .ok t') :
    ∃ l1 x l2, t.entries = l1 ++ (p, x) :: l2 ∧
      (t'.entries = l1 ++ l2 ∨
        ∃ sa sv l3, l2 = (sa, sv) :: l3 ∧ t'.entries = l1 ++ (fresh, sv) :: l3) := by
  simp only [erase_node] at h
  cases hz : locate t p [] with
  | none => simp [hz] at h
  | some z =>
    obtain ⟨foc, ctx⟩ := z
    obtain ⟨hre, tl, tr, th, tv, rfl⟩ := locate_sound hz
    simp only [rebuild] at hre
    have hent := entries_rebuild (.node p tl tr th tv) ctx
    rw [hre] at hent
    simp only [hz] at h
    refine ⟨before ctx ++ tl.entries, tv, tr.entries ++ after ctx, ?_, ?_⟩
    · rw [hent]; simp [Tree.entries]
    split at h
    · rename_i hboth
      simp only [Bool.and_eq_true, Bool.not_eq_true'] at hboth
      obtain ⟨e1, e2, e3⟩ := leftmost_spec tr []
      obtain ⟨sa, sr, sh, sv, e3⟩ := e3 hboth.2
      simp only [rebuild] at e1
      have hent2 := entries_rebuild (leftmost tr []).1 (leftmost tr []).2
      rw [e1, e2] at hent2
      generalize leftmost tr [] = lm at *
      obtain ⟨s, inner⟩ := lm
      simp only at e3 hent2
      subst e3
      simp only at h
      have h3 := entries_erase_walk h
      rw [entries_rebuild, before_append, after_append] at h3
      have e2' : before inner = [] := e2
      right
      refine ⟨sa, sv, sr.entries ++ after inner ++ after ctx, ?_, ?_⟩
      · rw [hent2]; simp [Tree.entries, before]
      · rw [h3]; simp [before, after, e2']
    · rename_i hnot
      have h3 := entries_erase_walk h
      rw [entries_rebuild] at h3
      left
      rw [h3]
      cases tl with
      | nil => simp [Tree.is_null, Tree.entries]
      | node la ll lr lh lv =>
        cases tr with
        | nil => simp [Tree.is_null, Tree.entries]
        | node ra rl rr rh rv => simp [Tree.is_null] at hnot

theorem erase_node_addrs_nodup {t t' : Tree K V} {p fresh : Nat}
    (hnd : t.addrs.Nodup) (hfresh : fresh ∉ t.addrs)
    (h : erase_node t p fresh = .ok t') : t'.addrs.Nodup := by
  obtain ⟨l1, x, l2, e1, e2⟩ := erase_node_entries h
  rw [addrs_eq_entries, e1] at hnd hfresh
  rw [addrs_eq_entries]
  rcases e2 with e2 | ⟨sa, sv, l3, rfl, e2⟩
  · rw [e2]
    simp only [List.map_append, List.map_cons] at hnd ⊢
    exact hnd.sublist (List.Sublist.append_left (List.sublist_cons_self _ _) _)
  · rw [e2]
    simp only [List.map_append, List.map_cons, List.mem_append, List.mem_cons, not_or] at hnd hfresh ⊢
    have hsub : (l1.map Prod.fst ++ l3.map Prod.fst).Nodup :=
      hnd.sublist (List.Sublist.append_left
        ((List.sublist_cons_self _ _).trans (List.sublist_cons_self _ _)) _)
    rw [List.nodup_append] at hsub ⊢
    refine ⟨hsub.1, List.nodup_cons.2 ⟨hfresh.2.2.2, hsub.2.1⟩, ?_⟩
    intro a ha hb
    rcases List.mem_cons.1 hb with rfl | hb
    · exact hfresh.1 ha
    · exact hsub.2.2 ha hb

theorem insert_helper_addrs_nodup {comp : K → K → Bool} {m m' : map K V} {value : K × V}
    {fresh : Nat} {res : Option Nat}
    (hnd : m.root.addrs.Nodup) (hfresh : fresh ∉ m.root.addrs)
    (h : insert_helper comp m value fresh = .ok (m', res)) : m'.root.addrs.Nodup := by
  cases hs : search_node comp m.root value.1 with
  | node a l rr hh v =>
    rw [insert_helper_present comp m value fresh hs] at h
    cases h; exact hnd
  | nil =>
    obtain ⟨-, -, -, l1, l2, e1, e2, -⟩ := insert_helper_entries hs h
    rw [addrs_eq_entries, e1] at hnd hfresh
    rw [addrs_eq_entries, e2]
    simp only [List.map_append, List.map_cons, List.mem_append, not_or] at hnd hfresh ⊢
    rw [List.nodup_append] at hnd ⊢
    refine ⟨hnd.1, List.nodup_cons.2 ⟨hfresh.2, hnd.2.1⟩, ?_⟩
    intro a ha hb
    rcases List.mem_cons.1 hb with rfl | hb
    · exact hfresh.1 ha
    · exact hnd.2.2 ha hb

theorem reachable_inv [Inhabited V] {comp : K → K → Bool} (hc : StrictWeakOrder comp)
    {m : map K V} (h : Reachable comp m) :
    Ordered comp m.root ∧ m.root.addrs.Nodup ∧ m.map_size = m.root.count := by
  induction h with
  | empty_map self => exact ⟨trivial, List.nodup_nil, rfl⟩
  | by_insert value fresh _ hf hins ih =>
    exact ⟨insert_ordered hc ih.1 hins, insert_addrs_nodup ih.2.1 hf hins,
      insert_size ih.2.2 hins⟩
  | @by_index m r key fresh _ hf hidx ih =>
    refine ⟨index_ordered hc ih.1 hidx, ?_, index_size ih.2.2 hidx⟩
    cases hs : search_node comp m.root key with
    | node a l rr hh v =>
      rw [index_present_eq comp m key fresh hs] at hidx
      cases hidx; exact ih.2.1
    | nil => exact insert_helper_addrs_nodup ih.2.1 hf (index_absent_result hs hidx)
  | @by_erase m pos fresh _ hf her ih =>
    refine ⟨erase_ordered hc ih.1 her, ?_, (erase_size ih.2.2 her).1⟩
    obtain ⟨p, t', rfl, hnode, heq⟩ := erase_result her
    rw [heq]
    exact erase_node_addrs_nodup ih.2.1 hf hnode

theorem begin_eq (m : map K V) :
    m.begin = ⟨m.self, m.root.entries.head?.map Prod.fst⟩ := by
  simp only [map.begin, leftmost_ptr]

theorem pre_incr_spec {m : map K V} (hnd : m.root.addrs.Nodup)
    {l1 l2 : List (Nat × (K × V))} {p : Nat} {x : K × V}
    (h : m.root.entries = l1 ++ (p, x) :: l2) :
    iterator.pre_incr m ⟨m.self, some p⟩ =
      (⟨m.self, l2.head?.map Prod.fst⟩, .ok ⟨m.self, l2.head?.map Prod.fst⟩) := by
  simp only [iterator.pre_incr, (next_prev_spec hnd h).1]

theorem pre_decr_spec {m : map K V} (hnd : m.root.addrs.Nodup)
    {l1 l2 : List (Nat × (K × V))} {q p : Nat} {y x : K × V}
    (h : m.root.entries = l1 ++ (q, y) :: (p, x) :: l2) :
    iterator.pre_decr m ⟨m.self, some p⟩ =
      (⟨m.self, some q⟩, .ok ⟨m.self, some q⟩) := by
  have h' : m.root.entries = (l1 ++ [(q, y)]) ++ (p, x) :: l2 := by rw [h]; simp
  have hne : (⟨m.self, some p⟩ : iterator) ≠ m.begin := by
    rw [begin_eq, h]
    intro heq
    rw [addrs_eq_entries, h] at hnd
    cases l1 with
    | nil =>
      simp only [List.nil_append, List.head?_cons, Option.map_some', iterator.mk.injEq,
        Option.some.injEq, true_and] at heq
      subst heq
      simp at hnd
    | cons e l1 =>
      simp only [List.cons_append, List.head?_cons, Option.map_some', iterator.mk.injEq,
        Option.some.injEq, true_and] at heq
      subst heq
      simp at hnd
  simp only [iterator.pre_decr, if_neg hne, (next_prev_spec hnd h').2]
  simp

theorem pre_decr_end_spec {m : map K V} {l1 : List (Nat × (K × V))} {q : Nat} {y : K × V}
    (h : m.root.entries = l1 ++ [(q, y)]) :
    iterator.pre_decr m m.end_ = (⟨m.self, some q⟩, .ok ⟨m.self, some q⟩) := by
  have hne : m.end_ ≠ m.begin := by
    rw [begin_eq, h, map.end_]
    cases l1 <;> simp
  simp only [map.end_] at hne ⊢
  simp only [iterator.pre_decr, if_neg hne, rightmost_ptr, h]
  simp

theorem advance_spec {m : map K V} (hnd : m.root.addrs.Nodup) (n k : Nat)
    (h : k + n ≤ m.root.entries.length) :
    iterator.advance m ⟨m.self, (m.root.entries.drop k).head?.map Prod.fst⟩ n
      = .ok ⟨m.self, (m.root.entries.drop (k + n)).head?.map Prod.fst⟩ := by
  induction n generalizing k with
  | zero => rfl
  | succ n ih =>
    have hk : k < m.root.entries.length := by omega
    have hd : m.root.entries.drop k = m.root.entries[k] :: m.root.entries.drop (k + 1) :=
      List.drop_eq_getElem_cons hk
    have hsplit : m.root.entries
        = m.root.entries.take k ++ (m.root.entries[k].1, m.root.entries[k].2)
            :: m.root.entries.drop (k + 1) := by
      conv_lhs => rw [← List.take_append_drop k m.root.entries, hd]
    have hstep := pre_incr_spec hnd hsplit
    rw [hd]
    simp only [List.head?_cons, Option.map_some', iterator.advance, hstep]
    rw [ih (k + 1) (by omega)]
    have e : k + 1 + n = k + (n + 1) := by omega
    rw [e]

theorem entries_getElem?_toList {t : Tree K V} {n : Nat} {x : K × V}
    (h : t.toList[n]? = some x) : ∃ p, t.entries[n]? = some (p, x) := by
  rw [toList_eq_entries, List.getElem?_map] at h
  cases he : t.entries[n]? with
  | none => rw [he] at h; cases h
  | some e =>
    rw [he] at h
    simp only [Option.map_some', Option.some.injEq] at h
    exact ⟨e.1, by rw [← h]⟩

theorem increasing_next {comp : K → K → Bool} (hc : StrictWeakOrder comp)
    {L1 L3 : List (K × V)} {x y : K × V} {L : List (K × V)}
    (hinc : Increasing comp L) (h : L = L1 ++ x :: y :: L3) :
    comp x.1 y.1 = true ∧ ∀ z ∈ L, comp x.1 z.1 = true → z = y ∨ comp y.1 z.1 = true := by
  subst h
  simp only [Increasing, List.pairwise_append, List.pairwise_cons, List.mem_cons] at hinc
  obtain ⟨-, ⟨hx, hy, -⟩, h1⟩ := hinc
  refine ⟨hx y (Or.inl rfl), ?_⟩
  intro z hz hxz
  simp only [List.mem_append, List.mem_cons] at hz
  rcases hz with hz | rfl | rfl | hz
  · have := hc.trans _ _ _ (h1 z hz x (Or.inl rfl)) hxz
    rw [hc.irrefl] at this; cases this
  · rw [hc.irrefl] at hxz; cases hxz
  · exact Or.inl rfl
  · exact Or.inr (hy z hz)

theorem increasing_last {comp : K → K → Bool} (hc : StrictWeakOrder comp)
    {L1 : List (K × V)} {x : K × V} {L : List (K × V)}
    (hinc : Increasing comp L) (h : L = L1 ++ [x]) :
    ∀ z ∈ L, comp x.1 z.1 = false := by
  subst h
  simp only [Increasing, List.pairwise_append, List.pairwise_cons, List.mem_cons] at hinc
  obtain ⟨-, -, h1⟩ := hinc
  intro z hz
  simp only [List.mem_append, List.mem_singleton] at hz
  rcases hz with hz | rfl
  · cases hxz : comp x.1 z.1 with
    | false => rfl
    | true =>
      have := hc.trans _ _ _ (h1 z hz x (by simp)) hxz
      rw [hc.irrefl] at this; cases this
  · exact hc.irrefl _

theorem increasing_prev {comp : K → K → Bool} (hc : StrictWeakOrder comp)
    {L1 L3 : List (K × V)} {x y : K × V} {L : List (K × V)}
    (hinc : Increasing comp L) (h : L = L1 ++ y :: x :: L3) :
    comp y.1 x.1 = true ∧ ∀ z ∈ L, comp z.1 x.1 = true → z = y ∨ comp z.1 y.1 = true := by
  subst h
  simp only [Increasing, List.pairwise_append, List.pairwise_cons, List.mem_cons] at hinc
  obtain ⟨-, ⟨hy, hx, -⟩, h1⟩ := hinc
  refine ⟨hy x (Or.inl rfl), ?_⟩
  intro z hz hzx
  simp only [List.mem_append, List.mem_cons] at hz
  rcases hz with hz | rfl | rfl | hz
  · exact Or.inr (h1 z hz y (Or.inl rfl))
  · exact Or.inl rfl
  · rw [hc.irrefl] at hzx; cases hzx
  · have := hc.trans _ _ _ (hx z hz) hzx
    rw [hc.irrefl] at this; cases this

theorem three_map_reachable : Reachable less three_map :=
  @Reachable.by_insert Nat Nat _ less
    ⟨0, 2, .node 100 .nil (.node 101 .nil .nil 1 (7, 0)) 2 (5, 0)⟩
    (three_map, ⟨0, some 102⟩, true) (3, 0) 102
    (@Reachable.by_insert Nat Nat _ less ⟨0, 1, .node 100 .nil .nil 1 (5, 0)⟩
      (⟨0, 2, .node 100 .nil (.node 101 .nil .nil 1 (7, 0)) 2 (5, 0)⟩, ⟨0, some 101⟩, true)
      (7, 0) 101
      (@Reachable.by_insert Nat Nat _ less (map.new 0)
        (⟨0, 1, .node 100 .nil .nil 1 (5, 0)⟩, ⟨0, some 100⟩, true) (5, 0) 100
        (Reachable.empty_map 0) (by decide) (by decide))
      (by decide) (by decide))
    (by decide) (by decide)

theorem insert_addrs_subset {comp : K → K → Bool} {m : map K V} {value : K × V}
    {fresh : Nat} {r : map K V × iterator × Bool}
    (h : insert comp m value fresh = .ok r) :
    ∀ a ∈ r.1.root.addrs, a ∈ m.root.addrs ∨ a = fresh := by
  cases hs : search_node comp m.root value.1 with
  | node a l rr hh v =>
    rw [insert_present_eq comp m value fresh hs] at h
    cases h
    intro a ha; exact Or.inl ha
  | nil =>
    obtain ⟨-, -, -, -, l1, l2, e1, e2, -⟩ := insert_absent_entries hs h
    intro a ha
    rw [addrs_eq_entries, e2] at ha
    rw [addrs_eq_entries, e1]
    simp only [List.map_append, List.map_cons, List.mem_append, List.mem_cons] at ha ⊢
    tauto

theorem insert_seq_reachable [Inhabited V] {comp : K → K → Bool} (l : List (K × V)) :
    ∀ (m m' : map K V) (base : Nat), Reachable comp m → (∀ a ∈ m.root.addrs, a < base) →
      insert_seq comp m l base = .ok m' → Reachable comp m' := by
  induction l with
  | nil =>
    intro m m' base hr _ h
    simp only [insert_seq, Except.ok.injEq] at h
    rw [← h]; exact hr
  | cons value rest ih =>
    intro m m' base hr hb h
    simp only [insert_seq] at h
    cases hi : insert comp m value base with
    | error e => rw [hi] at h; cases h
    | ok r =>
      obtain ⟨m1, it, b⟩ := r
      rw [hi] at h
      simp only at h
      have hf : base ∉ m.root.addrs := fun hm => Nat.lt_irrefl _ (hb base hm)
      refine ih m1 m' (base + 1) (Reachable.by_insert value base hr hf hi) ?_ h
      intro a ha
      rcases insert_addrs_subset hi a ha with h1 | h1
      · exact Nat.lt_succ_of_lt (hb a h1)
      · rw [h1]; exact Nat.lt_succ_self _

theorem sample_map_reachable : Reachable less sample_map :=
  insert_seq_reachable
    [(50, 0), (20, 0), (60, 0), (10, 0), (30, 0), (70, 0), (5, 0), (40, 0)]
    (map.new 0) sample_map 100 (Reachable.empty_map 0)
    (by intro a ha; simp [map.new, Tree.addrs] at ha) (by decide)

theorem leaning_map_reachable : Reachable less leaning_map := by
  have h := Reachable.by_erase ⟨0, some 105⟩ 200 sample_map_reachable (by decide) (by decide)
  have e : (erase sample_map ⟨0, some 105⟩ 200).1 = leaning_map := by decide
  rw [e] at h
  exact h

theorem reachable_ordered_witness :
    Reachable less leaning_map ∧
      (Ordered less leaning_map.root ∧ Increasing less leaning_map.root.toList ∧
        leaning_map.root.toList.Pairwise (fun x y => ¬ Equiv less x.1 y.1)) :=
  ⟨leaning_map_reachable, reachable_ordered less_strictWeakOrder leaning_map leaning_map_reachable⟩

theorem erase_removes_pair_witness :
    Reachable less leaning_map ∧ (erase leaning_map ⟨0, some 104⟩ 201).2 = .ok () ∧
      ∃ l1 l2, leaning_map.root.toList = l1 ++ (30, 0) :: l2 ∧
        (erase leaning_map ⟨0, some 104⟩ 201).1.root.toList = l1 ++ l2 ∧
        ∀ x ∈ l1 ++ l2, ¬ Equiv less x.1 30 :=
  have h := erase_removes_pair less_strictWeakOrder leaning_map ⟨0, some 104⟩ 201 30 0
    (by decide) rfl (by decide)
  ⟨leaning_map_reachable, h.1 leaning_map_reachable, h.2.2 (h.1 leaning_map_reachable)⟩

theorem insert_absent_spec_witness :
    Reachable less leaning_map ∧
      ∃ r, insert less leaning_map (45, 7) 201 = .ok r ∧
        r.2.2 = true ∧ r.2.1.this_map = r.1.self ∧ r.2.1.deref r.1 = .ok (45, 7) ∧
        ∃ l1 l2, leaning_map.root.toList = l1 ++ l2 ∧
          r.1.root.toList = l1 ++ (45, 7) :: l2 ∧
          (∀ x ∈ l1, less x.1 45 = true) ∧ (∀ x ∈ l2, less 45 x.1 = true) :=
  have h := insert_absent_spec less_strictWeakOrder leaning_map 45 7 201 (by decide)
    (by decide) (by decide)
  ⟨leaning_map_reachable, (h.1 leaning_map_reachable).elim fun r hr => ⟨r, hr, h.2.2 r hr⟩⟩

theorem index_spec_witness :
    Reachable less leaning_map ∧
      (∃ a, leaning_map.index less 40 201 = .ok (leaning_map, some a, 0)) ∧
      ∃ r, leaning_map.index less 45 201 = .ok r ∧
        r.1.size = leaning_map.size + 1 ∧ r.2.2 = default ∧
        node_value r.1.root r.2.1 = .ok (45, default) ∧
        ∃ l1 l2, leaning_map.root.toList = l1 ++ l2 ∧
          r.1.root.toList = l1 ++ (45, default) :: l2 ∧
          (∀ x ∈ l1, less x.1 45 = true) ∧ (∀ x ∈ l2, less 45 x.1 = true) :=
  have h40 := index_spec less_strictWeakOrder leaning_map 40 201 (by decide) (by decide)
  have h45 := index_spec less_strictWeakOrder leaning_map 45 201 (by decide) (by decide)
  ⟨leaning_map_reachable, h40.1 (40, 0) (by decide) (by decide),
    ((h45.2.1 (by decide)).1 leaning_map_reachable).elim
      fun r hr => ⟨r, hr, (h45.2.1 (by decide)).2.2 r hr⟩⟩

theorem toList_split {t : Tree K V} {l1 l2 : List (Nat × (K × V))} {p : Nat} {x : K × V}
    (h : t.entries = l1 ++ (p, x) :: l2) :
    t.toList = l1.map Prod.snd ++ x :: l2.map Prod.snd := by
  rw [toList_eq_entries, h]; simp

/-- C14 (`operator++` on reachable maps). Let the map be obtained from the
empty map by `insert`, mutable `operator[]` and `erase` calls. For an iterator
of the map positioned at an element `x` (any place `l1 ++ (p, x) :: l2` of the
in-order sequence of nodes): it dereferences to `x`; the prefix and the postfix
increment move it to the node that follows in order, which holds the least key
greater than that of `x` — or to `end()` when nothing follows, and then no
stored key is greater. Starting from `begin()`, `n` increments reach the `n`-th
element of the in-order sequence (so each element is visited once, in
increasing key order), never `end()` before, and `size()` increments reach
`end()`; `size()` is the length of the sequence. -/
theorem increment_spec [Inhabited V] {comp : K → K → Bool} (hc : StrictWeakOrder comp)
    (m : map K V) (hr : Reachable comp m) :
    (∀ l1 p x l2, m.root.entries = l1 ++ (p, x) :: l2 →
      (⟨m.self, some p⟩ : iterator).deref m = .ok x ∧
      iterator.pre_incr m ⟨m.self, some p⟩
        = (⟨m.self, l2.head?.map Prod.fst⟩, .ok ⟨m.self, l2.head?.map Prod.fst⟩) ∧
      iterator.post_incr m ⟨m.self, some p⟩
        = (⟨m.self, l2.head?.map Prod.fst⟩, .ok ⟨m.self, some p⟩) ∧
      (l2 = [] → (iterator.pre_incr m ⟨m.self, some p⟩).1 = m.end_ ∧
        ∀ z ∈ m.root.toList, comp x.1 z.1 = false) ∧
      (∀ q y l3, l2 = (q, y) :: l3 →
        (iterator.pre_incr m ⟨m.self, some p⟩).1 = ⟨m.self, some q⟩ ∧
        (⟨m.self, some q⟩ : iterator).deref m = .ok y ∧ comp x.1 y.1 = true ∧
        ∀ z ∈ m.root.toList, comp x.1 z.1 = true → z = y ∨ comp y.1 z.1 = true)) ∧
    (∀ n x, m.root.toList[n]? = some x →
      ∃ it, iterator.advance m m.begin n = .ok it ∧ it ≠ m.end_ ∧ it.deref m = .ok x) ∧
    iterator.advance m m.begin m.size = .ok m.end_ ∧
    m.size = m.root.toList.length := by
  obtain ⟨hord, hnd, hsz⟩ := reachable_inv hc hr
  have hinc := (ordered_iff_increasing hc m.root).1 hord
  have hlen : m.root.toList.length = m.root.entries.length := by
    rw [toList_eq_entries, List.length_map]
  refine ⟨?_, ?_, ?_, ?_⟩
  · intro l1 p x l2 h
    have hstep := pre_incr_spec hnd h
    have hnext := (next_prev_spec hnd h).1
    have hmem : (p, x) ∈ m.root.entries := by rw [h]; simp
    refine ⟨node_value_of_mem hnd hmem, hstep, ?_, ?_, ?_⟩
    · simp only [iterator.post_incr, hnext]
    · rintro rfl
      refine ⟨by rw [hstep]; rfl, ?_⟩
      have h2 := toList_split h
      simp only [List.map_nil] at h2
      exact increasing_last hc hinc h2
    · rintro q y l3 rfl
      have hmem2 : (q, y) ∈ m.root.entries := by rw [h]; simp
      have h2 := toList_split h
      simp only [List.map_cons] at h2
      obtain ⟨h3, h4⟩ := increasing_next hc hinc h2
      exact ⟨by rw [hstep]; rfl, node_value_of_mem hnd hmem2, h3, h4⟩
  · intro n x hx
    obtain ⟨p, hp⟩ := entries_getElem?_toList hx
    have hn : n < m.root.entries.length := by
      by_contra hcon
      rw [List.getElem?_eq_none (by omega)] at hp
      cases hp
    have hadv := advance_spec hnd n 0 (by omega)
    simp only [List.drop_zero, Nat.zero_add] at hadv
    rw [← begin_eq] at hadv
    have hd : m.root.entries.drop n = m.root.entries[n] :: m.root.entries.drop (n + 1) :=
      List.drop_eq_getElem_cons hn
    have hget : m.root.entries[n] = (p, x) := by
      rw [List.getElem?_eq_getElem hn] at hp
      exact Option.some.inj hp
    rw [hd, hget] at hadv
    refine ⟨_, hadv, ?_, ?_⟩
    · simp [map.end_]
    · simp only [List.head?_cons, Option.map_some']
      apply node_value_of_mem hnd
      rw [← hget]
      exact List.getElem_mem _
  · have hadv := advance_spec hnd m.root.entries.length 0 (by omega)
    simp only [List.drop_zero, Nat.zero_add, List.drop_length] at hadv
    rw [← begin_eq] at hadv
    rw [map.size, hsz, count_eq_length, hlen]
    exact hadv
  · rw [map.size, hsz, count_eq_length]

/-- C15 (prefix `operator--` on reachable maps). Let the map be obtained from
the empty map by `insert`, mutable `operator[]` and `erase` calls. If the map is
not empty, `--it` on `end()` moves to the last node in order, which holds the
maximum key, and `++it` from there returns to `end()`. For two neighbours
`(q, y)`, `(p, x)` of the in-order sequence, `--it` at `p` moves to `q`, which
holds the greatest key smaller than that of `x`, and `++it` at `q` moves to
`p`: each step undoes the other. -/
theorem decrement_spec [Inhabited V] {comp : K → K → Bool} (hc : StrictWeakOrder comp)
    (m : map K V) (hr : Reachable comp m) :
    (∀ l1 q y, m.root.entries = l1 ++ [(q, y)] →
      iterator.pre_decr m m.end_ = (⟨m.self, some q⟩, .ok ⟨m.self, some q⟩) ∧
      (⟨m.self, some q⟩ : iterator).deref m = .ok y ∧
      (∀ z ∈ m.root.toList, comp y.1 z.1 = false) ∧
      iterator.pre_incr m ⟨m.self, some q⟩ = (m.end_, .ok m.end_)) ∧
    (∀ l1 q y p x l2, m.root.entries = l1 ++ (q, y) :: (p, x) :: l2 →
      iterator.pre_decr m ⟨m.self, some p⟩ = (⟨m.self, some q⟩, .ok ⟨m.self, some q⟩) ∧
      iterator.pre_incr m ⟨m.self, some q⟩ = (⟨m.self, some p⟩, .ok ⟨m.self, some p⟩) ∧
      (⟨m.self, some q⟩ : iterator).deref m = .ok y ∧
      (⟨m.self, some p⟩ : iterator).deref m = .ok x ∧
      comp y.1 x.1 = true ∧
      ∀ z ∈ m.root.toList, comp z.1 x.1 = true → z = y ∨ comp z.1 y.1 = true) := by
  obtain ⟨hord, hnd, hsz⟩ := reachable_inv hc hr
  have hinc := (ordered_iff_increasing hc m.root).1 hord
  constructor
  · intro l1 q y h
    have hmem : (q, y) ∈ m.root.entries := by rw [h]; simp
    have h2 := toList_split h
    simp only [List.map_nil] at h2
    refine ⟨pre_decr_end_spec h, node_value_of_mem hnd hmem, increasing_last hc hinc h2, ?_⟩
    rw [pre_incr_spec hnd h]; rfl
  · intro l1 q y p x l2 h
    have hmq : (q, y) ∈ m.root.entries := by rw [h]; simp
    have hmp : (p, x) ∈ m.root.entries := by rw [h]; simp
    have h2 := toList_split h
    simp only [List.map_cons] at h2
    obtain ⟨h3, h4⟩ := increasing_prev hc hinc h2
    refine ⟨pre_decr_spec hnd h, ?_, node_value_of_mem hnd hmq, node_value_of_mem hnd hmp,
      h3, h4⟩
    rw [pre_incr_spec hnd h]; rfl

theorem increment_spec_witness :
    iterator.advance three_map three_map.begin three_map.size = .ok three_map.end_ ∧
      three_map.size = three_map.root.toList.length :=
  (increment_spec less_strictWeakOrder three_map three_map_reachable).2.2

theorem decrement_spec_witness :
    iterator.pre_decr three_map three_map.end_ = (⟨0, some 101⟩, .ok ⟨0, some 101⟩) ∧
    (⟨0, some 101⟩ : iterator).deref three_map = .ok (7, 0) ∧
    (∀ z ∈ three_map.root.toList, less (7, 0).1 z.1 = false) ∧
    iterator.pre_incr three_map ⟨0, some 101⟩ = (three_map.end_, .ok three_map.end_) :=
  (decrement_spec less_strictWeakOrder three_map three_map_reachable).1
    [(102, (3, 0)), (100, (5, 0))] 101 (7, 0) rfl

/-! ## Insertion of a sequence, and clear -/

theorem swo_asymm {comp : K → K → Bool} (hc : StrictWeakOrder comp) {a b : K}
    (h : comp a b = true) : comp b a = false := by
  cases hba : comp b a with
  | false => rfl
  | true =>
    have := hc.trans _ _ _ h hba
    rw [hc.irrefl] at this; cases this

theorem swo_lt_equiv {comp : K → K → Bool} (hc : StrictWeakOrder comp) {a b c : K}
    (h : comp a b = true) (he : Equiv comp b c) : comp a c = true := by
  cases hac : comp a c with
  | true => rfl
  | false =>
    cases hca : comp c a with
    | true =>
      have := hc.trans _ _ _ hca h
      rw [he.2] at this; cases this
    | false =>
      have := hc.equiv_trans a c b ⟨hac, hca⟩ (equiv_symm he)
      rw [this.1] at h; cases h

theorem sorted_insert_absent {comp : K → K → Bool} (hc : StrictWeakOrder comp)
    {l1 l2 : List (K × V)} {x : K × V}
    (hl : ∀ y ∈ l1, comp y.1 x.1 = true) (hr : ∀ y ∈ l2, comp x.1 y.1 = true) :
    sorted_insert comp x (l1 ++ l2) = l1 ++ x :: l2 := by
  induction l1 with
  | nil =>
    cases l2 with
    | nil => rfl
    | cons z l2 => simp [sorted_insert, hr z (by simp)]
  | cons y l1 ih =>
    have h1 := hl y (by simp)
    have h2 := swo_asymm hc h1
    have e := ih (fun z hz => hl z (List.mem_cons_of_mem _ hz))
    simp only [List.cons_append, sorted_insert, h2, h1, Bool.false_eq_true, if_false, if_true]
    exact congrArg (List.cons y) e

theorem sorted_insert_present {comp : K → K → Bool} (hc : StrictWeakOrder comp)
    {L : List (K × V)} {x y : K × V} (hinc : Increasing comp L) (hy : y ∈ L)
    (he : Equiv comp y.1 x.1) : sorted_insert comp x L = L := by
  induction L with
  | nil => simp at hy
  | cons z L ih =>
    simp only [Increasing, List.pairwise_cons] at hinc
    rcases List.mem_cons.1 hy with rfl | hy
    · simp [sorted_insert, he.1, he.2]
    · have hzy := hinc.1 y hy
      have hzx := swo_lt_equiv hc hzy he
      simp only [sorted_insert, swo_asymm hc hzx, hzx, Bool.false_eq_true, if_false, if_true]
      rw [ih hinc.2 hy]

theorem insert_toList_sorted {comp : K → K → Bool} (hc : StrictWeakOrder comp)
    {m : map K V} {value : K × V} {fresh : Nat} {r : map K V × iterator × Bool}
    (hord : Ordered comp m.root) (h : insert comp m value fresh = .ok r) :
    r.1.root.toList = sorted_insert comp value m.root.toList := by
  cases hs : search_node comp m.root value.1 with
  | node a l rr hh v =>
    rw [insert_present_eq comp m value fresh hs] at h
    cases h
    obtain ⟨he, hmem⟩ := search_node_sound hs
    exact (sorted_insert_present hc ((ordered_iff_increasing hc m.root).1 hord)
      (mem_toList_of_mem_entries hmem) (equiv_symm he)).symm
  | nil =>
    obtain ⟨l1, l2, h1, h2, h3⟩ := insert_toList hs h
    obtain ⟨hb, ha⟩ := h3 hc hord
    rw [h2, h1, sorted_insert_absent hc hb ha]

theorem insert_avl {comp : K → K → Bool} (m : map K V) (value : K × V) (fresh : Nat)
    (h : Avl m.root) : ∃ r, insert comp m value fresh = .ok r ∧ Avl r.1.root := by
  cases hs : search_node comp m.root value.1 with
  | node a l r hh v => exact ⟨_, insert_present_eq comp m value fresh hs, h⟩
  | nil =>
    rw [insert_absent_eq comp m value fresh hs]
    obtain ⟨⟨m1, res⟩, hr, havl⟩ := insert_helper_avl comp m value fresh h
    rw [hr]
    exact ⟨_, rfl, havl⟩

theorem insert_seq_toList {comp : K → K → Bool} (hc : StrictWeakOrder comp)
    (l : List (K × V)) (m : map K V) (base : Nat)
    (havl : Avl m.root) (hord : Ordered comp m.root) :
    ∃ m', insert_seq comp m l base = .ok m' ∧
      m'.root.toList = l.foldl (fun acc x => sorted_insert comp x acc) m.root.toList ∧
      Ordered comp m'.root ∧ Avl m'.root ∧ m'.self = m.self := by
  induction l generalizing m base with
  | nil => exact ⟨m, rfl, rfl, hord, havl, rfl⟩
  | cons value l ih =>
    obtain ⟨⟨m1, it, b⟩, hr, havl1⟩ := @insert_avl K V comp m value base havl
    have hord1 := insert_ordered hc hord hr
    have ht := insert_toList_sorted hc hord hr
    have hself : m1.self = m.self := by
      cases hs : search_node comp m.root value.1 with
      | node a l rr hh v =>
        rw [insert_present_eq comp m value base hs] at hr
        cases hr; rfl
      | nil => exact (insert_absent_entries hs hr).2.2.1
    obtain ⟨m', h1, h2, h3, h4, h5⟩ := ih m1 (base + 1) havl1 hord1
    refine ⟨m', ?_, ?_, h3, h4, by rw [h5, hself]⟩
    · simp only [insert_seq, hr]; exact h1
    · rw [h2]; simp only at ht; rw [ht]; rfl

theorem mem_sorted_insert {comp : K → K → Bool} {a : K × V} {acc : List (K × V)}
    (hno : ∀ y ∈ acc, ¬ Equiv comp y.1 a.1) (x : K × V) :
    x ∈ sorted_insert comp a acc ↔ x = a ∨ x ∈ acc := by
  induction acc with
  | nil => simp [sorted_insert]
  | cons y ys ih =>
    have hy := hno y (by simp)
    simp only [sorted_insert]
    split
    · simp
    · rename_i h1
      split
      · simp only [List.mem_cons]
        rw [ih (fun z hz => hno z (List.mem_cons_of_mem _ hz))]
        tauto
      · rename_i h2
        exact absurd ⟨by simpa using h2, by simpa using h1⟩ hy

theorem sorted_insert_increasing {comp : K → K → Bool} (hc : StrictWeakOrder comp)
    {a : K × V} {acc : List (K × V)} (hinc : Increasing comp acc) :
    Increasing comp (sorted_insert comp a acc) := by
  by_cases hex : ∃ y ∈ acc, Equiv comp y.1 a.1
  · obtain ⟨y, hy, he⟩ := hex
    rw [sorted_insert_present hc hinc hy he]; exact hinc
  · simp only [not_exists, not_and] at hex
    induction acc with
    | nil => simp [sorted_insert, Increasing]
    | cons y ys ih =>
      have hy := hex y (by simp)
      have hinc' := hinc
      simp only [Increasing, List.pairwise_cons] at hinc
      simp only [sorted_insert]
      split
      · rename_i h1
        simp only [Increasing, List.pairwise_cons, List.mem_cons]
        refine ⟨?_, hinc⟩
        rintro z (rfl | hz)
        · exact h1
        · exact hc.trans _ _ _ h1 (hinc.1 z hz)
      · rename_i h1
        split
        · rename_i h2
          have hno : ∀ z ∈ ys, ¬ Equiv comp z.1 a.1 :=
            fun z hz => hex z (List.mem_cons_of_mem _ hz)
          simp only [Increasing, List.pairwise_cons]
          refine ⟨?_, ih hinc.2 hno⟩
          intro z hz
          rcases (mem_sorted_insert hno z).1 hz with rfl | hz
          · exact h2
          · exact hinc.1 z hz
        · exact hinc'

theorem mem_fold_sorted_insert {comp : K → K → Bool} (hc : StrictWeakOrder comp)
    (l : List (K × V)) (acc : List (K × V)) (hinc : Increasing comp acc) (x : K × V) :
    x ∈ l.foldl (fun acc a => sorted_insert comp a acc) acc ↔
      x ∈ acc ∨ ((∀ y ∈ acc, ¬ Equiv comp y.1 x.1) ∧
        l.find? (fun z => decide (Equiv comp z.1 x.1)) = some x) := by
  induction l generalizing acc with
  | nil => simp
  | cons a l ih =>
    simp only [List.foldl_cons]
    rw [ih _ (sorted_insert_increasing hc hinc)]
    by_cases hex : ∃ y ∈ acc, Equiv comp y.1 a.1
    · obtain ⟨y0, hy0, he0⟩ := hex
      rw [sorted_insert_present hc hinc hy0 he0]
      constructor
      · rintro (h | ⟨h1, h2⟩)
        · exact Or.inl h
        · refine Or.inr ⟨h1, ?_⟩
          have hax : ¬ Equiv comp a.1 x.1 := fun hax =>
            h1 y0 hy0 (hc.equiv_trans _ _ _ he0 hax)
          simp only [List.find?_cons, hax, decide_False]
          exact h2
      · rintro (h | ⟨h1, h2⟩)
        · exact Or.inl h
        · refine Or.inr ⟨h1, ?_⟩
          have hax : ¬ Equiv comp a.1 x.1 := fun hax =>
            h1 y0 hy0 (hc.equiv_trans _ _ _ he0 hax)
          simpa only [List.find?_cons, hax, decide_False] using h2
    · simp only [not_exists, not_and] at hex
      have hmem := @mem_sorted_insert K V comp a acc hex
      constructor
      · rintro (h | ⟨h1, h2⟩)
        · rcases (hmem x).1 h with rfl | h
          · refine Or.inr ⟨hex, ?_⟩
            have : Equiv comp x.1 x.1 := ⟨hc.irrefl _, hc.irrefl _⟩
            simp [List.find?_cons, this]
          · exact Or.inl h
        · have hax : ¬ Equiv comp a.1 x.1 := h1 a ((hmem a).2 (Or.inl rfl))
          refine Or.inr ⟨fun y hy => h1 y ((hmem y).2 (Or.inr hy)), ?_⟩
          simp only [List.find?_cons, hax, decide_False]
          exact h2
      · rintro (h | ⟨h1, h2⟩)
        · exact Or.inl ((hmem x).2 (Or.inr h))
        · by_cases hax : Equiv comp a.1 x.1
          · simp only [List.find?_cons, hax, decide_True, Option.some.injEq] at h2
            exact Or.inl ((hmem x).2 (Or.inl h2.symm))
          · simp only [List.find?_cons, hax, decide_False] at h2
            refine Or.inr ⟨?_, h2⟩
            intro y hy
            rcases (hmem y).1 hy with rfl | hy
            · exact hax
            · exact h1 y hy

/-- C19 (inserting a sequence; `clear` and re-insertion). For every finite
sequence `l` of pairs inserted one by one with `insert` into an empty map, all
calls return normally and the in-order sequence of the result is `l` sorted by
key with, for each key, the pair of its first occurrence in `l`: it is the list
obtained by sorted insertion of the pairs one by one, it is strictly
increasing, and a pair belongs to it exactly when it is the first pair of `l`
with a key equivalent to its own. `clear()` on any map leaves size 0, no root
and `begin() == end()`, and inserting `l` again after `clear()` gives the same
in-order sequence of pairs. -/
theorem insert_seq_spec {comp : K → K → Bool} (hc : StrictWeakOrder comp)
    (l : List (K × V)) (self base : Nat) :
    ∃ m, insert_seq comp (map.new self) l base = .ok m ∧
      m.root.toList = sorted_first comp l ∧
      Increasing comp m.root.toList ∧
      (∀ x, x ∈ m.root.toList ↔
        l.find? (fun z => decide (Equiv comp z.1 x.1)) = some x) ∧
      ∀ (m0 : map K V) (base' : Nat),
        m0.clear.size = 0 ∧ m0.clear.root = .nil ∧ m0.clear.begin = m0.clear.end_ ∧
        ∃ m', insert_seq comp m0.clear l base' = .ok m' ∧
          m'.root.toList = m.root.toList := by
  obtain ⟨m, h1, h2, h3, -, -⟩ :=
    insert_seq_toList hc l (map.new self) base avl_nil trivial
  have h2' : m.root.toList = sorted_first comp l := h2
  refine ⟨m, h1, h2', (ordered_iff_increasing hc m.root).1 h3, ?_, ?_⟩
  · intro x
    rw [h2', sorted_first,
      mem_fold_sorted_insert hc l [] (by simp [Increasing]) x]
    simp
  · intro m0 base'
    refine ⟨rfl, rfl, rfl, ?_⟩
    obtain ⟨m', g1, g2, -, -, -⟩ :=
      insert_seq_toList hc l m0.clear base' avl_nil trivial
    exact ⟨m', g1, by rw [g2, h2']; rfl⟩

theorem insert_seq_spec_witness :
    ∃ m, insert_seq less (map.new 0) [(2, 10), (1, 20), (2, 30), (3, 40)] 100 = .ok m ∧
      m.root.toList = sorted_first less [(2, 10), (1, 20), (2, 30), (3, 40)] ∧
      Increasing less m.root.toList ∧
      (∀ x, x ∈ m.root.toList ↔
        [(2, 10), (1, 20), (2, 30), (3, 40)].find?
          (fun z => decide (Equiv less z.1 x.1)) = some x) ∧
      ∀ (m0 : map Nat Nat) (base' : Nat),
        m0.clear.size = 0 ∧ m0.clear.root = .nil ∧ m0.clear.begin = m0.clear.end_ ∧
        ∃ m', insert_seq less m0.clear [(2, 10), (1, 20), (2, 30), (3, 40)] base' = .ok m' ∧
          m'.root.toList = m.root.toList :=
  insert_seq_spec less_strictWeakOrder [(2, 10), (1, 20), (2, 30), (3, 40)] 0 100

/-! ## The restructuring step on a tie -/

/-- C25 (`map::rotate` when the taller child has children of equal height).
For the node 50 of `tie_node` the child heights are 3 and 1, both subtrees are
balanced with correct stored heights, the taller child is the left child 20,
and its children 10 and 30 both have height 2, so `taller_child` returns the
right one, 30. `rotate` returns `tie_result`: root 30, whose left child 20 has
a left subtree of height 2 and no right subtree. The result has correct stored
heights and is not balanced. -/
theorem rotate_tie_breaks_balance :
    tie_left.height - (Tree.node 102 .nil .nil 1 (60, 0) : Tree Nat Nat).height = 2 ∧
    Avl tie_left ∧ Avl (Tree.node 102 .nil .nil 1 (60, 0) : Tree Nat Nat) ∧
    Ordered less tie_node ∧
    taller_child tie_node = tie_left ∧
    taller_child tie_left = .node 104 .nil (.node 107 .nil .nil 1 (40, 0)) 2 (30, 0) ∧
    (Tree.node 103 (.node 106 .nil .nil 1 (5, 0)) .nil 2 (10, 0) : Tree Nat Nat).height
      = (Tree.node 104 .nil (.node 107 .nil .nil 1 (40, 0)) 2 (30, 0) : Tree Nat Nat).height ∧
    rotate tie_node = .ok tie_result ∧
    HeightsOk tie_result ∧ ¬ Balanced tie_result := by
  refine ⟨by decide, ⟨by decide, by decide⟩, ⟨by decide, by decide⟩, by decide, by decide,
    by decide, by decide, by decide, by decide, by decide⟩

/-! ## The deque -/

theorem deque_chain_length (d : deque T) : d.chain_addrs.length = d.nodes.length + 2 := by
  simp [deque.chain_addrs]

theorem deque_addr_at_zero (d : deque T) : d.addr_at 0 = d.dummy_head := rfl

theorem deque_addr_at_node (d : deque T) {i : Nat} (h : i < d.nodes.length) :
    d.addr_at (i + 1) = (d.nodes[i]).1 := by
  simp [deque.addr_at, deque.chain_addrs, List.getD_eq_getElem?_getD, List.getElem?_append_left, h]

theorem deque_addr_at_tail (d : deque T) : d.addr_at (d.nodes.length + 1) = d.dummy_tail := by
  simp [deque.addr_at, deque.chain_addrs, List.getD_eq_getElem?_getD]

theorem deque_position_addr_at {d : deque T} (hwf : d.WF) {k : Nat}
    (hk : k < d.chain_addrs.length) : d.position (d.addr_at k) = some k := by
  have h1 : d.addr_at k = d.chain_addrs[k] := by
    simp [deque.addr_at, List.getD_eq_getElem?_getD, List.getElem?_eq_getElem hk]
  have h2 : d.chain_addrs.indexOf (d.addr_at k) = k := by
    rw [h1]; exact List.indexOf_getElem hwf.1 k hk
  simp [deque.position, h2, hk]

theorem deque_object_at_node (d : deque T) {i : Nat} {v : T}
    (h : d.elements[i]? = some v) : d.object_at (i + 1) = some v := by
  simp only [deque.object_at, List.get?_eq_getElem?]
  simpa [deque.elements] using h

theorem deque_iter_at_end {d : deque T} (hwf : d.WF) : d.iter_at d.size = d.end_ := by
  simp only [deque.iter_at, deque.end_, deque.size, hwf.2, deque_addr_at_tail]

theorem deque_position_head {d : deque T} (hwf : d.WF) : d.position d.dummy_head = some 0 := by
  have := deque_position_addr_at hwf (k := 0) (by rw [deque_chain_length]; omega)
  rwa [deque_addr_at_zero] at this

theorem deque_position_tail {d : deque T} (hwf : d.WF) :
    d.position d.dummy_tail = some (d.nodes.length + 1) := by
  have := deque_position_addr_at hwf (k := d.nodes.length + 1)
    (by rw [deque_chain_length]; omega)
  rwa [deque_addr_at_tail] at this

theorem deque_map_eraseIdx (l : List (Nat × T)) (i : Nat) :
    (l.eraseIdx i).map Prod.fst = (l.map Prod.fst).eraseIdx i := by
  induction l generalizing i with
  | nil => rfl
  | cons x l ih => cases i <;> simp [ih]

theorem deque_map_snd_eraseIdx (l : List (Nat × T)) (i : Nat) :
    (l.eraseIdx i).map Prod.snd = (l.map Prod.snd).eraseIdx i := by
  induction l generalizing i with
  | nil => rfl
  | cons x l ih => cases i <;> simp [ih]

theorem deque_plus_int_min (d : deque T) (it : deque.iterator) :
    ∀ fuel, deque.iterator.plus d fuel it (-2 ^ 31) = none ∧
      deque.iterator.minus d fuel it (-2 ^ 31) = none := by
  have e : to_int (-(-2 ^ 31)) = -2 ^ 31 := by simp only [to_int]; omega
  intro fuel
  induction fuel with
  | zero => exact ⟨rfl, rfl⟩
  | succ k ih =>
    simp only [deque.iterator.plus, deque.iterator.minus]
    rw [if_pos (by omega), if_pos (by omega), e]
    exact ⟨ih.2, ih.1⟩

theorem deque_insert_wf {d : deque T} (hwf : d.WF) {i : Nat} (hi : i ≤ d.nodes.length)
    (v : T) {fresh : Nat} (hf : fresh ∉ d.chain_addrs) :
    (⟨d.self, d.curr_size + 1, d.dummy_head, d.dummy_tail,
      d.nodes.take i ++ (fresh, v) :: d.nodes.drop i⟩ : deque T).WF := by
  refine ⟨?_, ?_⟩
  · have hp : (⟨d.self, d.curr_size + 1, d.dummy_head, d.dummy_tail,
        d.nodes.take i ++ (fresh, v) :: d.nodes.drop i⟩ : deque T).chain_addrs
        = (d.dummy_head :: (d.nodes.take i).map Prod.fst)
          ++ fresh :: ((d.nodes.drop i).map Prod.fst ++ [d.dummy_tail]) := by
      simp [deque.chain_addrs]
    have hq : d.chain_addrs = (d.dummy_head :: (d.nodes.take i).map Prod.fst)
          ++ ((d.nodes.drop i).map Prod.fst ++ [d.dummy_tail]) := by
      simp only [deque.chain_addrs, List.cons_append, ← List.append_assoc, ← List.map_append,
        List.take_append_drop]
    rw [hp, List.perm_middle.nodup_iff, List.nodup_cons, ← hq]
    exact ⟨hf, hwf.1⟩
  · simp only [List.length_append, List.length_cons, List.length_take, List.length_drop, hwf.2]
    omega

/-- C22 (`deque::insert`). For a well-formed deque `d`, the iterator of `d` at
index `i <= size()` (`i = size()` is `end()`), a value `v` and a new address:
`insert` returns normally, the elements are the old ones with `v` put at index
`i` (before the element `pos` was at, the others in their order), `size()` has
grown by one, and the iterator returned is the one at index `i` of the new
deque and dereferences to `v`. For an iterator of another deque, `insert` fails
with `invalid_iterator` and the deque is the one given. -/
theorem deque_insert_spec (d : deque T) (hwf : d.WF) (i : Nat) (hi : i ≤ d.size) (v : T)
    (fresh : Nat) (hf : fresh ∉ d.chain_addrs) :
    (d.insert (d.iter_at i) v fresh).2 = .ok ⟨d.self, fresh⟩ ∧
    (d.insert (d.iter_at i) v fresh).1.elements
      = d.elements.take i ++ v :: d.elements.drop i ∧
    (d.insert (d.iter_at i) v fresh).1.size = d.size + 1 ∧
    (d.insert (d.iter_at i) v fresh).1.iter_at i = ⟨d.self, fresh⟩ ∧
    deque.iterator.deref (d.insert (d.iter_at i) v fresh).1 ⟨d.self, fresh⟩ = .ok v ∧
    (∀ pos : deque.iterator, pos.dq ≠ d.self →
      d.insert pos v fresh = (d, .error .invalid_iterator)) := by
  have hlen := deque_chain_length d
  simp only [deque.size, hwf.2] at hi
  have hpos := deque_position_addr_at hwf (k := i + 1) (by omega)
  have hne : d.addr_at (i + 1) ≠ d.dummy_head := by
    intro heq
    rw [heq, deque_position_head hwf] at hpos
    cases hpos
  have hins : d.insert (d.iter_at i) v fresh =
      (⟨d.self, d.curr_size + 1, d.dummy_head, d.dummy_tail,
          d.nodes.take i ++ (fresh, v) :: d.nodes.drop i⟩, .ok ⟨d.self, fresh⟩) := by
    simp only [deque.insert, deque.iter_at, ne_eq, not_true_eq_false, false_or, hne,
      if_false, hpos]
  have hwf' := deque_insert_wf hwf hi v hf
  have haddr : (⟨d.self, d.curr_size + 1, d.dummy_head, d.dummy_tail,
      d.nodes.take i ++ (fresh, v) :: d.nodes.drop i⟩ : deque T).addr_at (i + 1) = fresh := by
    rw [deque_addr_at_node]
    · simp [List.getElem_append_right, List.length_take, Nat.min_eq_left hi]
    · simp only [List.length_append, List.length_cons, List.length_take, List.length_drop]
      omega
  rw [hins]
  refine ⟨rfl, ?_, rfl, ?_, ?_, ?_⟩
  · simp [deque.elements, List.map_take, List.map_drop]
  · simp only [deque.iter_at, haddr]
  · have hp' := deque_position_addr_at hwf' (k := i + 1) (by
      rw [deque_chain_length]
      simp only [List.length_append, List.length_cons, List.length_take, List.length_drop]
      omega)
    rw [haddr] at hp'
    simp only [deque.iterator.deref, hp', deque.object_at, List.get?_eq_getElem?]
    have : (d.nodes.take i ++ (fresh, v) :: d.nodes.drop i)[i]? = some (fresh, v) := by
      rw [List.getElem?_append_right (by simp [List.length_take, Nat.min_eq_left hi])]
      simp [List.length_take, Nat.min_eq_left hi]
    simp [this]
  · intro pos hp
    simp [deque.insert, hp]

theorem deque_erase_wf {d : deque T} (hwf : d.WF) {i : Nat} (hi : i < d.nodes.length) :
    (⟨d.self, d.curr_size - 1, d.dummy_head, d.dummy_tail, d.nodes.eraseIdx i⟩ : deque T).WF := by
  refine ⟨?_, ?_⟩
  · have hp : (⟨d.self, d.curr_size - 1, d.dummy_head, d.dummy_tail,
        d.nodes.eraseIdx i⟩ : deque T).chain_addrs = d.chain_addrs.eraseIdx (i + 1) := by
      simp only [deque.chain_addrs, List.eraseIdx_cons_succ, deque_map_eraseIdx]
      rw [List.eraseIdx_append_of_lt_length (by simpa using hi)]
    rw [hp]
    exact hwf.1.sublist (List.eraseIdx_sublist _ _)
  · simp only [List.length_eraseIdx, hi, if_true, hwf.2]

theorem deque_addr_at_eraseIdx (d : deque T) {i : Nat} (hi : i < d.nodes.length) :
    (⟨d.self, d.curr_size - 1, d.dummy_head, d.dummy_tail, d.nodes.eraseIdx i⟩ : deque T).addr_at
      (i + 1) = d.addr_at (i + 2) := by
  simp only [deque.addr_at, deque.chain_addrs, List.getD_eq_getElem?_getD,
    List.getElem?_cons_succ, deque_map_eraseIdx]
  rw [← List.eraseIdx_append_of_lt_length (by simpa using hi),
    List.getElem?_eraseIdx_of_ge _ _ _ (Nat.le_refl i)]

/-- C23 (`deque::erase`). For a well-formed deque `d`: if `d` is empty, or the
iterator belongs to another deque, or it equals `end()`, then `erase` fails with
`invalid_iterator` and the deque is the one given. For the iterator at index
`i < size()`, `erase` returns normally, the elements are the old ones without
the `i`-th, `size()` has dropped by one, and the iterator returned is the one at
index `i` of the new deque: it dereferences to the element that followed, and
it is `end()` when the erased element was the last. -/
theorem deque_erase_spec (d : deque T) (hwf : d.WF) :
    (∀ pos : deque.iterator, (d.size = 0 ∨ pos.dq ≠ d.self ∨ pos = d.end_) →
      d.erase pos = (d, .error .invalid_iterator)) ∧
    (∀ i, i < d.size →
      (d.erase (d.iter_at i)).2 = .ok ((d.erase (d.iter_at i)).1.iter_at i) ∧
      (d.erase (d.iter_at i)).1.elements = d.elements.eraseIdx i ∧
      (d.erase (d.iter_at i)).1.size + 1 = d.size ∧
      (i + 1 = d.size → (d.erase (d.iter_at i)).2 = .ok (d.erase (d.iter_at i)).1.end_) ∧
      (∀ w, d.elements[i + 1]? = some w →
        deque.iterator.deref (d.erase (d.iter_at i)).1
          ((d.erase (d.iter_at i)).1.iter_at i) = .ok w)) := by
  constructor
  · rintro ⟨pq, pp⟩ (h | h | h)
    · simp only [deque.size] at h
      simp [deque.erase, h]
    · simp only at h
      simp [deque.erase, h]
    · simp only [deque.end_, deque.iterator.mk.injEq] at h
      simp [deque.erase, h.2]
  · intro i hi
    simp only [deque.size, hwf.2] at hi
    have hlen := deque_chain_length d
    have hpos := deque_position_addr_at hwf (k := i + 1) (by omega)
    have hne : d.addr_at (i + 1) ≠ d.dummy_tail := by
      intro heq
      rw [heq, deque_position_tail hwf] at hpos
      simp only [Option.some.injEq] at hpos
      omega
    have hsz : d.curr_size ≠ 0 := by rw [hwf.2]; omega
    have her : d.erase (d.iter_at i) =
        (⟨d.self, d.curr_size - 1, d.dummy_head, d.dummy_tail, d.nodes.eraseIdx i⟩,
          .ok ⟨d.self, d.addr_at (i + 2)⟩) := by
      simp only [deque.erase, deque.iter_at, hsz, ne_eq, not_true_eq_false, hne, or_self,
        if_false, hpos, hi, if_true]
    have hwf' := deque_erase_wf hwf hi
    have hit := deque_addr_at_eraseIdx d hi
    rw [her]
    refine ⟨?_, ?_, ?_, ?_, ?_⟩
    · simp only [deque.iter_at, hit]
    · simp [deque.elements, deque_map_snd_eraseIdx]
    · simp only [deque.size, hwf.2]; omega
    · intro hl
      simp only [deque.size, hwf.2] at hl
      simp only [deque.end_]
      have : i + 2 = d.nodes.length + 1 := by omega
      rw [this, deque_addr_at_tail]
    · intro w hw
      have hi2 : i + 1 < d.nodes.length := by
        have := (List.getElem?_eq_some_iff.1 hw).1
        simpa [deque.elements] using this
      have hp' := deque_position_addr_at hwf' (k := i + 1) (by
        rw [deque_chain_length]
        simp only [List.length_eraseIdx, hi, if_true]
        omega)
      simp only [deque.iter_at, deque.iterator.deref, hp']
      have hel : (⟨d.self, d.curr_size - 1, d.dummy_head, d.dummy_tail,
          d.nodes.eraseIdx i⟩ : deque T).elements[i]? = some w := by
        simp only [deque.elements, deque_map_snd_eraseIdx]
        rw [List.getElem?_eraseIdx_of_ge _ _ _ (Nat.le_refl i)]
        exact hw
      rw [deque_object_at_node _ hel]

theorem deque_insert_spec_witness :
    (sample_deque.insert (sample_deque.iter_at 1) 99 8).2 = .ok ⟨sample_deque.self, 8⟩ ∧
    (sample_deque.insert (sample_deque.iter_at 1) 99 8).1.elements
      = sample_deque.elements.take 1 ++ 99 :: sample_deque.elements.drop 1 ∧
    (sample_deque.insert (sample_deque.iter_at 1) 99 8).1.size = sample_deque.size + 1 ∧
    (sample_deque.insert (sample_deque.iter_at 1) 99 8).1.iter_at 1
      = ⟨sample_deque.self, 8⟩ ∧
    deque.iterator.deref (sample_deque.insert (sample_deque.iter_at 1) 99 8).1
      ⟨sample_deque.self, 8⟩ = .ok 99 ∧
    (∀ pos : deque.iterator, pos.dq ≠ sample_deque.self →
      sample_deque.insert pos 99 8 = (sample_deque, .error .invalid_iterator)) :=
  deque_insert_spec sample_deque (by decide) 1 (by decide) 99 8 (by decide)

theorem deque_erase_spec_witness :
    (sample_deque.erase (sample_deque.iter_at 1)).2
      = .ok ((sample_deque.erase (sample_deque.iter_at 1)).1.iter_at 1) ∧
    (sample_deque.erase (sample_deque.iter_at 1)).1.elements = [10, 30] :=
  ⟨(((deque_erase_spec sample_deque (by decide)).2 1 (by decide)).1),
    (((deque_erase_spec sample_deque (by decide)).2 1 (by decide)).2.1)⟩

namespace linked

theorem parentsOk_set_parent {p : Option Nat} {t : PTree K V} (q : Option Nat)
    (h : ParentsOk p t) : ParentsOk q (t.set_parent q) := by
  cases t with
  | nil => trivial
  | node a l r par ht v => exact ⟨rfl, h.2.1, h.2.2⟩

theorem parentsOk_plug (f : PFrame K V) (sub : PTree K V) (ctx : List (PFrame K V))
    (top : Option Nat) :
    (ParentsOk (hole_parent top ctx) (f.plug sub) ∧ CtxParentsOk top ctx) ↔
      (ParentsOk (some f.addr) sub ∧ CtxParentsOk top (f :: ctx)) := by
  cases f <;> simp only [PFrame.plug, ParentsOk, CtxParentsOk, PFrame.addr] <;> tauto

theorem parentsOk_rebuild (top : Option Nat) (ctx : List (PFrame K V)) :
    ∀ sub : PTree K V, ParentsOk top (rebuild sub ctx) ↔
      (ParentsOk (hole_parent top ctx) sub ∧ CtxParentsOk top ctx) := by
  induction ctx with
  | nil => intro sub; simp [rebuild, hole_parent, CtxParentsOk]
  | cons f ctx ih =>
    intro sub
    rw [rebuild, ih, parentsOk_plug]
    rfl

theorem parentsOk_connect34 (a : Nat × (K × V)) (b : Nat × Option Nat × (K × V))
    (c : Nat × (K × V)) {t1 t2 t3 t4 : PTree K V} {p1 p2 p3 p4 : Option Nat}
    (h1 : ParentsOk p1 t1) (h2 : ParentsOk p2 t2) (h3 : ParentsOk p3 t3)
    (h4 : ParentsOk p4 t4) (q : Option Nat) :
    ParentsOk q ((connect34 a b c t1 t2 t3 t4).set_parent q) :=
  ⟨rfl, ⟨rfl, parentsOk_set_parent _ h1, parentsOk_set_parent _ h2⟩,
    ⟨rfl, parentsOk_set_parent _ h3, parentsOk_set_parent _ h4⟩⟩

theorem parentsOk_rotate {t r : PTree K V} {p : Option Nat} (ht : ParentsOk p t)
    (h : rotate t = .ok r) (q : Option Nat) : ParentsOk q (r.set_parent q) := by
  cases t with
  | nil => simp [rotate] at h
  | node pa pl pr pp ph pv =>
    obtain ⟨-, hl, hr⟩ := ht
    simp only [rotate] at h
    split at h
    · cases pl with
      | nil => simp at h
      | node ca cl cr cp ch cv =>
        obtain ⟨-, hcl, hcr⟩ := hl
        simp only at h
        split at h
        · cases cl with
          | nil => simp at h
          | node ga gl gr gp gh gv =>
            obtain ⟨-, hgl, hgr⟩ := hcl
            simp only at h
            split at h
            · simp only [Except.ok.injEq] at h
              rw [← h]
              exact parentsOk_connect34 _ _ _ hgl hgr hcr hr q
            · simp at h
        · cases cr with
          | nil => simp at h
          | node ga gl gr gp gh gv =>
            obtain ⟨-, hgl, hgr⟩ := hcr
            simp only at h
            split at h
            · simp only [Except.ok.injEq] at h
              rw [← h]
              exact parentsOk_connect34 _ _ _ hcl hgl hgr hr q
            · simp at h
    · cases pr with
      | nil => simp at h
      | node ca cl cr cp ch cv =>
        obtain ⟨-, hcl, hcr⟩ := hr
        simp only at h
        split at h
        · cases cl with
          | nil => simp at h
          | node ga gl gr gp gh gv =>
            obtain ⟨-, hgl, hgr⟩ := hcl
            simp only at h
            split at h
            · simp only [Except.ok.injEq] at h
              rw [← h]
              exact parentsOk_connect34 _ _ _ hl hgl hgr hcr q
            · simp at h
        · cases cr with
          | nil => simp at h
          | node ga gl gr gp gh gv =>
            obtain ⟨-, hgl, hgr⟩ := hcr
            simp only at h
            split at h
            · simp only [Except.ok.injEq] at h
              rw [← h]
              exact parentsOk_connect34 _ _ _ hl hcl hgl hgr q
            · simp at h

theorem parentsOk_height {p : Option Nat} {a : Nat} {l r : PTree K V} {par : Option Nat}
    {h : Int} {v : K × V} (h' : Int) (ht : ParentsOk p (.node a l r par h v)) :
    ParentsOk p (.node a l r par h' v) := ht

theorem parentsOk_insert_walk (top : Option Nat) (ctx : List (PFrame K V)) :
    ∀ (sub t : PTree K V), ParentsOk (hole_parent top ctx) sub → CtxParentsOk top ctx →
      insert_walk sub ctx = .ok t → ParentsOk top t := by
  induction ctx with
  | nil =>
    intro sub t hs _ h
    simp only [insert_walk, Except.ok.injEq] at h
    rw [← h]; exact hs
  | cons f ctx ih =>
    intro sub t hs hc h
    have hp := (parentsOk_plug f sub ctx top).2 ⟨hs, hc⟩
    simp only [insert_walk] at h
    generalize f.plug sub = n at h hp
    cases n with
    | nil => simp at h
    | node a l r p ht v =>
      simp only at h
      split at h
      · simp only [Except.ok.injEq] at h
        rw [← h]
        exact (parentsOk_rebuild top ctx _).2 hp
      · split at h
        · split at h
          · split at h
            · simp at h
            · rename_i r' hr
              simp only [Except.ok.injEq] at h
              rw [← h]
              refine (parentsOk_rebuild top ctx _).2 ⟨?_, hp.2⟩
              rw [← hp.1.1]
              exact parentsOk_rotate (parentsOk_height _ hp.1) hr p
          · simp at h
        · split at h
          · simp only [Except.ok.injEq] at h
            rw [← h]
            exact (parentsOk_rebuild top ctx _).2 ⟨parentsOk_height _ hp.1, hp.2⟩
          · split at h
            · exact ih _ t (parentsOk_height _ hp.1) hp.2 h
            · simp at h

theorem parentsOk_erase_walk (top : Option Nat) (ctx : List (PFrame K V)) :
    ∀ (sub t : PTree K V), ParentsOk (hole_parent top ctx) sub → CtxParentsOk top ctx →
      erase_walk sub ctx = .ok t → ParentsOk top t := by
  induction ctx with
  | nil =>
    intro sub t hs _ h
    simp only [erase_walk, Except.ok.injEq] at h
    rw [← h]; exact hs
  | cons f ctx ih =>
    intro sub t hs hc h
    have hp := (parentsOk_plug f sub ctx top).2 ⟨hs, hc⟩
    simp only [erase_walk] at h
    generalize f.plug sub = n at h hp
    cases n with
    | nil => simp at h
    | node a l r p ht v =>
      simp only at h
      split at h
      · split at h
        · split at h
          · simp at h
          · rename_i r' hr
            refine ih _ t ?_ hp.2 h
            rw [← hp.1.1]
            exact parentsOk_rotate (parentsOk_height _ hp.1) hr p
        · simp at h
      · split at h
        · simp only [Except.ok.injEq] at h
          rw [← h]
          exact (parentsOk_rebuild top ctx _).2 ⟨parentsOk_height _ hp.1, hp.2⟩
        · split at h
          · exact ih _ t (parentsOk_height _ hp.1) hp.2 h
          · simp at h

theorem parentsOk_search_node_hot (comp : K → K → Bool) (key : K) (top : Option Nat) :
    ∀ (t : PTree K V) (ctx : List (PFrame K V)),
      ParentsOk (hole_parent top ctx) t → CtxParentsOk top ctx →
      ParentsOk (hole_parent top (search_node_hot comp t key ctx).2)
          (search_node_hot comp t key ctx).1 ∧
        CtxParentsOk top (search_node_hot comp t key ctx).2 := by
  intro t
  induction t with
  | nil => intro ctx hs hc; exact ⟨trivial, hc⟩
  | node a l r p ht v ihl ihr =>
    intro ctx hs hc
    simp only [search_node_hot]
    split
    · exact ihl _ hs.2.1 ⟨hs.1, hs.2.2, hc⟩
    · split
      · exact ihr _ hs.2.2 ⟨hs.1, hs.2.1, hc⟩
      · exact ⟨hs, hc⟩

theorem parentsOk_locate (q : Nat) (top : Option Nat) :
    ∀ (t : PTree K V) (ctx : List (PFrame K V)) (z : PTree K V × List (PFrame K V)),
      ParentsOk (hole_parent top ctx) t → CtxParentsOk top ctx → locate t q ctx = some z →
      ParentsOk (hole_parent top z.2) z.1 ∧ CtxParentsOk top z.2 := by
  intro t
  induction t with
  | nil => intro ctx z _ _ h; simp [locate] at h
  | node a l r p ht v ihl ihr =>
    intro ctx z hs hc h
    simp only [locate] at h
    split at h
    · simp only [Option.some.injEq] at h
      rw [← h]; exact ⟨hs, hc⟩
    · split at h
      · rename_i z' hz
        simp only [Option.some.injEq] at h
        rw [← h]
        exact ihl (.inl a r p ht v :: ctx) _ hs.2.1 ⟨hs.1, hs.2.2, hc⟩ hz
      · exact ihr (.inr a l p ht v :: ctx) _ hs.2.2 ⟨hs.1, hs.2.1, hc⟩ h

theorem leftmost_append (d : List (PFrame K V)) :
    ∀ (t : PTree K V) (c : List (PFrame K V)),
      leftmost t (c ++ d) = ((leftmost t c).1, (leftmost t c).2 ++ d) := by
  intro t
  induction t with
  | nil => intro c; rfl
  | node a l r p ht v ihl _ =>
    intro c
    cases l with
    | nil => rfl
    | node la ll lr lp lh lv =>
      simp only [leftmost]
      exact ihl (.inl a r p ht v :: c)

theorem parentsOk_leftmost (top : Option Nat) :
    ∀ (t : PTree K V) (ctx : List (PFrame K V)),
      ParentsOk (hole_parent top ctx) t → CtxParentsOk top ctx →
      ParentsOk (hole_parent top (leftmost t ctx).2) (leftmost t ctx).1 ∧
        CtxParentsOk top (leftmost t ctx).2 := by
  intro t
  induction t with
  | nil => intro ctx _ hc; exact ⟨trivial, hc⟩
  | node a l r p ht v ihl _ =>
    intro ctx hs hc
    cases l with
    | nil => exact ⟨hs, hc⟩
    | node la ll lr lp lh lv =>
      simp only [leftmost]
      exact ihl _ hs.2.1 ⟨hs.1, hs.2.2, hc⟩

theorem hot_ptr_eq (ctx : List (PFrame K V)) : hot_ptr ctx = hole_parent none ctx := by
  cases ctx <;> rfl

theorem parentsOk_insert_helper (comp : K → K → Bool) {m : map K V} (value : K × V)
    (fresh : Nat) {r : map K V × Option Nat} (hm : ParentsOk none m.root)
    (h : insert_helper comp m value fresh = .ok r) : ParentsOk none r.1.root := by
  have hs := parentsOk_search_node_hot comp value.1 none m.root [] hm trivial
  unfold insert_helper at h
  split at h
  · simp only [Except.ok.injEq] at h
    rw [← h]; exact hm
  · rename_i hot heq
    rw [heq] at hs
    split at h
    · simp at h
    · rename_i t ht
      simp only [Except.ok.injEq] at h
      rw [← h]
      refine parentsOk_insert_walk none hot _ t ?_ hs.2 ht
      exact ⟨hot_ptr_eq hot, trivial, trivial⟩

theorem parentsOk_insert (comp : K → K → Bool) {m : map K V} (value : K × V)
    (fresh : Nat) {r : map K V × iterator × Bool} (hm : ParentsOk none m.root)
    (h : insert comp m value fresh = .ok r) : ParentsOk none r.1.root := by
  unfold insert at h
  split at h
  · simp only [Except.ok.injEq] at h
    rw [← h]; exact hm
  · split at h
    · simp at h
    · rename_i m1 res hr
      simp only [Except.ok.injEq] at h
      rw [← h]
      exact parentsOk_insert_helper comp value fresh hm hr

theorem parentsOk_index [Inhabited V] (comp : K → K → Bool) {m : map K V} (key : K)
    (fresh : Nat) {r : map K V × Option Nat} (hm : ParentsOk none m.root)
    (h : index comp m key fresh = .ok r) : ParentsOk none r.1.root := by
  unfold index at h
  split at h
  · simp only [Except.ok.injEq] at h
    rw [← h]; exact hm
  · exact parentsOk_insert_helper comp _ fresh hm h

theorem parentsOk_erase_from (top : Option Nat) (start : Option Nat)
    (ctx : List (PFrame K V)) (sub t : PTree K V)
    (hs : ParentsOk (hole_parent top ctx) sub) (hc : CtxParentsOk top ctx)
    (h : erase_from start sub ctx = .ok t) : ParentsOk top t := by
  unfold erase_from at h
  split at h
  · simp only [Except.ok.injEq] at h
    rw [← h]
    exact (parentsOk_rebuild top ctx _).2 ⟨hs, hc⟩
  · split at h
    · exact parentsOk_erase_walk top ctx sub t hs hc h
    · simp at h

theorem parentsOk_erase_node {t r : PTree K V} (q fresh : Nat) (ht : ParentsOk none t)
    (h : erase_node t q fresh = .ok r) : ParentsOk none r := by
  unfold erase_node at h
  split at h
  · simp at h
  · simp at h
  · rename_i a tl tr tp th v ctx hloc
    obtain ⟨hn, hc⟩ := parentsOk_locate q none t [] _ ht trivial hloc
    simp only at hn hc
    split at h
    · split at h
      · split at h
        · simp at h
        · rename_i sa sl sr sp sh sv inner hlm
          split at h
          · have hF : CtxParentsOk none
                (PFrame.inr fresh (tl.set_parent (some fresh)) tp th sv :: ctx) :=
              ⟨hn.1, parentsOk_set_parent _ hn.2.1, hc⟩
            have hl := parentsOk_leftmost none (tr.set_parent (some fresh))
              (PFrame.inr fresh (tl.set_parent (some fresh)) tp th sv :: ctx)
              (parentsOk_set_parent (some fresh) hn.2.2) hF
            have ha := leftmost_append
              (PFrame.inr fresh (tl.set_parent (some fresh)) tp th sv :: ctx)
              (tr.set_parent (some fresh)) []
            rw [List.nil_append] at ha
            rw [ha, hlm] at hl
            simp only at hl
            refine parentsOk_erase_from none _ _ _ r ?_ hl.2 h
            rw [← hl.1.1]
            exact parentsOk_set_parent sp hl.1.2.2
          · simp at h
      · refine parentsOk_erase_from none _ ctx _ r ?_ hc h
        rw [← hn.1]
        split
        · exact parentsOk_set_parent tp hn.2.1
        · exact parentsOk_set_parent tp hn.2.2
    · simp at h

theorem parentsOk_erase {m : map K V} (pos : iterator) (fresh : Nat)
    (hm : ParentsOk none m.root) : ParentsOk none (erase m pos fresh).1.root := by
  unfold erase
  split
  · exact hm
  · split
    · exact hm
    · split
      · exact hm
      · rename_i t ht
        exact parentsOk_erase_node _ fresh hm ht

theorem parentsOk_clone_tree (alloc : Nat → Nat) :
    ∀ (t : PTree K V) (k : Nat), ParentsOk none (clone_tree alloc t k).1 := by
  intro t
  induction t with
  | nil => intro k; trivial
  | node a l r p ht v ihl ihr =>
    intro k
    exact ⟨rfl, parentsOk_set_parent _ (ihl k), parentsOk_set_parent _ (ihr _)⟩

theorem parentsOk_reachable [Inhabited V] (comp : K → K → Bool) {m : map K V}
    (h : Reachable comp m) : ParentsOk none m.root := by
  induction h with
  | empty_map self => trivial
  | by_insert value fresh _ hr ih => exact parentsOk_insert comp value fresh ih hr
  | by_index key fresh _ hr ih => exact parentsOk_index comp key fresh ih hr
  | by_erase pos fresh _ _ ih => exact parentsOk_erase pos fresh ih
  | by_clear _ _ => trivial
  | by_copy self alloc _ _ => exact parentsOk_clone_tree alloc _ 0
  | by_assign alloc _ _ ih _ =>
    unfold map.assign
    split
    · exact ih
    · exact parentsOk_clone_tree alloc _ 0

theorem parentsOk_parent {p : Option Nat} {t : PTree K V} (h : ParentsOk p t)
    (hn : t.is_null = false) : t.parent = p := by
  cases t with
  | nil => simp [PTree.is_null] at hn
  | node a l r par ht v => exact h.1

theorem parentsOk_nodes :
    ∀ (t : PTree K V) (p : Option Nat), ParentsOk p t → ∀ n ∈ t.nodes,
      (n.left.is_null = false → n.left.parent = n.ptr) ∧
      (n.right.is_null = false → n.right.parent = n.ptr) := by
  intro t
  induction t with
  | nil => intro p _ n hn; simp [PTree.nodes] at hn
  | node a l r par ht v ihl ihr =>
    intro p h n hn
    simp only [PTree.nodes, List.mem_cons, List.mem_append] at hn
    rcases hn with rfl | hn | hn
    · exact ⟨parentsOk_parent h.2.1, parentsOk_parent h.2.2⟩
    · exact ihl _ h.2.1 n hn
    · exact ihr _ h.2.2 n hn

theorem addrs_set_parent (t : PTree K V) (p : Option Nat) : (t.set_parent p).addrs = t.addrs := by
  cases t <;> rfl

theorem ptr_set_parent (t : PTree K V) (p : Option Nat) : (t.set_parent p).ptr = t.ptr := by
  cases t <;> rfl

theorem height_set_parent (t : PTree K V) (p : Option Nat) :
    (t.set_parent p).height = t.height := by
  cases t <;> rfl

theorem ptr_mem_addrs {t : PTree K V} {a : Nat} (h : t.ptr = some a) : a ∈ t.addrs := by
  cases t with
  | nil => simp [PTree.ptr] at h
  | node b l r p ht v =>
    simp only [PTree.ptr, Option.some.injEq] at h
    simp [PTree.addrs, h]

theorem addrs_rebuild (ctx : List (PFrame K V)) :
    ∀ sub : PTree K V,
      (rebuild sub ctx).addrs = before_addrs ctx ++ sub.addrs ++ after_addrs ctx := by
  induction ctx with
  | nil => intro sub; simp [rebuild, before_addrs, after_addrs]
  | cons f ctx ih =>
    intro sub
    cases f <;>
      simp [rebuild, ih, PFrame.plug, PTree.addrs, before_addrs, after_addrs]

theorem addrs_plug (f : PFrame K V) (ctx : List (PFrame K V)) (sub : PTree K V) :
    before_addrs ctx ++ (f.plug sub).addrs ++ after_addrs ctx =
      before_addrs (f :: ctx) ++ sub.addrs ++ after_addrs (f :: ctx) := by
  cases f <;> simp [PFrame.plug, PTree.addrs, before_addrs, after_addrs]

theorem addrs_connect34 (a : Nat × (K × V)) (b : Nat × Option Nat × (K × V))
    (c : Nat × (K × V)) (t1 t2 t3 t4 : PTree K V) :
    (connect34 a b c t1 t2 t3 t4).addrs =
      t1.addrs ++ a.1 :: (t2.addrs ++ b.1 :: (t3.addrs ++ c.1 :: t4.addrs)) := by
  simp [connect34, update_height, PTree.addrs, addrs_set_parent]

theorem addrs_rotate {t r : PTree K V} (h : rotate t = .ok r) : r.addrs = t.addrs := by
  cases t with
  | nil => simp [rotate] at h
  | node pa pl pr pp ph pv =>
    simp only [rotate] at h
    split at h
    · cases pl with
      | nil => simp at h
      | node ca cl cr cp ch cv =>
        simp only at h
        split at h
        · cases cl with
          | nil => simp at h
          | node ga gl gr gp gh gv =>
            simp only at h
            split at h
            · simp only [Except.ok.injEq] at h
              rw [← h, addrs_connect34]
              simp [PTree.addrs]
            · simp at h
        · cases cr with
          | nil => simp at h
          | node ga gl gr gp gh gv =>
            simp only at h
            split at h
            · simp only [Except.ok.injEq] at h
              rw [← h, addrs_connect34]
              simp [PTree.addrs]
            · simp at h
    · cases pr with
      | nil => simp at h
      | node ca cl cr cp ch cv =>
        simp only at h
        split at h
        · cases cl with
          | nil => simp at h
          | node ga gl gr gp gh gv =>
            simp only at h
            split at h
            · simp only [Except.ok.injEq] at h
              rw [← h, addrs_connect34]
              simp [PTree.addrs]
            · simp at h
        · cases cr with
          | nil => simp at h
          | node ga gl gr gp gh gv =>
            simp only at h
            split at h
            · simp only [Except.ok.injEq] at h
              rw [← h, addrs_connect34]
              simp [PTree.addrs]
            · simp at h

theorem addrs_insert_walk (ctx : List (PFrame K V)) :
    ∀ (sub t : PTree K V), insert_walk sub ctx = .ok t →
      t.addrs = before_addrs ctx ++ sub.addrs ++ after_addrs ctx := by
  induction ctx with
  | nil =>
    intro sub t h
    simp only [insert_walk, Except.ok.injEq] at h
    simp [← h, before_addrs, after_addrs]
  | cons f ctx ih =>
    intro sub t h
    rw [← addrs_plug]
    simp only [insert_walk] at h
    generalize f.plug sub = n at h
    cases n with
    | nil => simp at h
    | node a l r p ht v =>
      simp only at h
      split at h
      · simp only [Except.ok.injEq] at h
        rw [← h, addrs_rebuild]
      · split at h
        · split at h
          · split at h
            · simp at h
            · rename_i r' hr
              simp only [Except.ok.injEq] at h
              rw [← h, addrs_rebuild, addrs_set_parent, addrs_rotate hr]; rfl
          · simp at h
        · split at h
          · simp only [Except.ok.injEq] at h
            rw [← h, addrs_rebuild]; rfl
          · split at h
            · rw [ih _ t h]; rfl
            · simp at h

theorem addrs_erase_walk (ctx : List (PFrame K V)) :
    ∀ (sub t : PTree K V), erase_walk sub ctx = .ok t →
      t.addrs = before_addrs ctx ++ sub.addrs ++ after_addrs ctx := by
  induction ctx with
  | nil =>
    intro sub t h
    simp only [erase_walk, Except.ok.injEq] at h
    simp [← h, before_addrs, after_addrs]
  | cons f ctx ih =>
    intro sub t h
    rw [← addrs_plug]
    simp only [erase_walk] at h
    generalize f.plug sub = n at h
    cases n with
    | nil => simp at h
    | node a l r p ht v =>
      simp only at h
      split at h
      · split at h
        · split at h
          · simp at h
          · rename_i r' hr
            rw [ih _ t h, addrs_set_parent, addrs_rotate hr]; rfl
        · simp at h
      · split at h
        · simp only [Except.ok.injEq] at h
          rw [← h, addrs_rebuild]; rfl
        · split at h
          · rw [ih _ t h]; rfl
          · simp at h

theorem addrs_erase_from (start : Option Nat) (ctx : List (PFrame K V)) (sub t : PTree K V)
    (h : erase_from start sub ctx = .ok t) :
    t.addrs = before_addrs ctx ++ sub.addrs ++ after_addrs ctx := by
  unfold erase_from at h
  split at h
  · simp only [Except.ok.injEq] at h
    rw [← h, addrs_rebuild]
  · split at h
    · exact addrs_erase_walk ctx sub t h
    · simp at h

theorem rebuild_search_node_hot (comp : K → K → Bool) (key : K) :
    ∀ (t : PTree K V) (ctx : List (PFrame K V)),
      rebuild (search_node_hot comp t key ctx).1 (search_node_hot comp t key ctx).2 =
        rebuild t ctx := by
  intro t
  induction t with
  | nil => intro ctx; rfl
  | node a l r p ht v ihl ihr =>
    intro ctx
    simp only [search_node_hot]
    split
    · rw [ihl]; rfl
    · split
      · rw [ihr]; rfl
      · rfl

theorem rebuild_locate (q : Nat) :
    ∀ (t : PTree K V) (ctx : List (PFrame K V)) (z : PTree K V × List (PFrame K V)),
      locate t q ctx = some z → rebuild z.1 z.2 = rebuild t ctx := by
  intro t
  induction t with
  | nil => intro ctx z h; simp [locate] at h
  | node a l r p ht v ihl ihr =>
    intro ctx z h
    simp only [locate] at h
    split at h
    · simp only [Option.some.injEq] at h
      rw [← h]
    · split at h
      · rename_i z' hz
        simp only [Option.some.injEq] at h
        rw [← h, ihl (.inl a r p ht v :: ctx) _ hz]; rfl
      · rw [ihr (.inr a l p ht v :: ctx) _ h]; rfl

theorem rebuild_leftmost :
    ∀ (t : PTree K V) (ctx : List (PFrame K V)),
      rebuild (leftmost t ctx).1 (leftmost t ctx).2 = rebuild t ctx := by
  intro t
  induction t with
  | nil => intro ctx; rfl
  | node a l r p ht v ihl _ =>
    intro ctx
    cases l with
    | nil => rfl
    | node la ll lr lp lh lv =>
      simp only [leftmost]
      rw [ihl]; rfl

theorem leftmost_left_nil :
    ∀ (t : PTree K V) (ctx : List (PFrame K V)), (leftmost t ctx).1.left = .nil := by
  intro t
  induction t with
  | nil => intro ctx; rfl
  | node a l r p ht v ihl _ =>
    intro ctx
    cases l with
    | nil => rfl
    | node la ll lr lp lh lv =>
      simp only [leftmost]
      exact ihl _

theorem ptr_node (a : Nat) (l r : PTree K V) (p : Option Nat) (h : Int) (v : K × V) :
    (PTree.node a l r p h v).ptr = some a := rfl

theorem is_lchild_self {n : PTree K V} {pa : Nat} (h : n.parent = some pa) :
    is_lchild n pa n.ptr = some true := by
  simp [is_lchild, h]

theorem is_rchild_self {n : PTree K V} {pa : Nat} (h : n.parent = some pa) :
    is_rchild n pa n.ptr = some true := by
  simp [is_rchild, h]

theorem is_lchild_other {n : PTree K V} {pa : Nat} {pl : Option Nat} (h : n.parent = some pa)
    (hne : pl ≠ n.ptr) : is_lchild n pa pl = some false := by
  simp [is_lchild, h, hne]

theorem sibling_ptr_ne {l r : PTree K V} {x : Nat} (h : (l.addrs ++ x :: r.addrs).Nodup)
    (hr : r.is_null = false) : l.ptr ≠ r.ptr := by
  cases r with
  | nil => simp [PTree.is_null] at hr
  | node b rl rr rp rh rv =>
    intro e
    have h1 : b ∈ l.addrs := ptr_mem_addrs e
    have h2 : b ∈ x :: (PTree.node b rl rr rp rh rv).addrs :=
      List.mem_cons_of_mem _ (ptr_mem_addrs rfl)
    exact (List.nodup_append.1 h).2.2 h1 h2

theorem walkOk_plug {f : PFrame K V} {sub : PTree K V} {ctx : List (PFrame K V)}
    (h : WalkOk sub (f :: ctx)) : WalkOk (f.plug sub) ctx := by
  obtain ⟨h1, h2, h3⟩ := h
  have hp := (parentsOk_plug f sub ctx none).2 ⟨h1, h2⟩
  exact ⟨hp.1, hp.2, by rw [addrs_plug]; exact h3⟩

theorem walkOk_rebuild {sub : PTree K V} {ctx : List (PFrame K V)} (h : WalkOk sub ctx) :
    ParentsOk none (rebuild sub ctx) ∧ (rebuild sub ctx).addrs.Nodup :=
  ⟨(parentsOk_rebuild none ctx sub).2 ⟨h.1, h.2.1⟩, by rw [addrs_rebuild]; exact h.2.2⟩

theorem walkOk_of_rebuild {sub : PTree K V} {ctx : List (PFrame K V)}
    (h1 : ParentsOk none (rebuild sub ctx)) (h2 : (rebuild sub ctx).addrs.Nodup) :
    WalkOk sub ctx := by
  have hp := (parentsOk_rebuild none ctx sub).1 h1
  exact ⟨hp.1, hp.2, by rw [← addrs_rebuild]; exact h2⟩

theorem pointer_in_parent_ok {a : Nat} {l r : PTree K V} {p : Option Nat} {h : Int}
    {v : K × V} {ctx : List (PFrame K V)} (hw : WalkOk (.node a l r p h v) ctx) (h' : Int) :
    pointer_in_parent (.node a l r p h' v) ctx = some (hole_slot ctx) := by
  obtain ⟨h1, _, h3⟩ := hw
  cases ctx with
  | nil =>
    have hp : p = none := h1.1
    simp [pointer_in_parent, PTree.parent, hp, hole_slot]
  | cons f ctx =>
    cases f with
    | inl fa fr fp fh fv =>
      have hp : p = some fa := h1.1
      simp [pointer_in_parent, is_lchild, PTree.parent, hp, hole_slot, PFrame.addr,
        PFrame.left_ptr]
    | inr fa fl fp fh fv =>
      have hp : p = some fa := h1.1
      have hne : fl.ptr ≠ some a := by
        intro e
        have m1 : a ∈ before_addrs (PFrame.inr fa fl fp fh fv :: ctx) := by
          simp [before_addrs, ptr_mem_addrs e]
        have m2 : a ∈ (PTree.node a l r p h v).addrs ++
            after_addrs (PFrame.inr fa fl fp fh fv :: ctx) := by
          simp [PTree.addrs]
        rw [List.append_assoc] at h3
        exact (List.nodup_append.1 h3).2.2 m1 m2
      simp [pointer_in_parent, is_lchild, is_rchild, PTree.parent, hp, hole_slot, PFrame.addr,
        PFrame.left_ptr, PFrame.right_ptr, ptr_node, hne]

theorem rotate_no_stray {t : PTree K V} {p : Option Nat} (hp : ParentsOk p t)
    (hnd : t.addrs.Nodup) : rotate t ≠ .error .stray_parent := by
  cases t with
  | nil => simp [rotate]
  | node pa pl pr pp ph pv =>
    obtain ⟨-, hl, hr⟩ := hp
    simp only [rotate]
    split
    · cases pl with
      | nil => simp
      | node ca cl cr cp ch cv =>
        have hcp : (PTree.node ca cl cr cp ch cv).parent = some pa := hl.1
        have hc := is_lchild_self hcp
        have hndc : (cl.addrs ++ ca :: cr.addrs).Nodup :=
          (List.nodup_append.1 hnd).1
        simp only
        split
        · cases cl with
          | nil => simp
          | node ga gl gr gp gh gv =>
            have hgp : (PTree.node ga gl gr gp gh gv).parent = some ca := hl.2.1.1
            simp only
            rw [if_pos ⟨is_lchild_self hgp, hc⟩]
            simp
        · cases cr with
          | nil => simp
          | node ga gl gr gp gh gv =>
            have hgp : (PTree.node ga gl gr gp gh gv).parent = some ca := hl.2.2.1
            simp only
            rw [if_pos ⟨is_lchild_other hgp (sibling_ptr_ne hndc rfl), hc⟩]
            simp
    · cases pr with
      | nil => simp
      | node ca cl cr cp ch cv =>
        have hcp : (PTree.node ca cl cr cp ch cv).parent = some pa := hr.1
        have hc := is_lchild_other hcp (sibling_ptr_ne hnd rfl)
        have hndc : (cl.addrs ++ ca :: cr.addrs).Nodup :=
          ((List.nodup_cons.1 (List.nodup_append.1 hnd).2.1).2)
        simp only
        split
        · cases cl with
          | nil => simp
          | node ga gl gr gp gh gv =>
            have hgp : (PTree.node ga gl gr gp gh gv).parent = some ca := hr.2.1.1
            simp only
            rw [if_pos ⟨is_lchild_self hgp, hc⟩]
            simp
        · cases cr with
          | nil => simp
          | node ga gl gr gp gh gv =>
            have hgp : (PTree.node ga gl gr gp gh gv).parent = some ca := hr.2.2.1
            simp only
            rw [if_pos ⟨is_lchild_other hgp (sibling_ptr_ne hndc rfl), hc⟩]
            simp

theorem walkOk_rotate {a : Nat} {l r : PTree K V} {p : Option Nat} {h : Int} {v : K × V}
    {ctx : List (PFrame K V)} {t : PTree K V} (hw : WalkOk (.node a l r p h v) ctx)
    (hr : rotate (.node a l r p h v) = .ok t) : WalkOk (t.set_parent p) ctx := by
  refine ⟨?_, hw.2.1, ?_⟩
  · rw [← hw.1.1]
    exact parentsOk_rotate hw.1 hr p
  · rw [addrs_set_parent, addrs_rotate hr]
    exact hw.2.2

theorem walkOk_sub_nodup {sub : PTree K V} {ctx : List (PFrame K V)} (hw : WalkOk sub ctx) :
    sub.addrs.Nodup :=
  (List.nodup_append.1 (List.nodup_append.1 hw.2.2).1).2.1

theorem insert_walk_no_stray (ctx : List (PFrame K V)) :
    ∀ sub : PTree K V, WalkOk sub ctx → insert_walk sub ctx ≠ .error .stray_parent := by
  induction ctx with
  | nil => intro sub _; simp [insert_walk]
  | cons f ctx ih =>
    intro sub hw
    have hp := walkOk_plug hw
    simp only [insert_walk]
    generalize f.plug sub = n at hp
    cases n with
    | nil => simp
    | node a l r p ht v =>
      have hw' : WalkOk (.node a l r p (recalc_height l r).1 v) ctx := hp
      simp only
      split
      · simp
      · split
        · rw [if_pos (pointer_in_parent_ok hp _)]
          split
          · rename_i e he
            intro hc
            simp only [Except.error.injEq] at hc
            rw [hc] at he
            exact rotate_no_stray hw'.1 (walkOk_sub_nodup hw') he
          · simp
        · have hpe : p = hole_parent none ctx := hp.1.1
          cases p with
          | none => simp
          | some x =>
            simp only
            rw [if_pos (by rw [hot_ptr_eq]; exact hpe.symm)]
            exact ih _ hw'

theorem erase_walk_no_stray (ctx : List (PFrame K V)) :
    ∀ sub : PTree K V, WalkOk sub ctx → erase_walk sub ctx ≠ .error .stray_parent := by
  induction ctx with
  | nil => intro sub _; simp [erase_walk]
  | cons f ctx ih =>
    intro sub hw
    have hp := walkOk_plug hw
    simp only [erase_walk]
    generalize f.plug sub = n at hp
    cases n with
    | nil => simp
    | node a l r p ht v =>
      have hw' : WalkOk (.node a l r p (recalc_height l r).1 v) ctx := hp
      simp only
      split
      · rw [if_pos (pointer_in_parent_ok hp _)]
        split
        · rename_i e he
          intro hc
          simp only [Except.error.injEq] at hc
          rw [hc] at he
          exact rotate_no_stray hw'.1 (walkOk_sub_nodup hw') he
        · rename_i t' ht'
          exact ih _ (walkOk_rotate hw' ht')
      · have hpe : p = hole_parent none ctx := hp.1.1
        cases p with
        | none => simp
        | some x =>
          simp only
          rw [if_pos (by rw [hot_ptr_eq]; exact hpe.symm)]
          exact ih _ hw'

theorem erase_from_no_stray {sub : PTree K V} {ctx : List (PFrame K V)} (hw : WalkOk sub ctx) :
    erase_from (hole_parent none ctx) sub ctx ≠ .error .stray_parent := by
  unfold erase_from
  split
  · simp
  · rename_i x hx
    rw [if_pos (by rw [hot_ptr_eq]; exact hx)]
    exact erase_walk_no_stray ctx sub hw

theorem nodup_insert_middle {A B : List Nat} {x : Nat} (h : (A ++ B).Nodup)
    (hx : x ∉ A ++ B) : (A ++ [x] ++ B).Nodup := by
  rw [List.append_assoc, List.singleton_append, List.nodup_middle]
  exact List.nodup_cons.2 ⟨hx, h⟩

theorem nodup_replace_middle {A L R B : List Nat} {a f : Nat}
    (h : (A ++ (L ++ a :: R) ++ B).Nodup) (hf : f ∉ A ++ (L ++ a :: R) ++ B) :
    (A ++ (L ++ [f]) ++ R ++ B).Nodup := by
  have e1 : A ++ (L ++ a :: R) ++ B = (A ++ L) ++ a :: (R ++ B) := by simp
  have e2 : A ++ (L ++ [f]) ++ R ++ B = (A ++ L) ++ f :: (R ++ B) := by simp
  rw [e1] at h hf
  rw [e2, List.nodup_middle]
  rw [List.nodup_middle] at h
  refine List.nodup_cons.2 ⟨?_, (List.nodup_cons.1 h).2⟩
  intro hm
  apply hf
  simp only [List.mem_append, List.mem_cons] at hm ⊢
  tauto

theorem nodup_drop_middle {A L R B : List Nat} {a : Nat}
    (h : (A ++ (L ++ a :: R) ++ B).Nodup) : (A ++ R ++ B).Nodup := by
  refine h.sublist ?_
  refine List.Sublist.append (List.Sublist.append (List.Sublist.refl A) ?_) (List.Sublist.refl B)
  exact (List.sublist_cons_self a R).trans (List.sublist_append_right L (a :: R))

theorem nodup_drop_middle_left {A L R B : List Nat} {a : Nat}
    (h : (A ++ (L ++ a :: R) ++ B).Nodup) : (A ++ L ++ B).Nodup := by
  refine h.sublist ?_
  refine List.Sublist.append (List.Sublist.append (List.Sublist.refl A) ?_) (List.Sublist.refl B)
  exact List.sublist_append_left L (a :: R)

theorem insert_helper_sound (comp : K → K → Bool) {m : map K V} (value : K × V) (fresh : Nat)
    (hm : ParentsOk none m.root) (hnd : m.root.addrs.Nodup) (hf : fresh ∉ m.root.addrs) :
    insert_helper comp m value fresh ≠ .error .stray_parent ∧
      ∀ r, insert_helper comp m value fresh = .ok r → r.1.root.addrs.Nodup := by
  have hrb := rebuild_search_node_hot comp value.1 m.root []
  unfold insert_helper
  split
  · refine ⟨by simp, ?_⟩
    intro r h
    simp only [Except.ok.injEq] at h
    rw [← h]; exact hnd
  · rename_i hot heq
    rw [heq] at hrb
    simp only [rebuild] at hrb
    have hw0 : WalkOk (.nil : PTree K V) hot :=
      walkOk_of_rebuild (by rw [hrb]; exact hm) (by rw [hrb]; exact hnd)
    have hadd : m.root.addrs = before_addrs hot ++ after_addrs hot := by
      rw [← hrb, addrs_rebuild]; simp [PTree.addrs]
    have hw : WalkOk (.node fresh .nil .nil (hot_ptr hot) 1 value) hot := by
      refine ⟨⟨hot_ptr_eq hot, trivial, trivial⟩, hw0.2.1, ?_⟩
      rw [hadd] at hnd hf
      exact nodup_insert_middle hnd hf
    have hns := insert_walk_no_stray hot _ hw
    split
    · rename_i e he
      refine ⟨?_, by simp⟩
      intro hc
      simp only [Except.error.injEq] at hc
      rw [hc] at he
      exact hns he
    · rename_i t ht
      refine ⟨by simp, ?_⟩
      intro r h
      simp only [Except.ok.injEq] at h
      rw [← h]
      simp only
      rw [addrs_insert_walk hot _ t ht]
      exact hw.2.2

theorem insert_sound (comp : K → K → Bool) {m : map K V} (value : K × V) (fresh : Nat)
    (hm : ParentsOk none m.root) (hnd : m.root.addrs.Nodup) (hf : fresh ∉ m.root.addrs) :
    insert comp m value fresh ≠ .error .stray_parent ∧
      ∀ r, insert comp m value fresh = .ok r → r.1.root.addrs.Nodup := by
  obtain ⟨h1, h2⟩ := insert_helper_sound comp value fresh hm hnd hf
  unfold insert
  split
  · refine ⟨by simp, ?_⟩
    intro r h
    simp only [Except.ok.injEq] at h
    rw [← h]; exact hnd
  · split
    · rename_i e he
      refine ⟨?_, by simp⟩
      intro hc
      simp only [Except.error.injEq] at hc
      rw [hc] at he
      exact h1 he
    · rename_i m1 res hr
      refine ⟨by simp, ?_⟩
      intro r h
      simp only [Except.ok.injEq] at h
      rw [← h]
      exact h2 _ hr

theorem index_sound [Inhabited V] (comp : K → K → Bool) {m : map K V} (key : K) (fresh : Nat)
    (hm : ParentsOk none m.root) (hnd : m.root.addrs.Nodup) (hf : fresh ∉ m.root.addrs) :
    index comp m key fresh ≠ .error .stray_parent ∧
      ∀ r, index comp m key fresh = .ok r → r.1.root.addrs.Nodup := by
  unfold index
  split
  · refine ⟨by simp, ?_⟩
    intro r h
    simp only [Except.ok.injEq] at h
    rw [← h]; exact hnd
  · exact insert_helper_sound comp _ fresh hm hnd hf

theorem erase_from_sound {sub : PTree K V} {ctx : List (PFrame K V)} (hw : WalkOk sub ctx) :
    erase_from (hole_parent none ctx) sub ctx ≠ .error .stray_parent ∧
      ∀ r, erase_from (hole_parent none ctx) sub ctx = .ok r → r.addrs.Nodup := by
  refine ⟨erase_from_no_stray hw, ?_⟩
  intro r h
  rw [addrs_erase_from _ ctx sub r h]
  exact hw.2.2

theorem erase_node_sound {t : PTree K V} (q fresh : Nat) (ht : ParentsOk none t)
    (hnd : t.addrs.Nodup) (hf : fresh ∉ t.addrs) :
    erase_node t q fresh ≠ .error .stray_parent ∧
      ∀ r, erase_node t q fresh = .ok r → r.addrs.Nodup := by
  unfold erase_node
  split
  · simp
  · simp
  · rename_i ta tl tr tp th tv ctx hloc
    have hrb := rebuild_locate q t [] _ hloc
    simp only [rebuild] at hrb
    have hw : WalkOk (.node ta tl tr tp th tv) ctx :=
      walkOk_of_rebuild (by rw [hrb]; exact ht) (by rw [hrb]; exact hnd)
    have hadd : t.addrs = before_addrs ctx ++ (tl.addrs ++ ta :: tr.addrs) ++ after_addrs ctx := by
      rw [← hrb, addrs_rebuild]; rfl
    have htp : tp = hole_parent none ctx := hw.1.1
    rw [if_pos (pointer_in_parent_ok hw th)]
    split
    · split
      · simp
      · rename_i sa sl sr sp sh sv inner hlm
        have hw1 : WalkOk (tr.set_parent (some fresh))
            (PFrame.inr fresh (tl.set_parent (some fresh)) tp th sv :: ctx) := by
          refine ⟨parentsOk_set_parent (some fresh) hw.1.2.2,
            ⟨htp, parentsOk_set_parent _ hw.1.2.1, hw.2.1⟩, ?_⟩
          simp only [before_addrs, addrs_set_parent]
          rw [hadd] at hnd hf
          exact nodup_replace_middle hnd hf
        have ha := leftmost_append
          (PFrame.inr fresh (tl.set_parent (some fresh)) tp th sv :: ctx)
          (tr.set_parent (some fresh)) []
        rw [List.nil_append, hlm] at ha
        have hrl := rebuild_leftmost (tr.set_parent (some fresh))
          (PFrame.inr fresh (tl.set_parent (some fresh)) tp th sv :: ctx)
        rw [ha] at hrl
        simp only at hrl
        have hw2 : WalkOk (.node sa sl sr sp sh sv)
            (inner ++ PFrame.inr fresh (tl.set_parent (some fresh)) tp th sv :: ctx) :=
          walkOk_of_rebuild (by rw [hrl]; exact (walkOk_rebuild hw1).1)
            (by rw [hrl]; exact (walkOk_rebuild hw1).2)
        rw [if_pos (pointer_in_parent_ok hw2 sh)]
        have hsp : sp = hole_parent none
            (inner ++ PFrame.inr fresh (tl.set_parent (some fresh)) tp th sv :: ctx) := hw2.1.1
        have hw3 : WalkOk (sr.set_parent sp)
            (inner ++ PFrame.inr fresh (tl.set_parent (some fresh)) tp th sv :: ctx) := by
          refine ⟨?_, hw2.2.1, ?_⟩
          · rw [← hsp]; exact parentsOk_set_parent sp hw2.1.2.2
          · rw [addrs_set_parent]
            exact nodup_drop_middle hw2.2.2
        have hfin := erase_from_sound hw3
        rw [← hsp] at hfin
        exact hfin
    · have hw3 : WalkOk ((if !tl.is_null then tl else tr).set_parent tp) ctx := by
        refine ⟨?_, hw.2.1, ?_⟩
        · rw [← htp]
          split
          · exact parentsOk_set_parent tp hw.1.2.1
          · exact parentsOk_set_parent tp hw.1.2.2
        · rw [addrs_set_parent]
          split
          · exact nodup_drop_middle_left hw.2.2
          · exact nodup_drop_middle hw.2.2
      have hfin := erase_from_sound hw3
      rw [← htp] at hfin
      exact hfin

theorem erase_sound {m : map K V} (pos : iterator) (fresh : Nat)
    (hm : ParentsOk none m.root) (hnd : m.root.addrs.Nodup) (hf : fresh ∉ m.root.addrs) :
    (erase m pos fresh).2 ≠ .error .stray_parent ∧ (erase m pos fresh).1.root.addrs.Nodup := by
  obtain ⟨h1, h2⟩ := erase_node_sound (pos.this_node.getD 0) fresh hm hnd hf
  unfold erase
  split
  · exact ⟨by simp, hnd⟩
  · split
    · exact ⟨by simp, hnd⟩
    · rename_i q hq
      rw [hq] at h1 h2
      simp only [Option.getD_some] at h1 h2
      split
      · rename_i e he
        refine ⟨?_, hnd⟩
        intro hc
        simp only [Except.error.injEq] at hc
        rw [hc] at he
        exact h1 he
      · rename_i t ht
        exact ⟨by simp, h2 t ht⟩

theorem clone_tree_addrs (alloc : Nat → Nat) :
    ∀ (t : PTree K V) (k : Nat), k ≤ (clone_tree alloc t k).2 ∧
      ∀ a ∈ (clone_tree alloc t k).1.addrs,
        ∃ i, k ≤ i ∧ i < (clone_tree alloc t k).2 ∧ a = alloc i := by
  intro t
  induction t with
  | nil => intro k; exact ⟨le_refl k, by simp [clone_tree, PTree.addrs]⟩
  | node a l r p ht v ihl ihr =>
    intro k
    obtain ⟨hl1, hl2⟩ := ihl k
    obtain ⟨hr1, hr2⟩ := ihr (clone_tree alloc l k).2
    refine ⟨by simp only [clone_tree]; omega, ?_⟩
    intro x hx
    simp only [clone_tree, PTree.addrs, addrs_set_parent, List.mem_append, List.mem_cons] at hx ⊢
    rcases hx with hx | rfl | hx
    · obtain ⟨i, h1, h2, h3⟩ := hl2 x hx
      exact ⟨i, h1, by omega, h3⟩
    · exact ⟨_, by omega, by omega, rfl⟩
    · obtain ⟨i, h1, h2, h3⟩ := hr2 x hx
      exact ⟨i, by omega, by omega, h3⟩

theorem clone_tree_nodup (alloc : Nat → Nat) (hinj : Function.Injective alloc) :
    ∀ (t : PTree K V) (k : Nat), (clone_tree alloc t k).1.addrs.Nodup := by
  intro t
  induction t with
  | nil => intro k; simp [clone_tree, PTree.addrs]
  | node a l r p ht v ihl ihr =>
    intro k
    have hl := clone_tree_addrs alloc l k
    have hr := clone_tree_addrs alloc r (clone_tree alloc l k).2
    simp only [clone_tree, PTree.addrs, addrs_set_parent]
    rw [List.nodup_append]
    refine ⟨ihl k, List.nodup_cons.2 ⟨?_, ihr _⟩, ?_⟩
    · intro hx
      obtain ⟨i, h1, h2, h3⟩ := hr.2 _ hx
      have := hinj h3
      omega
    · intro x hx1 hx2
      obtain ⟨i, h1, h2, h3⟩ := hl.2 x hx1
      rcases List.mem_cons.1 hx2 with rfl | hx2
      · have := hinj h3
        omega
      · obtain ⟨j, g1, g2, g3⟩ := hr.2 x hx2
        have := hinj (h3.symm.trans g3)
        omega

theorem forget_height (t : PTree K V) : t.forget.height = t.height := by
  cases t <;> rfl

theorem forget_is_null (t : PTree K V) : t.forget.is_null = t.is_null := by
  cases t <;> rfl

theorem forget_set_parent (t : PTree K V) (p : Option Nat) :
    (t.set_parent p).forget = t.forget := by
  cases t <;> rfl

theorem forget_plug (f : PFrame K V) (t : PTree K V) :
    (f.plug t).forget = f.forget.plug t.forget := by
  cases f <;> rfl

theorem forget_rebuild (ctx : List (PFrame K V)) :
    ∀ t : PTree K V, (rebuild t ctx).forget = sjtu.rebuild t.forget (ctx.map PFrame.forget) := by
  induction ctx with
  | nil => intro t; rfl
  | cons f ctx ih =>
    intro t
    simp only [rebuild, sjtu.rebuild, List.map_cons, ih, forget_plug]

theorem forget_recalc_height (l r : PTree K V) :
    sjtu.recalc_height l.forget r.forget = recalc_height l r := by
  simp [sjtu.recalc_height, recalc_height, forget_height]

theorem forget_update_height (a : Nat) (l r : PTree K V) (p : Option Nat) (v : K × V) :
    (update_height a l r p v).forget = sjtu.update_height a l.forget r.forget v := by
  simp only [update_height, sjtu.update_height, PTree.forget, forget_height]

theorem forget_connect34 (a : Nat × (K × V)) (b : Nat × Option Nat × (K × V))
    (c : Nat × (K × V)) (t1 t2 t3 t4 : PTree K V) :
    (connect34 a b c t1 t2 t3 t4).forget =
      sjtu.connect34 a (b.1, b.2.2) c t1.forget t2.forget t3.forget t4.forget := by
  simp only [connect34, sjtu.connect34, forget_update_height, forget_set_parent]

theorem rotate_forget {t : PTree K V} {p : Option Nat} (hp : ParentsOk p t)
    (hnd : t.addrs.Nodup) :
    lower PTree.forget (rotate t) = some (sjtu.rotate t.forget) := by
  cases t with
  | nil => rfl
  | node pa pl pr pp ph pv =>
    obtain ⟨-, hl, hr⟩ := hp
    simp only [rotate, sjtu.rotate, PTree.forget, forget_height]
    by_cases h1 : pl.height > pr.height
    · rw [if_pos h1, if_pos h1]
      cases pl with
      | nil => rfl
      | node ca cl cr cp ch cv =>
        have hcp : (PTree.node ca cl cr cp ch cv).parent = some pa := hl.1
        have hc := is_lchild_self hcp
        have hndc : (cl.addrs ++ ca :: cr.addrs).Nodup :=
          (List.nodup_append.1 hnd).1
        simp only [PTree.forget, forget_height]
        by_cases h2 : cl.height > cr.height
        · rw [if_pos h2, if_pos h2]
          cases cl with
          | nil => rfl
          | node ga gl gr gp gh gv =>
            have hgp : (PTree.node ga gl gr gp gh gv).parent = some ca := hl.2.1.1
            simp only [PTree.forget]
            rw [if_pos ⟨is_lchild_self hgp, hc⟩]
            simp only [lower, forget_connect34]
        · rw [if_neg h2, if_neg h2]
          cases cr with
          | nil => rfl
          | node ga gl gr gp gh gv =>
            have hgp : (PTree.node ga gl gr gp gh gv).parent = some ca := hl.2.2.1
            simp only [PTree.forget]
            rw [if_pos ⟨is_lchild_other hgp (sibling_ptr_ne hndc rfl), hc⟩]
            simp only [lower, forget_connect34]
    · rw [if_neg h1, if_neg h1]
      cases pr with
      | nil => rfl
      | node ca cl cr cp ch cv =>
        have hcp : (PTree.node ca cl cr cp ch cv).parent = some pa := hr.1
        have hc := is_lchild_other hcp (sibling_ptr_ne hnd rfl)
        have hndc : (cl.addrs ++ ca :: cr.addrs).Nodup :=
          ((List.nodup_cons.1 (List.nodup_append.1 hnd).2.1).2)
        simp only [PTree.forget, forget_height]
        by_cases h2 : cl.height > cr.height
        · rw [if_pos h2, if_pos h2]
          cases cl with
          | nil => rfl
          | node ga gl gr gp gh gv =>
            have hgp : (PTree.node ga gl gr gp gh gv).parent = some ca := hr.2.1.1
            simp only [PTree.forget]
            rw [if_pos ⟨is_lchild_self hgp, hc⟩]
            simp only [lower, forget_connect34]
        · rw [if_neg h2, if_neg h2]
          cases cr with
          | nil => rfl
          | node ga gl gr gp gh gv =>
            have hgp : (PTree.node ga gl gr gp gh gv).parent = some ca := hr.2.2.1
            simp only [PTree.forget]
            rw [if_pos ⟨is_lchild_other hgp (sibling_ptr_ne hndc rfl), hc⟩]
            simp only [lower, forget_connect34]

theorem search_node_forget (comp : K → K → Bool) (key : K) :
    ∀ t : PTree K V, (search_node comp t key).forget = sjtu.search_node comp t.forget key := by
  intro t
  induction t with
  | nil => rfl
  | node a l r p ht v ihl ihr =>
    simp only [search_node, sjtu.search_node, PTree.forget]
    split
    · exact ihl
    · split
      · exact ihr
      · rfl

theorem search_node_hot_forget (comp : K → K → Bool) (key : K) :
    ∀ (t : PTree K V) (ctx : List (PFrame K V)),
      sjtu.search_node_hot comp t.forget key (ctx.map PFrame.forget) =
        ((search_node_hot comp t key ctx).1.forget,
          (search_node_hot comp t key ctx).2.map PFrame.forget) := by
  intro t
  induction t with
  | nil => intro ctx; rfl
  | node a l r p ht v ihl ihr =>
    intro ctx
    simp only [search_node_hot, sjtu.search_node_hot, PTree.forget]
    split
    · exact ihl (.inl a r p ht v :: ctx)
    · split
      · exact ihr (.inr a l p ht v :: ctx)
      · rfl

theorem locate_forget (q : Nat) :
    ∀ (t : PTree K V) (ctx : List (PFrame K V)),
      sjtu.locate t.forget q (ctx.map PFrame.forget) =
        (locate t q ctx).map (fun z => (z.1.forget, z.2.map PFrame.forget)) := by
  intro t
  induction t with
  | nil => intro ctx; rfl
  | node a l r p ht v ihl ihr =>
    intro ctx
    simp only [locate, sjtu.locate, PTree.forget]
    split
    · rfl
    · have e1 := ihl (.inl a r p ht v :: ctx)
      have e2 := ihr (.inr a l p ht v :: ctx)
      simp only [List.map_cons, PFrame.forget] at e1 e2
      rw [e1, e2]
      cases locate l q (.inl a r p ht v :: ctx) <;> rfl

theorem leftmost_forget :
    ∀ (t : PTree K V) (ctx : List (PFrame K V)),
      sjtu.leftmost t.forget (ctx.map PFrame.forget) =
        ((leftmost t ctx).1.forget, (leftmost t ctx).2.map PFrame.forget) := by
  intro t
  induction t with
  | nil => intro ctx; rfl
  | node a l r p ht v ihl _ =>
    intro ctx
    cases l with
    | nil => rfl
    | node la ll lr lp lh lv =>
      simp only [leftmost, sjtu.leftmost, PTree.forget]
      exact ihl (.inl a r p ht v :: ctx)

theorem insert_walk_forget (ctx : List (PFrame K V)) :
    ∀ sub : PTree K V, WalkOk sub ctx →
      lower PTree.forget (insert_walk sub ctx) =
        some (sjtu.insert_walk sub.forget (ctx.map PFrame.forget)) := by
  induction ctx with
  | nil => intro sub _; rfl
  | cons f ctx ih =>
    intro sub hw
    have hp := walkOk_plug hw
    simp only [insert_walk, sjtu.insert_walk, List.map_cons, ← forget_plug]
    generalize f.plug sub = n at hp
    cases n with
    | nil => rfl
    | node a l r p ht v =>
      have hw' : WalkOk (.node a l r p (recalc_height l r).1 v) ctx := hp
      simp only [PTree.forget, forget_recalc_height]
      by_cases h1 : (recalc_height l r).1 = ht
      · rw [if_pos h1, if_pos h1]
        simp only [lower, forget_rebuild, PTree.forget]
      · rw [if_neg h1, if_neg h1]
        by_cases h2 : (!(recalc_height l r).2) = true
        · rw [if_pos h2, if_pos h2, if_pos (pointer_in_parent_ok hp _)]
          have hr := rotate_forget hw'.1 (walkOk_sub_nodup hw')
          simp only [PTree.forget] at hr
          cases hrot : rotate (.node a l r p (recalc_height l r).1 v) with
          | error e =>
            rw [hrot] at hr
            cases e with
            | failure e' =>
              simp only [lower, Option.some.injEq] at hr
              rw [← hr]; rfl
            | stray_parent => simp [lower] at hr
          | ok t =>
            rw [hrot] at hr
            simp only [lower, Option.some.injEq] at hr
            rw [← hr]
            simp only [lower, forget_rebuild, forget_set_parent]
        · rw [if_neg h2, if_neg h2]
          have hpe : p = hole_parent none ctx := hp.1.1
          have e := ih _ hw'
          simp only [PTree.forget] at e
          cases p with
          | none =>
            cases ctx with
            | nil => rfl
            | cons g ctx => cases g <;> simp [hole_parent] at hpe
          | some x =>
            simp only
            rw [if_pos (by rw [hot_ptr_eq]; exact hpe.symm)]
            exact e

theorem erase_walk_forget (ctx : List (PFrame K V)) :
    ∀ sub : PTree K V, WalkOk sub ctx →
      lower PTree.forget (erase_walk sub ctx) =
        some (sjtu.erase_walk sub.forget (ctx.map PFrame.forget)) := by
  induction ctx with
  | nil => intro sub _; rfl
  | cons f ctx ih =>
    intro sub hw
    have hp := walkOk_plug hw
    simp only [erase_walk, sjtu.erase_walk, List.map_cons, ← forget_plug]
    generalize f.plug sub = n at hp
    cases n with
    | nil => rfl
    | node a l r p ht v =>
      have hw' : WalkOk (.node a l r p (recalc_height l r).1 v) ctx := hp
      simp only [PTree.forget, forget_recalc_height]
      by_cases h2 : (!(recalc_height l r).2) = true
      · rw [if_pos h2, if_pos h2, if_pos (pointer_in_parent_ok hp _)]
        have hr := rotate_forget hw'.1 (walkOk_sub_nodup hw')
        simp only [PTree.forget] at hr
        cases hrot : rotate (.node a l r p (recalc_height l r).1 v) with
        | error e =>
          rw [hrot] at hr
          cases e with
          | failure e' =>
            simp only [lower, Option.some.injEq] at hr
            rw [← hr]; rfl
          | stray_parent => simp [lower] at hr
        | ok t =>
          rw [hrot] at hr
          simp only [lower, Option.some.injEq] at hr
          rw [← hr]
          have e := ih _ (walkOk_rotate hw' hrot)
          rw [forget_set_parent] at e
          exact e
      · rw [if_neg h2, if_neg h2]
        have hpe : p = hole_parent none ctx := hp.1.1
        have e := ih _ hw'
        simp only [PTree.forget] at e
        cases p with
        | none =>
          cases ctx with
          | nil => rfl
          | cons g ctx => cases g <;> simp [hole_parent] at hpe
        | some x =>
          simp only
          rw [if_pos (by rw [hot_ptr_eq]; exact hpe.symm)]
          exact e

theorem erase_from_forget {sub : PTree K V} {ctx : List (PFrame K V)} (hw : WalkOk sub ctx) :
    lower PTree.forget (erase_from (hole_parent none ctx) sub ctx) =
      some (sjtu.erase_walk sub.forget (ctx.map PFrame.forget)) := by
  cases ctx with
  | nil => rfl
  | cons f ctx =>
    have e : hot_ptr (f :: ctx) = some f.addr := rfl
    simp only [erase_from, hole_parent]
    rw [if_pos e]
    exact erase_walk_forget _ sub hw

theorem insert_helper_forget (comp : K → K → Bool) {m : map K V} (value : K × V) (fresh : Nat)
    (hm : ParentsOk none m.root) (hnd : m.root.addrs.Nodup) (hf : fresh ∉ m.root.addrs) :
    lower (fun r => (map.forget r.1, r.2)) (insert_helper comp m value fresh) =
      some (sjtu.insert_helper comp m.forget value fresh) := by
  have hrb := rebuild_search_node_hot comp value.1 m.root []
  have hsf := search_node_hot_forget comp value.1 m.root []
  simp only [List.map_nil] at hsf
  unfold insert_helper sjtu.insert_helper
  simp only [map.forget]
  rw [hsf]
  cases hs : search_node_hot comp m.root value.1 [] with
  | mk s hot =>
    rw [hs] at hrb
    cases s with
    | node a l r p ht v => rfl
    | nil =>
      simp only [rebuild] at hrb
      have hw0 : WalkOk (.nil : PTree K V) hot :=
        walkOk_of_rebuild (by rw [hrb]; exact hm) (by rw [hrb]; exact hnd)
      have hadd : m.root.addrs = before_addrs hot ++ after_addrs hot := by
        rw [← hrb, addrs_rebuild]; simp [PTree.addrs]
      have hw : WalkOk (.node fresh .nil .nil (hot_ptr hot) 1 value) hot := by
        refine ⟨⟨hot_ptr_eq hot, trivial, trivial⟩, hw0.2.1, ?_⟩
        rw [hadd] at hnd hf
        exact nodup_insert_middle hnd hf
      have e := insert_walk_forget hot _ hw
      simp only [PTree.forget] at e ⊢
      cases hwk : insert_walk (.node fresh .nil .nil (hot_ptr hot) 1 value) hot with
      | error err =>
        rw [hwk] at e
        cases err with
        | failure e' =>
          simp only [lower, Option.some.injEq] at e
          rw [← e]; rfl
        | stray_parent => simp [lower] at e
      | ok t =>
        rw [hwk] at e
        simp only [lower, Option.some.injEq] at e
        rw [← e]; rfl

theorem insert_forget (comp : K → K → Bool) {m : map K V} (value : K × V) (fresh : Nat)
    (hm : ParentsOk none m.root) (hnd : m.root.addrs.Nodup) (hf : fresh ∉ m.root.addrs) :
    lower (fun r => (map.forget r.1, r.2)) (insert comp m value fresh) =
      some (sjtu.insert comp m.forget value fresh) := by
  have e := insert_helper_forget comp value fresh hm hnd hf
  have hsf := search_node_forget comp value.1 m.root
  unfold insert sjtu.insert
  simp only [map.forget] at e ⊢
  rw [← hsf]
  cases hs : search_node comp m.root value.1 with
  | node a l r p ht v => rfl
  | nil =>
    simp only [PTree.forget]
    cases hh : insert_helper comp m value fresh with
    | error err =>
      rw [hh] at e
      cases err with
      | failure e' =>
        simp only [lower, Option.some.injEq] at e
        rw [← e]; rfl
      | stray_parent => simp [lower] at e
    | ok r =>
      rw [hh] at e
      simp only [lower, Option.some.injEq] at e
      rw [← e]; rfl

theorem erase_node_forget {t : PTree K V} (q fresh : Nat) (ht : ParentsOk none t)
    (hnd : t.addrs.Nodup) (hf : fresh ∉ t.addrs) :
    lower PTree.forget (erase_node t q fresh) = some (sjtu.erase_node t.forget q fresh) := by
  have hlf := locate_forget q t []
  simp only [List.map_nil] at hlf
  unfold erase_node sjtu.erase_node
  rw [hlf]
  cases hloc : locate t q [] with
  | none => rfl
  | some z =>
    obtain ⟨n, ctx⟩ := z
    cases n with
    | nil => rfl
    | node ta tl tr tp th tv =>
      have hrb := rebuild_locate q t [] _ hloc
      simp only [rebuild] at hrb
      have hw : WalkOk (.node ta tl tr tp th tv) ctx :=
        walkOk_of_rebuild (by rw [hrb]; exact ht) (by rw [hrb]; exact hnd)
      have hadd : t.addrs =
          before_addrs ctx ++ (tl.addrs ++ ta :: tr.addrs) ++ after_addrs ctx := by
        rw [← hrb, addrs_rebuild]; rfl
      have htp : tp = hole_parent none ctx := hw.1.1
      simp only [Option.map_some', PTree.forget, forget_is_null]
      rw [if_pos (pointer_in_parent_ok hw th)]
      by_cases hc : (!tl.is_null && !tr.is_null) = true
      · rw [if_pos hc, if_pos hc]
        have hlm := leftmost_forget (tr.set_parent (some fresh)) []
        simp only [List.map_nil, forget_set_parent] at hlm
        rw [hlm]
        cases hl : leftmost (tr.set_parent (some fresh)) [] with
        | mk s inner =>
          cases s with
          | nil => rfl
          | node sa sl sr sp sh sv =>
            have hw1 : WalkOk (tr.set_parent (some fresh))
                (PFrame.inr fresh (tl.set_parent (some fresh)) tp th sv :: ctx) := by
              refine ⟨parentsOk_set_parent (some fresh) hw.1.2.2,
                ⟨htp, parentsOk_set_parent _ hw.1.2.1, hw.2.1⟩, ?_⟩
              simp only [before_addrs, addrs_set_parent]
              rw [hadd] at hnd hf
              exact nodup_replace_middle hnd hf
            have ha := leftmost_append
              (PFrame.inr fresh (tl.set_parent (some fresh)) tp th sv :: ctx)
              (tr.set_parent (some fresh)) []
            rw [List.nil_append, hl] at ha
            have hrl := rebuild_leftmost (tr.set_parent (some fresh))
              (PFrame.inr fresh (tl.set_parent (some fresh)) tp th sv :: ctx)
            rw [ha] at hrl
            simp only at hrl
            have hw2 : WalkOk (.node sa sl sr sp sh sv)
                (inner ++ PFrame.inr fresh (tl.set_parent (some fresh)) tp th sv :: ctx) :=
              walkOk_of_rebuild (by rw [hrl]; exact (walkOk_rebuild hw1).1)
                (by rw [hrl]; exact (walkOk_rebuild hw1).2)
            have hsp : sp = hole_parent none
                (inner ++ PFrame.inr fresh (tl.set_parent (some fresh)) tp th sv :: ctx) :=
              hw2.1.1
            have hw3 : WalkOk (sr.set_parent sp)
                (inner ++ PFrame.inr fresh (tl.set_parent (some fresh)) tp th sv :: ctx) := by
              refine ⟨?_, hw2.2.1, ?_⟩
              · rw [← hsp]; exact parentsOk_set_parent sp hw2.1.2.2
              · rw [addrs_set_parent]
                exact nodup_drop_middle hw2.2.2
            have hfin := erase_from_forget hw3
            rw [← hsp] at hfin
            simp only [PTree.forget]
            rw [if_pos (pointer_in_parent_ok hw2 sh), hfin]
            simp only [forget_set_parent, List.map_append, List.map_cons, PFrame.forget]
      · rw [if_neg hc, if_neg hc]
        have hw3 : WalkOk ((if !tl.is_null then tl else tr).set_parent tp) ctx := by
          refine ⟨?_, hw.2.1, ?_⟩
          · rw [← htp]
            split
            · exact parentsOk_set_parent tp hw.1.2.1
            · exact parentsOk_set_parent tp hw.1.2.2
          · rw [addrs_set_parent]
            split
            · exact nodup_drop_middle_left hw.2.2
            · exact nodup_drop_middle hw.2.2
        have hfin := erase_from_forget hw3
        rw [← htp] at hfin
        rw [hfin, forget_set_parent]
        split <;> rfl

theorem erase_forget {m : map K V} (pos : iterator) (fresh : Nat)
    (hm : ParentsOk none m.root) (hnd : m.root.addrs.Nodup) (hf : fresh ∉ m.root.addrs) :
    lower id (erase m pos fresh).2 = some (sjtu.erase m.forget pos fresh).2 ∧
      (erase m pos fresh).1.forget = (sjtu.erase m.forget pos fresh).1 := by
  unfold erase sjtu.erase
  simp only [map.forget]
  by_cases hg : pos.this_map ≠ m.self ∨ pos.this_node = none
  · rw [if_pos hg, if_pos hg]
    exact ⟨rfl, rfl⟩
  · rw [if_neg hg, if_neg hg]
    cases hq : pos.this_node with
    | none => exact ⟨rfl, rfl⟩
    | some q =>
      have e := erase_node_forget q fresh hm hnd hf
      simp only
      cases hn : erase_node m.root q fresh with
      | error err =>
        rw [hn] at e
        cases err with
        | failure e' =>
          simp only [lower, Option.some.injEq] at e
          rw [← e]
          exact ⟨rfl, rfl⟩
        | stray_parent => simp [lower] at e
      | ok t =>
        rw [hn] at e
        simp only [lower, Option.some.injEq] at e
        rw [← e]
        exact ⟨rfl, rfl⟩

theorem parentsOk_root {t : PTree K V} (h : ParentsOk none t) : t.parent = none := by
  cases t with
  | nil => rfl
  | node a l r par ht v => exact h.1

theorem grown_map_reachable : Reachable less grown_map :=
  @Reachable.by_index Nat Nat _ less
    ⟨0, 3, .node 101 (.node 100 .nil .nil (some 101) 1 (1, 0))
      (.node 102 .nil .nil (some 101) 1 (3, 0)) none 2 (2, 0)⟩
    (grown_map, some 103) 4 103
    (@Reachable.by_insert Nat Nat _ less
      ⟨0, 2, .node 100 .nil (.node 101 .nil .nil (some 100) 1 (2, 0)) none 2 (1, 0)⟩
      (⟨0, 3, .node 101 (.node 100 .nil .nil (some 101) 1 (1, 0))
        (.node 102 .nil .nil (some 101) 1 (3, 0)) none 2 (2, 0)⟩, ⟨0, some 102⟩, true)
      (3, 0) 102
      (@Reachable.by_insert Nat Nat _ less ⟨0, 1, .node 100 .nil .nil none 1 (1, 0)⟩
        (⟨0, 2, .node 100 .nil (.node 101 .nil .nil (some 100) 1 (2, 0)) none 2 (1, 0)⟩,
          ⟨0, some 101⟩, true)
        (2, 0) 101
        (@Reachable.by_insert Nat Nat _ less (map.new 0)
          (⟨0, 1, .node 100 .nil .nil none 1 (1, 0)⟩, ⟨0, some 100⟩, true) (1, 0) 100
          (Reachable.empty_map 0) (by decide))
        (by decide))
      (by decide))
    (by decide)

theorem copied_map_reachable : Reachable less copied_map :=
  @Reachable.by_copy Nat Nat _ less (erase grown_map ⟨0, some 101⟩ 104).1 1 (fun k => 200 + k)
    (Reachable.by_erase ⟨0, some 101⟩ 104 grown_map_reachable (by decide))

/-- C26 (parent back-references stay consistent). For every map obtained from
the empty map by calls of `insert`, mutable `operator[]` and `erase` that
return normally, by `clear`, by copy construction and by copy assignment: the
root's `parent` is null, and for every node `n` of the tree a present left
child has `parent == n` and a present right child has `parent == n`. The calls
read the `parent` fields as the source does (`is_lchild`, `pointer_in_parent`,
`hot->parent`); `insert_sound`, `index_sound` and `erase_sound` show that no
such read goes astray in a tree that is consistent and has its nodes at
distinct addresses, and `insert_forget`, `erase_forget` that the calls then do
what they do on the tree without `parent` fields. -/
theorem parent_links_consistent [Inhabited V] (comp : K → K → Bool) (m : map K V)
    (h : Reachable comp m) :
    ParentsOk none m.root ∧ m.root.parent = none ∧
      ∀ n ∈ m.root.nodes,
        (n.left.is_null = false → n.left.parent = n.ptr) ∧
        (n.right.is_null = false → n.right.parent = n.ptr) :=
  ⟨parentsOk_reachable comp h, parentsOk_root (parentsOk_reachable comp h),
    parentsOk_nodes m.root none (parentsOk_reachable comp h)⟩

theorem parent_links_consistent_witness :
    Reachable less copied_map ∧
      (ParentsOk none copied_map.root ∧ copied_map.root.parent = none ∧
        ∀ n ∈ copied_map.root.nodes,
          (n.left.is_null = false → n.left.parent = n.ptr) ∧
          (n.right.is_null = false → n.right.parent = n.ptr)) :=
  ⟨copied_map_reachable, parent_links_consistent less copied_map copied_map_reachable⟩

end linked

end sjtu
